import Mathlib

/-!
# Hyperon grounding space: atoms, matcher and single-step interpreter

A shallow embedding of `src/cpp/hyperon/GroundingSpace.h` and
`src/cpp/hyperon/GroundingSpace.cpp`, followed by theorems about it.

Modelling conventions

* A `std::vector` is a `List` in index order: `back()` is `getLast?`,
  `pop_back()` is `dropLast`, `push_back(x)` is `++ [x]`.
* The file gives the code at two levels.  At the first, atoms are values
  (trees): a `shared_ptr` to a node inside the expression held by an
  `ExpressionSimplifier` is the path of child indices leading from that
  expression to the node, and the in-place assignment
  `parent->get_children()[index] = r` is a functional update at that path.
  This is what the matcher, equality and substitution need, which only read
  atoms, and it gives the expression of a simplifier exactly as long as no
  `ExprAtom` object is reachable along two different paths.  At the second
  level, in the section "Expressions as objects", the `ExprAtom` objects are
  kept in a store and a pointer to one is its address: the assignment changes
  the object and shows through every pointer to it.  What a step or a
  simplifier changes outside the expression it works on is stated at the
  second level.
* A C++ exception is an `Error`; undefined behaviour (`back()` of an empty
  vector, indexing past the end, the end of `handle_plain_expression` reached
  without a `return` statement) is `Error.undefined`.  A call that mutates a
  space reports the content of that space when the call ended, also when it
  ended by an error.
* Host-defined grounded atoms (subclasses of `GroundedAtom` written outside
  this file, `ValueAtom<T>` included) are a payload of an arbitrary type `G`
  together with a `Host G` record giving their `operator==` and `execute`.
-/

namespace Hyperon

/-- Failure of a call: the two exception classes thrown by the sources, and
undefined behaviour. -/
inductive Error where
  | runtime_error (what : String)
  | logic_error (what : String)
  | undefined (what : String)
  deriving DecidableEq

/-- The enumeration `Atom::Type`. -/
inductive AtomType where
  | SYMBOL
  | GROUNDED
  | EXPR
  | VARIABLE
  deriving DecidableEq

/-- The struct `SubExpression`.  `expr` and `parent` are pointers to nodes of
the simplified expression, modelled as paths from its root; `parent = none` is
the null pointer. -/
structure SubExpression where
  expr : List Nat
  parent : Option (List Nat)
  index : Nat
  deriving DecidableEq

/-- The class hierarchy below `Atom`: `SymbolAtom`, `GroundedAtom` (host
payloads), `ExprAtom`, `VariableAtom`, and the file-local grounded atom
`ExpressionSimplifier` with its fields `full` and `subs`. -/
inductive Atom (G : Type) where
  | symbol (symbol : String)
  | grounded (payload : G)
  | expr (children : List (Atom G))
  | variable (name : String)
  | simplifier (full : Atom G) (subs : List SubExpression)

/-- The effect of a grounded `execute(args, result)` written by the host: the
atoms it adds to `result` with `add_atom`, in order, and the exception it
ends with, if any. -/
structure Executed (G : Type) where
  added : List (Atom G)
  thrown : Option Error

/-- What host code supplies for its grounded atoms: `operator==` between two
host payloads (a host atom is unequal to every atom that is not a host atom,
as the `dynamic_cast` in `ValueAtom::operator==` makes it), and `execute`. -/
structure Host (G : Type) where
  eq : G → G → Bool
  execute : G → List (Atom G) → Executed G

/-- The base implementation `GroundedAtom::execute`, inherited by
`ValueAtom<T>`: it throws. -/
def GroundedAtom.execute {G : Type} (_args : List (Atom G)) : Executed G :=
  ⟨[], some (Error.runtime_error "Operation is not supported")⟩

variable {G : Type}

/-- The virtual `get_type()`: an `ExpressionSimplifier` is a `GroundedAtom`. -/
def Atom.get_type : Atom G → AtomType
  | .symbol _ => AtomType.SYMBOL
  | .grounded _ => AtomType.GROUNDED
  | .expr _ => AtomType.EXPR
  | .variable _ => AtomType.VARIABLE
  | .simplifier _ _ => AtomType.GROUNDED

mutual
/-- The virtual `operator==` of atoms, dispatched on the left operand.  The
`ExprAtom` case inlines `operator==(vector, vector)`: the size test, then the
loop `Atom.equals_loop`. -/
def Atom.equals (h : Host G) : Atom G → Atom G → Bool
  | .symbol s, .symbol t => decide (s = t)
  | .symbol _, _ => false
  | .grounded g, .grounded g' => h.eq g g'
  | .grounded _, _ => false
  | .expr a, .expr b => if a.length ≠ b.length then false else Atom.equals_loop h a b
  | .expr _, _ => false
  | .variable n, .variable m => decide (n = m)
  | .variable _, _ => false
  | .simplifier full _, .simplifier full' _ => Atom.equals h full full'
  | .simplifier _ _, _ => false
/-- The loop of `operator==(vector, vector)`: the first unequal pair ends it. -/
def Atom.equals_loop (h : Host G) : List (Atom G) → List (Atom G) → Bool
  | a :: as, b :: bs => if !(Atom.equals h a b) then false else Atom.equals_loop h as bs
  | _, _ => true
end

/-! ## Bindings -/

/-- The type `Bindings`, a `std::map` from variables to atoms ordered by the
variable name: the entries in increasing order of name. -/
abbrev Bindings (G : Type) := List (String × Atom G)

/-- The lookup `bindings.find(var)`. -/
def Bindings.find : Bindings G → String → Option (Atom G)
  | [], _ => none
  | (k, v) :: rest, name => if k = name then some v else Bindings.find rest name

/-- The assignment `bindings[var] = atom`: overwrite the entry of that name,
or insert one at its place in the order. -/
def Bindings.set : Bindings G → String → Atom G → Bindings G
  | [], name, atom => [(name, atom)]
  | (k, v) :: rest, name, atom =>
    if name < k then (name, atom) :: (k, v) :: rest
    else if k < name then (k, v) :: Bindings.set rest name atom
    else (k, atom) :: rest

/-- The names bound by a binding map. -/
def Bindings.keys (b : Bindings G) : List String := b.map Prod.fst

/-- The struct `MatchResult`. -/
structure MatchResult (G : Type) where
  a_bindings : Bindings G
  b_bindings : Bindings G

/-- A default-constructed `MatchResult`. -/
def MatchResult.empty : MatchResult G := ⟨[], []⟩

/-! ## Matcher -/

mutual
/-- The function `match_atoms(a, b, match)`: the returned flag together with
the match result as the call left it.  The `default` branch of the switch is
unreachable, the four tags being exhaustive. -/
def match_atoms (h : Host G) : Atom G → Atom G → MatchResult G → Bool × MatchResult G
  | a, .variable name, m => (true, { m with b_bindings := m.b_bindings.set name a })
  | .symbol s, b, m => (Atom.equals h (.symbol s) b, m)
  | .grounded g, b, m => (Atom.equals h (.grounded g) b, m)
  | .simplifier full subs, b, m => (Atom.equals h (.simplifier full subs) b, m)
  | .variable name, b, m => (true, { m with a_bindings := m.a_bindings.set name b })
  | .expr childrenA, .expr childrenB, m =>
    if childrenA.length ≠ childrenB.length then (false, m)
    else match_atoms_loop h childrenA childrenB m
  | .expr _, _, m => (false, m)
/-- The loop over the children in the `EXPR` case of `match_atoms`. -/
def match_atoms_loop (h : Host G) :
    List (Atom G) → List (Atom G) → MatchResult G → Bool × MatchResult G
  | a :: as, b :: bs, m =>
    match match_atoms h a b m with
    | (false, m') => (false, m')
    | (true, m') => match_atoms_loop h as bs m'
  | _, _, m => (true, m)
end

mutual
/-- The function `apply_match_to_atom(atom, bindings)`. -/
def apply_match_to_atom : Atom G → Bindings G → Atom G
  | .symbol s, _ => .symbol s
  | .grounded g, _ => .grounded g
  | .simplifier full subs, _ => .simplifier full subs
  | .variable name, bindings =>
    match bindings.find name with
    | some value => value
    | none => .variable name
  | .expr children, bindings => .expr (apply_match_to_children children bindings)
/-- The loop of the `EXPR` case of `apply_match_to_atom`. -/
def apply_match_to_children : List (Atom G) → Bindings G → List (Atom G)
  | [], _ => []
  | atom :: rest, bindings =>
    apply_match_to_atom atom bindings :: apply_match_to_children rest bindings
end

/-- The function `apply_a_to_b_bindings(match)`. -/
def apply_a_to_b_bindings (m : MatchResult G) : MatchResult G :=
  { m with
    b_bindings :=
      m.b_bindings.foldl
        (fun b_bindings pair =>
          b_bindings.set pair.1 (apply_match_to_atom pair.2 m.a_bindings))
        [] }

/-! ## Spaces -/

/-- The class `GroundingSpace`: its only field is `content`. -/
structure GroundingSpace (G : Type) where
  content : List (Atom G)

/-- The static `GroundingSpace::TYPE`. -/
def GroundingSpace.TYPE : String := "GroundingSpace"

/-- The method `add_atom`. -/
def GroundingSpace.add_atom (self : GroundingSpace G) (atom : Atom G) : GroundingSpace G :=
  ⟨self.content ++ [atom]⟩

/-- Modelled from the spec: the interface `SpaceAPI` of `SpaceAPI.h`, which is
not among the sources.  A space is a grounding space or a space of another
implementation, of which only the type tag is known. -/
inductive SpaceAPI (G : Type) where
  | grounding (space : GroundingSpace G)
  | foreign (type : String)

/-- The virtual `get_type()` of a space. -/
def SpaceAPI.get_type : SpaceAPI G → String
  | .grounding _ => GroundingSpace.TYPE
  | .foreign type => type

/-- The function `apply_match_to_templ(results, templ, match)`. -/
def apply_match_to_templ (results : GroundingSpace G) :
    List (Atom G) → MatchResult G → GroundingSpace G
  | [], _ => results
  | atom :: templ, m =>
    apply_match_to_templ (results.add_atom (apply_match_to_atom atom m.b_bindings)) templ m

/-- The loop over `content` in `GroundingSpace::match`. -/
def GroundingSpace.match_loop (h : Host G) (pattern_atom : Atom G) (templ : List (Atom G)) :
    List (Atom G) → GroundingSpace G → GroundingSpace G
  | [], result => result
  | kb_atom :: content, result =>
    match match_atoms h kb_atom pattern_atom MatchResult.empty with
    | (false, _) => GroundingSpace.match_loop h pattern_atom templ content result
    | (true, match_result) =>
      GroundingSpace.match_loop h pattern_atom templ content
        (apply_match_to_templ result templ (apply_a_to_b_bindings match_result))

/-- The method `GroundingSpace::match(_pattern, _templ, result)`: how the call
ended, and the output space as the call left it.  A space that carries the
tag of a grounding space without being one makes the `static_cast`
undefined. -/
def GroundingSpace.match_ (h : Host G) (self : GroundingSpace G)
    (_pattern _templ : SpaceAPI G) (result : GroundingSpace G) :
    Except Error Unit × GroundingSpace G :=
  if _pattern.get_type ≠ GroundingSpace.TYPE then
    (.error (.runtime_error "_pattern is expected to be GroundingSpace"), result)
  else if _templ.get_type ≠ GroundingSpace.TYPE then
    (.error (.runtime_error "_templ is expected to be GroundingSpace"), result)
  else
    match _pattern, _templ with
    | .grounding pattern, .grounding templ =>
      match pattern.content with
      | [pattern_atom] =>
        (.ok (), GroundingSpace.match_loop h pattern_atom templ.content self.content result)
      | _ =>
        (.error (.logic_error "_pattern with more than one clause is not supported"), result)
    | _, _ => (.error (.undefined "static_cast of a space that is no GroundingSpace"), result)

/-! ## Interpreter -/

/-- One invocation `func->execute(args, result)` made by `handle_plain_expression`. -/
structure Call (G : Type) where
  func : Atom G
  args : List (Atom G)

/-- How a call that mutates a space ended: the value it returned or the error that ended
it, the content of the mutated space at that moment, and the invocations of `execute` made
on the way, in order. -/
structure Run (G : Type) (α : Type) where
  value : Except Error α
  space : GroundingSpace G
  calls : List (Call G)

/-- The node a pointer into an expression designates: the atom reached from the root by
following the child indices of the path. -/
def Atom.node_at : Atom G → List Nat → Option (Atom G)
  | atom, [] => some atom
  | .expr children, i :: path =>
    match children[i]? with
    | some child => child.node_at path
    | none => none
  | _, _ :: _ => none

/-- The assignment `parent->get_children()[index] = value` on the tree that holds the node
`parent`; `none` when `parent` designates no expression or `index` is past its children. -/
def Atom.set_child : Atom G → List Nat → Nat → Atom G → Option (Atom G)
  | .expr children, [], index, value =>
    if index < children.length then some (.expr (children.set index value)) else none
  | .expr children, i :: path, index, value =>
    match children[i]? with
    | some child =>
      match child.set_child path index value with
      | some child' => some (.expr (children.set i child'))
      | none => none
    | none => none
  | _, _, _, _ => none

mutual
/-- The method `ExpressionSimplifier::parse(expr, parent, index)`, appending to `subs`;
`path` is the place of `expr` in the expression being parsed. -/
def ExpressionSimplifier.parse (expr : Atom G) (path : List Nat) (parent : Option (List Nat))
    (index : Nat) (subs : List SubExpression) : List SubExpression :=
  match expr with
  | .expr children =>
    ExpressionSimplifier.parse_loop children path 0 (subs ++ [⟨path, parent, index⟩])
  | _ => subs
/-- The loop of `parse` over the children of the expression at `path`, from child `i` on. -/
def ExpressionSimplifier.parse_loop (children : List (Atom G)) (path : List Nat) (i : Nat)
    (subs : List SubExpression) : List SubExpression :=
  match children with
  | [] => subs
  | child :: rest =>
    ExpressionSimplifier.parse_loop rest path (i + 1)
      (if child.get_type = AtomType.EXPR then
        ExpressionSimplifier.parse child (path ++ [i]) (some path) i subs
      else subs)
end

/-- The constructor `ExpressionSimplifier(expr)`. -/
def ExpressionSimplifier.new (expr : Atom G) : Atom G :=
  .simplifier expr (ExpressionSimplifier.parse expr [] none 0 [])

/-- The method `pop_sub()`. -/
def ExpressionSimplifier.pop_sub (full : Atom G) (subs : List SubExpression) : Atom G :=
  .simplifier full subs.dropLast

set_option linter.unusedVariables false in
mutual
/-- The function `handle_plain_expression(expr, result)`, `expr` given by its children.
The returned value is `none` on the path on which the function ends without a `return`
statement (grounded operator, a variable among the children). -/
def handle_plain_expression (h : Host G) (expr : List (Atom G)) (result : GroundingSpace G) :
    Run G (Option Bool) :=
  match expr with
  | [] => ⟨.error (.undefined "get_children()[0] of an expression without children"), result, []⟩
  | op :: rest =>
    if op.get_type = AtomType.GROUNDED then
      if (op :: rest).any (fun child => child.get_type = AtomType.VARIABLE) then
        ⟨.ok none, result, []⟩
      else
        match Atom.execute h op (op :: rest) result with
        | ⟨.ok _, space, calls⟩ => ⟨.ok (some true), space, ⟨op, op :: rest⟩ :: calls⟩
        | ⟨.error e, space, calls⟩ => ⟨.error e, space, ⟨op, op :: rest⟩ :: calls⟩
    else ⟨.ok (some false), result, []⟩
termination_by sizeOf expr
decreasing_by
  all_goals simp_wf
  all_goals omega
/-- The virtual `execute(args, result)` of the grounded atom `func`: host code for a host
payload, `ExpressionSimplifier::execute` for a simplifier. -/
def Atom.execute (h : Host G) (func : Atom G) (args : List (Atom G))
    (result : GroundingSpace G) : Run G Unit :=
  match func with
  | .grounded payload =>
    match h.execute payload args with
    | ⟨added, none⟩ => ⟨.ok (), ⟨result.content ++ added⟩, []⟩
    | ⟨added, some e⟩ => ⟨.error e, ⟨result.content ++ added⟩, []⟩
  | .simplifier full subs => (ExpressionSimplifier.execute h full subs args result).1
  | _ => ⟨.error (.undefined "execute of an atom that is not grounded"), result, []⟩
termination_by sizeOf func
decreasing_by
  all_goals simp_wf
  all_goals omega
/-- The method `ExpressionSimplifier::execute(args, result)` of the simplifier with fields
`full` and `subs`, together with the expression `full` as the call left it.  The assignment
to the child of `parent` is made on the tree `full`, at the path of `parent`: it gives what
the simplifier reads of its own expression afterwards, not what other holders of the object
`parent` read, for which see `Objects.ExpressionSimplifier.execute`. -/
def ExpressionSimplifier.execute (h : Host G) (full : Atom G) (subs : List SubExpression)
    (_args : List (Atom G)) (result : GroundingSpace G) : Run G Unit × Atom G :=
  match subs.getLast? with
  | none => (⟨.error (.undefined "subs.back() of an empty vector"), result, []⟩, full)
  | some sub =>
    match sub.parent with
    | none =>
      match hn : full.node_at sub.expr with
      | some (.expr children) =>
        match handle_plain_expression h children result with
        | ⟨.error e, space, calls⟩ => (⟨.error e, space, calls⟩, full)
        | ⟨.ok (some true), space, calls⟩ => (⟨.ok (), space, calls⟩, full)
        | ⟨.ok (some false), space, calls⟩ =>
          (⟨.ok (), space.add_atom (.expr children), calls⟩, full)
        | ⟨.ok none, space, calls⟩ =>
          (⟨.error (.undefined "value of a call that returned none"), space, calls⟩, full)
      | _ => (⟨.error (.undefined "sub.expr designates no expression"), result, []⟩, full)
    | some parent =>
      match hn : full.node_at sub.expr with
      | some (.expr children) =>
        match handle_plain_expression h children ⟨[]⟩ with
        | ⟨.error e, _, calls⟩ => (⟨.error e, result, calls⟩, full)
        | ⟨.ok none, _, calls⟩ =>
          (⟨.error (.undefined "value of a call that returned none"), result, calls⟩, full)
        | ⟨.ok (some executed), tmp, calls⟩ =>
          match (if executed then tmp else tmp.add_atom (.expr children)).content with
          | [reduced] =>
            match full.set_child parent sub.index reduced with
            | some full' =>
              (⟨.ok (), result.add_atom (.expr [ExpressionSimplifier.pop_sub full' subs]),
                calls⟩, full')
            | none =>
              (⟨.error (.undefined "assignment to a child that does not exist"), result,
                calls⟩, full)
          | _ =>
            (⟨.error (.logic_error
                "This case is not implemented yet: result size is not equal to 1"),
              result, calls⟩, full)
      | _ => (⟨.error (.undefined "sub.expr designates no expression"), result, []⟩, full)
termination_by sizeOf full
decreasing_by
  all_goals simp_wf
  all_goals
    have key : ∀ (p : List Nat) (a n : Atom G), a.node_at p = some n → sizeOf n ≤ sizeOf a := by
      intro p
      induction p with
      | nil => intro a n e; simp [Atom.node_at] at e; rw [e]
      | cons i p ih =>
        intro a n e
        cases a with
        | expr cs =>
          simp only [Atom.node_at] at e
          split at e
          · rename_i child hc
            have h1 := ih _ _ e
            have h2 := List.sizeOf_lt_of_mem (List.getElem?_mem hc)
            simp only [Atom.expr.sizeOf_spec]
            omega
          · simp at e
        | _ => simp [Atom.node_at] at e
    have := key _ _ _ hn
    simp only [Atom.expr.sizeOf_spec] at this
    omega
end

/-- The function `is_plain(expr)`, `expr` given by its children. -/
def is_plain (expr : List (Atom G)) : Bool :=
  expr.all fun child => child.get_type ≠ AtomType.EXPR

/-- The method `GroundingSpace::interpret_step(_kb)`.  The value that
`handle_plain_expression` returns is not used here; a call of it that ends without a `return`
statement is undefined all the same, used or not. -/
def GroundingSpace.interpret_step (h : Host G) (self : GroundingSpace G) (_kb : SpaceAPI G) :
    Run G Unit :=
  if _kb.get_type ≠ GroundingSpace.TYPE then
    ⟨.error (.runtime_error "Only GroundingSpace knowledge bases are supported"), self, []⟩
  else
    match self.content.getLast? with
    | none => ⟨.error (.undefined "content.back() of an empty vector"), self, []⟩
    | some atom =>
      match atom with
      | .expr expr =>
        if is_plain expr then
          match handle_plain_expression h expr ⟨self.content.dropLast⟩ with
          | ⟨.ok (some _), space, calls⟩ => ⟨.ok (), space, calls⟩
          | ⟨.ok none, space, calls⟩ =>
            ⟨.error (.undefined "handle_plain_expression ended without a return statement"),
              space, calls⟩
          | ⟨.error e, space, calls⟩ => ⟨.error e, space, calls⟩
        else
          ⟨.ok (), ⟨self.content.dropLast ++ [.expr [ExpressionSimplifier.new (.expr expr)]]⟩, []⟩
      | _ => ⟨.ok (), ⟨self.content.dropLast⟩, []⟩

/-- Successive calls of `interpret_step` on the same space, stopping at the first that
fails: the space after `n` calls. -/
def GroundingSpace.interpret_steps (h : Host G) :
    Nat → GroundingSpace G → SpaceAPI G → Except Error (GroundingSpace G)
  | 0, self, _ => .ok self
  | n + 1, self, kb =>
    match self.interpret_step h kb with
    | ⟨.ok _, space, _⟩ => GroundingSpace.interpret_steps h n space kb
    | ⟨.error e, _, _⟩ => .error e

/-! ## Definitions used to state the properties -/

mutual
/-- The names of the variables occurring in an atom, at any depth of its expression
structure. -/
def Atom.variables : Atom G → List String
  | .symbol _ => []
  | .grounded _ => []
  | .simplifier _ _ => []
  | .variable name => [name]
  | .expr children => Atom.variables_of children
/-- The names of the variables occurring in a list of atoms. -/
def Atom.variables_of : List (Atom G) → List String
  | [] => []
  | atom :: rest => atom.variables ++ Atom.variables_of rest
end

/-- The entries are in strictly increasing order of name, as in every `std::map`. -/
def Bindings.Ordered (b : Bindings G) : Prop := b.Pairwise (fun p q => p.1 < q.1)

/-- The binding map `b` of a successful match as `GroundingSpace::match` uses it, in the
words of the specification: every bound value of `b_bindings` replaced by its image under
`a_bindings`. -/
def composed_bindings (m : MatchResult G) : Bindings G :=
  m.b_bindings.map fun p => (p.1, apply_match_to_atom p.2 m.a_bindings)

/-- What one atom `K` of the queried space contributes to the output of a match against the
clause `P` with the template atoms `T`, in the words of the specification. -/
def match_contribution (h : Host G) (P : Atom G) (T : List (Atom G)) (K : Atom G) :
    List (Atom G) :=
  match match_atoms h K P MatchResult.empty with
  | (true, m) => T.map fun t => apply_match_to_atom t (composed_bindings m)
  | (false, _) => []

mutual
/-- The number of expression nodes of an atom, the atom itself included. -/
def Atom.expression_count : Atom G → Nat
  | .expr children => 1 + Atom.expression_count_of children
  | _ => 0
/-- The number of expression nodes of a list of atoms. -/
def Atom.expression_count_of : List (Atom G) → Nat
  | [] => 0
  | atom :: rest => atom.expression_count + Atom.expression_count_of rest
end

mutual
/-- Every expression node of the atom has a grounded atom as child 0 and no variable among
its children. -/
def Atom.interpretable : Atom G → Bool
  | .expr children =>
    (match children with
      | op :: _ => decide (op.get_type = AtomType.GROUNDED)
      | [] => false) &&
    children.all (fun child => decide (child.get_type ≠ AtomType.VARIABLE)) &&
    Atom.interpretable_all children
  | _ => true
/-- Every atom of the list is `interpretable`. -/
def Atom.interpretable_all : List (Atom G) → Bool
  | [] => true
  | atom :: rest => atom.interpretable && Atom.interpretable_all rest
end

mutual
/-- The operators of an atom: child 0 of each of its expression nodes. -/
def Atom.operators : Atom G → List (Atom G)
  | .expr children => children.head?.toList ++ Atom.operators_of children
  | _ => []
/-- The operators of the atoms of a list. -/
def Atom.operators_of : List (Atom G) → List (Atom G)
  | [] => []
  | atom :: rest => atom.operators ++ Atom.operators_of rest
end

mutual
/-- The recursive bottom-up evaluator of the specification: the value of an atom that is no
expression is the atom; the value of an expression is the single atom its operator's
`execute` adds to an empty space when given the children with every nested expression
replaced by its value.  `none` when some `execute` on the way fails or adds a number of atoms
other than one. -/
def Atom.bottom_up (h : Host G) : Atom G → Option (Atom G)
  | .expr children =>
    match Atom.bottom_up_children h children with
    | some (op :: args) =>
      match Atom.execute h op (op :: args) ⟨[]⟩ with
      | ⟨.ok _, ⟨[value]⟩, _⟩ => some value
      | _ => none
    | _ => none
  | .symbol s => some (.symbol s)
  | .grounded g => some (.grounded g)
  | .variable name => some (.variable name)
  | .simplifier full subs => some (.simplifier full subs)
/-- The children of an expression with every nested expression replaced by its value. -/
def Atom.bottom_up_children (h : Host G) : List (Atom G) → Option (List (Atom G))
  | [] => some []
  | child :: rest =>
    match child.bottom_up h, Atom.bottom_up_children h rest with
    | some value, some values => some (value :: values)
    | _, _ => none
end

mutual
/-- The payloads of the host grounded atoms inside an atom: those of its expression nodes
at any depth and, for a simplifier, those of its `full`, the only field that `operator==`
of a simplifier looks at. -/
def Atom.payloads : Atom G → List G
  | .grounded payload => [payload]
  | .expr children => Atom.payloads_of children
  | .simplifier full _ => full.payloads
  | .symbol _ => []
  | .variable _ => []
/-- The payloads of the host grounded atoms inside the atoms of a list. -/
def Atom.payloads_of : List (Atom G) → List G
  | [] => []
  | atom :: rest => atom.payloads ++ Atom.payloads_of rest
end

/-- The tree `atom` with the node at `path` replaced by `new`; `atom` itself when the path
leads to no node. -/
def Atom.replace_at : Atom G → List Nat → Atom G → Atom G
  | _, [], new => new
  | .expr children, i :: path, new =>
    match children[i]? with
    | some child => .expr (children.set i (child.replace_at path new))
    | none => .expr children
  | atom, _ :: _, _ => atom

mutual
/-- Every expression node of the atom has at least one child, and a child 0 that is not
grounded. -/
def Atom.uninterpretable : Atom G → Bool
  | .expr children =>
    (match children with
      | op :: _ => decide (op.get_type ≠ AtomType.GROUNDED)
      | [] => false) &&
    Atom.uninterpretable_all children
  | _ => true
/-- Every atom of the list is `uninterpretable`. -/
def Atom.uninterpretable_all : List (Atom G) → Bool
  | [] => true
  | atom :: rest => atom.uninterpretable && Atom.uninterpretable_all rest
end

/-- The simplifiers that `interpret_step` can leave on a space, given by their fields
`full` and `subs`: the simplifier `ExpressionSimplifier(expr)` that is built for a compound
expression, and the simplifier `pop_sub()` that a call of `execute` which ended without
error on an entry with a parent has added to its result. -/
inductive ExpressionSimplifier.Placed (h : Host G) : Atom G → List SubExpression → Prop where
  | built (expr : List (Atom G)) (full : Atom G) (subs : List SubExpression)
      (hcompound : is_plain expr = false)
      (hnew : ExpressionSimplifier.new (.expr expr) = .simplifier full subs) :
      ExpressionSimplifier.Placed h full subs
  | advanced (full full' popped : Atom G) (subs subs' : List SubExpression)
      (sub : SubExpression) (parent : List Nat) (args : List (Atom G))
      (result : GroundingSpace G) (run : Run G Unit)
      (hplaced : ExpressionSimplifier.Placed h full subs)
      (hsub : subs.getLast? = some sub) (hparent : sub.parent = some parent)
      (hrun : ExpressionSimplifier.execute h full subs args result = (run, full'))
      (hok : run.value = .ok ())
      (hpop : ExpressionSimplifier.pop_sub full' subs = .simplifier popped subs') :
      ExpressionSimplifier.Placed h popped subs'

/-- The entries of `subs` fit the expression `full`: the first entry is `full` itself, without
parent; every other entry is the child `index` of its parent; every entry designates an
expression of `full`; and no entry lies at or below an entry that comes after it. -/
def ExpressionSimplifier.Fits (full : Atom G) (subs : List SubExpression) : Prop :=
  (∃ index rest, subs = ⟨[], none, index⟩ :: rest ∧
    ∀ s ∈ rest, ∃ parent, s.parent = some parent ∧ s.expr = parent ++ [s.index]) ∧
  (∀ s ∈ subs, ∃ children, full.node_at s.expr = some (.expr children)) ∧
  subs.Pairwise (fun s t => ¬ t.expr <+: s.expr)

/-- The atom that `ExpressionSimplifier::execute` assigns to the child of the parent for an
entry whose expression has the children `children`: `handle_plain_expression` is applied to
the expression with an empty space `tmp`, the expression itself is added to `tmp` when it
was declined, and the single atom of `tmp` is the result.  `none` when the call fails or
`tmp` holds a number of atoms other than one. -/
def ExpressionSimplifier.reduction (h : Host G) (children : List (Atom G)) :
    Option (Atom G) :=
  match handle_plain_expression h children ⟨[]⟩ with
  | ⟨.ok (some executed), tmp, _⟩ =>
    match (if executed then tmp else tmp.add_atom (.expr children)).content with
    | [atom] => some atom
    | _ => none
  | _ => none

mutual
/-- The atom that the simplifier leaves in the place of an atom of its expression once the
entries of the atom have been executed: an atom that is no expression stays; in an
expression the children are reduced first, and the expression with the reduced children
is replaced by its `reduction`.  `none` when a reduction on the way is `none`. -/
def Atom.reduced (h : Host G) : Atom G → Option (Atom G)
  | .expr children =>
    match Atom.reduced_children h children with
    | some reduced => ExpressionSimplifier.reduction h reduced
    | none => none
  | .symbol s => some (.symbol s)
  | .grounded g => some (.grounded g)
  | .variable name => some (.variable name)
  | .simplifier full subs => some (.simplifier full subs)
/-- The children of an expression, each one reduced. -/
def Atom.reduced_children (h : Host G) : List (Atom G) → Option (List (Atom G))
  | [] => some []
  | child :: rest =>
    match child.reduced h, Atom.reduced_children h rest with
    | some atom, some atoms => some (atom :: atoms)
    | _, _ => none
end

/-- The atom is a symbol or a host grounded atom: neither an expression, nor a variable,
nor a simplifier. -/
def Atom.is_value : Atom G → Bool
  | .symbol _ => true
  | .grounded _ => true
  | _ => false

/-- The operator is a host grounded atom whose `execute` is a pure function that returns
one value: whatever the arguments, it ends without error having added exactly one atom,
a symbol or a host grounded atom. -/
def Atom.host_returns_one_value (h : Host G) (op : Atom G) : Prop :=
  ∃ payload, op = .grounded payload ∧
    ∀ args : List (Atom G), ∃ value : Atom G,
      value.is_value = true ∧ h.execute payload args = ⟨[value], none⟩

/-! ## Expressions as objects

The definitions above take an expression as a value.  The code holds `ExprAtom` objects
through `shared_ptr`, and `ExpressionSimplifier::execute` assigns to a child of such an
object in place: the assignment shows through every pointer to the object.  The
definitions of this section keep the objects apart from the pointers to them.  Symbols,
variables, host grounded atoms and simplifiers are never modified once made, so a pointer
to one of them is given by the atom itself; a pointer to an `ExprAtom` is the address of
the object in a store.  A recursion that follows pointers takes `fuel`, and `none` stands
for a call that ran out of fuel or followed an address that the store does not have.  A
host `execute` is, as before, a function of the atoms it is given: it is handed the atoms
that the pointers of `args` designate, assigns to no object, and the atoms it adds to the
result space are new objects.
-/

namespace Objects

/-- The `struct SubExpression` of the code: `expr` and `parent` are pointers to `ExprAtom`
objects, here their addresses; `parent` is `none` for the null pointer. -/
structure SubExpression where
  expr : Nat
  parent : Option Nat
  index : Nat

/-- An `AtomPtr`: the atom itself for the classes whose objects are never modified, the
address of the object for an `ExprAtom`.  The field `full` of a simplifier is a pointer to
an `ExprAtom`. -/
inductive AtomPtr (G : Type) where
  | symbol (name : String)
  | grounded (payload : G)
  | variable (name : String)
  | simplifier (full : Nat) (subs : List SubExpression)
  | expr (address : Nat)

/-- The `ExprAtom` objects in existence: the object at an address is its vector `children`.
A new object gets the first free address. -/
abbrev Store (G : Type) := List (List (AtomPtr G))

/-- The virtual method `get_type()`. -/
def AtomPtr.get_type : AtomPtr G → AtomType
  | .symbol _ => AtomType.SYMBOL
  | .grounded _ => AtomType.GROUNDED
  | .variable _ => AtomType.VARIABLE
  | .simplifier _ _ => AtomType.GROUNDED
  | .expr _ => AtomType.EXPR

/-- One invocation `func->execute(args, result)` made by `handle_plain_expression`. -/
structure Call (G : Type) where
  func : AtomPtr G
  args : List (AtomPtr G)

/-- How a call that mutates a space ended: the value it returned or the error that ended
it, the objects and the content of the mutated space at that moment, and the invocations of
`execute` made on the way, in order. -/
structure Run (G : Type) (α : Type) where
  value : Except Error α
  store : Store G
  space : List (AtomPtr G)
  calls : List (Call G)

/-- The atoms that the pointers of a list designate, each read by `read`. -/
def read_children (read : AtomPtr G → Option (Atom G)) :
    List (AtomPtr G) → Option (List (Atom G))
  | [] => some []
  | child :: rest =>
    match read child, read_children read rest with
    | some atom, some atoms => some (atom :: atoms)
    | _, _ => none

/-- The atom that a pointer designates, as the value that a host `execute` is given: an
expression with the atoms its children designate at the moment of the call.  Of a
simplifier a host can see the expression `full` only. -/
def Store.read (σ : Store G) : Nat → AtomPtr G → Option (Atom G)
  | 0 => fun atom =>
    match atom with
    | .symbol name => some (.symbol name)
    | .grounded payload => some (.grounded payload)
    | .variable name => some (.variable name)
    | _ => none
  | fuel + 1 => fun atom =>
    match atom with
    | .symbol name => some (.symbol name)
    | .grounded payload => some (.grounded payload)
    | .variable name => some (.variable name)
    | .expr address =>
      match σ[address]? with
      | some children => (read_children (Store.read σ fuel) children).map Atom.expr
      | none => none
    | .simplifier full _ =>
      (Store.read σ fuel (.expr full)).map fun atom => Atom.simplifier atom []

mutual
/-- The atoms that a host `execute` adds to its result space are new objects: the store
with the `ExprAtom` objects of `atom` added, children first, and the pointer to `atom`.
Host code cannot make an `ExpressionSimplifier`, a class of `GroundingSpace.cpp` alone; the
case of a simplifier is there for the function to be total. -/
def Store.alloc (σ : Store G) : Atom G → Store G × AtomPtr G
  | .symbol name => (σ, .symbol name)
  | .grounded payload => (σ, .grounded payload)
  | .variable name => (σ, .variable name)
  | .expr children =>
    match Store.alloc_all σ children with
    | (σ', pointers) => (σ' ++ [pointers], .expr σ'.length)
  | .simplifier full _ =>
    match Store.alloc σ full with
    | (σ', .expr address) => (σ', .simplifier address [])
    | (σ', _) => (σ', .simplifier σ'.length [])
/-- The store with the objects of the atoms of a list added, in order, and the pointers to
the atoms. -/
def Store.alloc_all (σ : Store G) : List (Atom G) → Store G × List (AtomPtr G)
  | [] => (σ, [])
  | atom :: rest =>
    match Store.alloc σ atom with
    | (σ', pointer) =>
      match Store.alloc_all σ' rest with
      | (σ'', pointers) => (σ'', pointer :: pointers)
end

/-- The loop of `ExpressionSimplifier::parse` over the children of the object `expr`, from
child `i` on; `parse` is the recursive call. -/
def ExpressionSimplifier.parse_loop
    (parse : Nat → Option Nat → Nat → List SubExpression → Option (List SubExpression))
    (expr : Nat) : List (AtomPtr G) → Nat → List SubExpression → Option (List SubExpression)
  | [], _, subs => some subs
  | .expr child :: rest, i, subs =>
    match parse child (some expr) i subs with
    | some subs' => ExpressionSimplifier.parse_loop parse expr rest (i + 1) subs'
    | none => none
  | _ :: rest, i, subs => ExpressionSimplifier.parse_loop parse expr rest (i + 1) subs

/-- The method `ExpressionSimplifier::parse(expr, parent, index)`, appending to `subs`. -/
def ExpressionSimplifier.parse (σ : Store G) :
    Nat → Nat → Option Nat → Nat → List SubExpression → Option (List SubExpression)
  | 0 => fun _ _ _ _ => none
  | fuel + 1 => fun expr parent index subs =>
    match σ[expr]? with
    | some children =>
      ExpressionSimplifier.parse_loop (ExpressionSimplifier.parse σ fuel) expr children 0
        (subs ++ [⟨expr, parent, index⟩])
    | none => none

/-- The function `handle_plain_expression(expr, result)`; `execute` is the virtual call
`func->execute(args, result)`.  The returned value is `none` on the path on which the
function ends without a `return` statement. -/
def handle_plain_expression
    (execute : AtomPtr G → List (AtomPtr G) → Store G → List (AtomPtr G) →
      Option (Run G Unit))
    (σ : Store G) (expr : Nat) (result : List (AtomPtr G)) : Option (Run G (Option Bool)) :=
  match σ[expr]? with
  | none => none
  | some [] =>
    some ⟨.error (.undefined "get_children()[0] of an expression without children"), σ,
      result, []⟩
  | some (op :: rest) =>
    if op.get_type = AtomType.GROUNDED then
      if (op :: rest).any (fun child => child.get_type = AtomType.VARIABLE) then
        some ⟨.ok none, σ, result, []⟩
      else
        match execute op (op :: rest) σ result with
        | none => none
        | some ⟨.ok _, σ', space, calls⟩ =>
          some ⟨.ok (some true), σ', space, ⟨op, op :: rest⟩ :: calls⟩
        | some ⟨.error e, σ', space, calls⟩ =>
          some ⟨.error e, σ', space, ⟨op, op :: rest⟩ :: calls⟩
    else some ⟨.ok (some false), σ, result, []⟩

/-- The method `ExpressionSimplifier::execute(args, result)` of the simplifier with fields
`full` and `subs`; `execute` is the virtual call made by `handle_plain_expression`.  The
assignment `sub.parent->get_children()[sub.index] = tmp.get_content()[0]` replaces the
object at the address `parent`; `E({ pop_sub() })` is a new object. -/
def ExpressionSimplifier.execute
    (execute : AtomPtr G → List (AtomPtr G) → Store G → List (AtomPtr G) →
      Option (Run G Unit))
    (σ : Store G) (full : Nat) (subs : List SubExpression) (_args : List (AtomPtr G))
    (result : List (AtomPtr G)) : Option (Run G Unit) :=
  match subs.getLast? with
  | none => some ⟨.error (.undefined "subs.back() of an empty vector"), σ, result, []⟩
  | some sub =>
    match sub.parent with
    | none =>
      match handle_plain_expression execute σ sub.expr result with
      | none => none
      | some ⟨.error e, σ', space, calls⟩ => some ⟨.error e, σ', space, calls⟩
      | some ⟨.ok (some true), σ', space, calls⟩ => some ⟨.ok (), σ', space, calls⟩
      | some ⟨.ok (some false), σ', space, calls⟩ =>
        some ⟨.ok (), σ', space ++ [.expr sub.expr], calls⟩
      | some ⟨.ok none, σ', space, calls⟩ =>
        some ⟨.error (.undefined "value of a call that returned none"), σ', space, calls⟩
    | some parent =>
      match handle_plain_expression execute σ sub.expr [] with
      | none => none
      | some ⟨.error e, σ', _, calls⟩ => some ⟨.error e, σ', result, calls⟩
      | some ⟨.ok none, σ', _, calls⟩ =>
        some ⟨.error (.undefined "value of a call that returned none"), σ', result, calls⟩
      | some ⟨.ok (some executed), σ', tmp, calls⟩ =>
        match (if executed then tmp else tmp ++ [.expr sub.expr]) with
        | [reduced] =>
          match σ'[parent]? with
          | some children =>
            if sub.index < children.length then
              some ⟨.ok (),
                σ'.set parent (children.set sub.index reduced)
                  ++ [[.simplifier full subs.dropLast]],
                result ++ [.expr σ'.length], calls⟩
            else
              some ⟨.error (.undefined "assignment to a child that does not exist"), σ',
                result, calls⟩
          | none => none
        | _ =>
          some ⟨.error (.logic_error
              "This case is not implemented yet: result size is not equal to 1"),
            σ', result, calls⟩

/-- The virtual `execute(args, result)` of the grounded atom `func`.  A host `execute` is
given the atoms that `args` designate and adds new atoms to `result`; the other grounded
class is the simplifier. -/
def Atom.execute (h : Host G) :
    Nat → AtomPtr G → List (AtomPtr G) → Store G → List (AtomPtr G) → Option (Run G Unit)
  | 0 => fun _ _ _ _ => none
  | fuel + 1 => fun func args σ result =>
    match func with
    | .grounded payload =>
      match read_children (Store.read σ fuel) args with
      | none => none
      | some atoms =>
        match h.execute payload atoms with
        | ⟨added, none⟩ =>
          some ⟨.ok (), (Store.alloc_all σ added).1,
            result ++ (Store.alloc_all σ added).2, []⟩
        | ⟨added, some e⟩ =>
          some ⟨.error e, (Store.alloc_all σ added).1,
            result ++ (Store.alloc_all σ added).2, []⟩
    | .simplifier full subs =>
      ExpressionSimplifier.execute (Atom.execute h fuel) σ full subs args result
    | _ => some ⟨.error (.undefined "execute of an atom that is not grounded"), σ, result, []⟩

/-- The function `is_plain(expr)`, `expr` given by its children. -/
def is_plain (children : List (AtomPtr G)) : Bool :=
  children.all fun child => child.get_type ≠ AtomType.EXPR

/-- The method `GroundingSpace::interpret_step(_kb)` on the space with the content `self`.
`std::make_shared<ExpressionSimplifier>(expr)` runs `parse`, and `E({...})` is a new
object. -/
def GroundingSpace.interpret_step (h : Host G) (fuel : Nat) (σ : Store G)
    (self : List (AtomPtr G)) (_kb : SpaceAPI G) : Option (Run G Unit) :=
  if _kb.get_type ≠ Hyperon.GroundingSpace.TYPE then
    some ⟨.error (.runtime_error "Only GroundingSpace knowledge bases are supported"), σ,
      self, []⟩
  else
    match self.getLast? with
    | none => some ⟨.error (.undefined "content.back() of an empty vector"), σ, self, []⟩
    | some (.expr expr) =>
      match σ[expr]? with
      | none => none
      | some children =>
        if is_plain children then
          match handle_plain_expression (Atom.execute h fuel) σ expr self.dropLast with
          | none => none
          | some ⟨.ok (some _), σ', space, calls⟩ => some ⟨.ok (), σ', space, calls⟩
          | some ⟨.ok none, σ', space, calls⟩ =>
            some ⟨.error
                (.undefined "handle_plain_expression ended without a return statement"),
              σ', space, calls⟩
          | some ⟨.error e, σ', space, calls⟩ => some ⟨.error e, σ', space, calls⟩
        else
          match ExpressionSimplifier.parse σ fuel expr none 0 [] with
          | none => none
          | some subs =>
            some ⟨.ok (), σ ++ [[.simplifier expr subs]], self.dropLast ++ [.expr σ.length],
              []⟩
    | some _ => some ⟨.ok (), σ, self.dropLast, []⟩

/-- Successive calls of `interpret_step` on the same space, stopping at the first that
fails: the objects and the content of the space after `n` calls. -/
def GroundingSpace.interpret_steps (h : Host G) (fuel : Nat) :
    Nat → Store G → List (AtomPtr G) → SpaceAPI G →
      Option (Except Error (Store G × List (AtomPtr G)))
  | 0, σ, self, _ => some (.ok (σ, self))
  | n + 1, σ, self, kb =>
    match GroundingSpace.interpret_step h fuel σ self kb with
    | none => none
    | some ⟨.ok _, σ', space, _⟩ => GroundingSpace.interpret_steps h fuel n σ' space kb
    | some ⟨.error e, _, _, _⟩ => some (.error e)

mutual
/-- The pointer designates the atom `atom`, an atom without simplifiers: the objects that
the pointer leads to have the children that `atom` has, at every depth. -/
def Store.holds (σ : Store G) : AtomPtr G → Atom G → Prop
  | .symbol name, .symbol name' => name = name'
  | .grounded payload, .grounded payload' => payload = payload'
  | .variable name, .variable name' => name = name'
  | .expr address, .expr children =>
    match σ[address]? with
    | some pointers => Store.holds_all σ pointers children
    | none => False
  | _, _ => False
/-- The pointers of a list designate the atoms of a list, one by one. -/
def Store.holds_all (σ : Store G) : List (AtomPtr G) → List (Atom G) → Prop
  | [], [] => True
  | pointer :: pointers, atom :: atoms =>
    Store.holds σ pointer atom ∧ Store.holds_all σ pointers atoms
  | _, _ => False
end

mutual
/-- The addresses of the `ExprAtom` objects of an atom that a pointer designates: one
address for each expression node of the atom. -/
def Store.expressions (σ : Store G) : AtomPtr G → Atom G → List Nat
  | .expr address, .expr children =>
    address ::
      (match σ[address]? with
        | some pointers => Store.expressions_all σ pointers children
        | none => [])
  | _, _ => []
/-- The addresses of the `ExprAtom` objects of the atoms that the pointers of a list
designate. -/
def Store.expressions_all (σ : Store G) : List (AtomPtr G) → List (Atom G) → List Nat
  | pointer :: pointers, atom :: atoms =>
    Store.expressions σ pointer atom ++ Store.expressions_all σ pointers atoms
  | _, _ => []
end

mutual
/-- The entries that `parse` makes for an atom that a pointer designates, in the order in
which it makes them. -/
def entries (σ : Store G) : AtomPtr G → Atom G → Option Nat → Nat → List SubExpression
  | .expr address, .expr children, parent, index =>
    ⟨address, parent, index⟩ ::
      (match σ[address]? with
        | some pointers => entries_all σ address pointers children 0
        | none => [])
  | _, _, _, _ => []
/-- The entries that the loop of `parse` makes for the children of the object `expr`, from
child `i` on. -/
def entries_all (σ : Store G) (expr : Nat) :
    List (AtomPtr G) → List (Atom G) → Nat → List SubExpression
  | pointer :: pointers, atom :: atoms, i =>
    entries σ pointer atom (some expr) i ++ entries_all σ expr pointers atoms (i + 1)
  | _, _, _ => []
end

/-- The state of the objects of `σ0` while the entries of a simplifier are executed on an
expression whose operators return one value: every object of `σ0` is in `σ`, with as many
children; an object outside `touched` has the children it had; and a child is the pointer
it was in `σ0` or, when that pointer designated an expression, a pointer to the value of
the expression under the bottom-up evaluator. -/
def Evaluating (h : Host G) (σ0 : Store G) (touched : List Nat) (σ : Store G) : Prop :=
  ∀ (address : Nat) (pointers0 : List (AtomPtr G)), σ0[address]? = some pointers0 →
    ∃ pointers : List (AtomPtr G), σ[address]? = some pointers ∧
      pointers.length = pointers0.length ∧
      (address ∉ touched → pointers = pointers0) ∧
      ∀ (j : Nat) (q0 : AtomPtr G), pointers0[j]? = some q0 →
        pointers[j]? = some q0 ∨
        ∃ (t v : Atom G) (q : AtomPtr G), Store.holds σ0 q0 t ∧ t.get_type = AtomType.EXPR ∧
          t.bottom_up h = some v ∧ v.is_value = true ∧ pointers[j]? = some q ∧
          Store.holds σ q v

/-- Every object of `σ` is in `σ'`, with as many children, and a child that is no
expression is in `σ'` what it is in `σ`. -/
def Settled (σ σ' : Store G) : Prop :=
  ∀ (address : Nat) (pointers : List (AtomPtr G)), σ[address]? = some pointers →
    ∃ pointers' : List (AtomPtr G), σ'[address]? = some pointers' ∧
      pointers'.length = pointers.length ∧
      ∀ (j : Nat) (q : AtomPtr G), pointers[j]? = some q → q.get_type ≠ AtomType.EXPR →
        pointers'[j]? = some q

/-- The pointer is a simplifier one of whose entries has the object at `address` as
`parent`: the only objects that `ExpressionSimplifier::execute` assigns to are parents of
entries. -/
def AtomPtr.assigns : AtomPtr G → Nat → Prop
  | .simplifier _ subs, address => ∃ sub ∈ subs, sub.parent = some address
  | _, _ => False

/-- Some object of the store has a child that is a simplifier with an entry whose `parent` is
the object at `address`. -/
def Store.assigns (σ : Store G) (address : Nat) : Prop :=
  ∃ pointers ∈ σ, ∃ pointer ∈ pointers, AtomPtr.assigns pointer address

/-- What a call leaves of the objects `σ` and the result space `result` it was given, when
it ends with the objects `σ'` and the space `space`: the space has received atoms at its
end, none of them a simplifier with entries; no object is lost; the simplifiers in the
objects have no other parents in their entries than those in `σ` or those for which `mine`
holds; and an object that is no such parent is as it was. -/
def Framed (mine : Nat → Prop) (σ : Store G) (result : List (AtomPtr G)) (σ' : Store G)
    (space : List (AtomPtr G)) : Prop :=
  (∃ added : List (AtomPtr G), space = result ++ added ∧
    ∀ pointer ∈ added, ∀ address : Nat, ¬ AtomPtr.assigns pointer address) ∧
  σ.length ≤ σ'.length ∧
  (∀ address : Nat, Store.assigns σ' address → mine address ∨ Store.assigns σ address) ∧
  ∀ (address : Nat) (pointers : List (AtomPtr G)), σ[address]? = some pointers →
    ¬ mine address → ¬ Store.assigns σ address → σ'[address]? = some pointers

end Objects

/-! ## Example hosts -/

/-- Payloads of the example host `Example.arith`: numbers, and the operator `Add`. -/
inductive Example.Value where
  | number (n : Nat)
  | Add
  deriving DecidableEq

/-- The sum of the numbers among the atoms of a list. -/
def Example.sum : List (Atom Example.Value) → Nat
  | [] => 0
  | .grounded (.number n) :: rest => n + Example.sum rest
  | _ :: rest => Example.sum rest

/-- A host with numbers, whose `execute` is the throwing one of `GroundedAtom`, and the
operator `Add`, whose `execute` adds to the result space the sum of its numeric arguments. -/
def Example.arith : Host Example.Value where
  eq := fun a b => decide (a = b)
  execute := fun payload args =>
    match payload with
    | .Add => ⟨[.grounded (.number (Example.sum args))], none⟩
    | .number _ => GroundedAtom.execute args

/-- A host with a single payload, whose `execute` adds the variable `$x` to the result
space. -/
def Example.echo : Host Unit where
  eq := fun _ _ => true
  execute := fun _ _ => ⟨[.variable "x"], none⟩

/-- A host whose payload `n` is an operator that adds `n` copies of the symbol `r` to the
result space. -/
def Example.copies : Host Nat where
  eq := fun a b => decide (a = b)
  execute := fun n _ => ⟨List.replicate n (.symbol "r"), none⟩

/-- A host whose grounded atoms are `ValueAtom<double>`: the payload `some n` is the number
`n`, the payload `none` is a NaN.  `ValueAtom<T>::operator==` compares the payloads with the
`==` of `T`, which for `double` is false whenever one side is a NaN; `execute` is the
throwing one of `GroundedAtom`. -/
def Example.doubles : Host (Option Int) where
  eq := fun a b =>
    match a, b with
    | some x, some y => decide (x = y)
    | _, _ => false
  execute := fun _ args => GroundedAtom.execute args

/-! ## Bindings and the matcher: auxiliary facts -/

theorem Bindings.mem_set {b : Bindings G} {name : String} {atom : Atom G} {q : String × Atom G}
    (hq : q ∈ b.set name atom) : q.1 = name ∨ q ∈ b := by
  induction b with
  | nil => simp [Bindings.set] at hq; left; rw [hq]
  | cons p rest ih =>
    obtain ⟨k, v⟩ := p
    simp only [Bindings.set] at hq
    split_ifs at hq with h1 h2
    · rcases List.mem_cons.1 hq with e | e
      · left; rw [e]
      · right; exact e
    · rcases List.mem_cons.1 hq with e | e
      · right; rw [e]; exact List.mem_cons_self _ _
      · rcases ih e with e | e
        · left; exact e
        · right; exact List.mem_cons_of_mem _ e
    · rcases List.mem_cons.1 hq with e | e
      · left; rw [e]; exact le_antisymm (not_lt.1 h1) (not_lt.1 h2)
      · right; exact List.mem_cons_of_mem _ e

theorem Bindings.ordered_set {b : Bindings G} (hb : b.Ordered) (name : String) (atom : Atom G) :
    (b.set name atom).Ordered := by
  induction b with
  | nil => simp [Bindings.set, Bindings.Ordered]
  | cons p rest ih =>
    obtain ⟨k, v⟩ := p
    have hb' := List.pairwise_cons.1 hb
    simp only [Bindings.set]
    split_ifs with h1 h2
    · refine List.pairwise_cons.2 ⟨?_, hb⟩
      intro q hq
      rcases List.mem_cons.1 hq with e | e
      · rw [e]; exact h1
      · exact lt_trans h1 (hb'.1 q e)
    · refine List.pairwise_cons.2 ⟨?_, ih hb'.2⟩
      intro q hq
      rcases Bindings.mem_set hq with e | e
      · rw [e]; exact h2
      · exact hb'.1 q e
    · exact List.pairwise_cons.2 ⟨hb'.1, hb'.2⟩

theorem Bindings.set_eq_append {b : Bindings G} {name : String} (atom : Atom G)
    (hlt : ∀ p ∈ b, p.1 < name) : b.set name atom = b ++ [(name, atom)] := by
  induction b with
  | nil => rfl
  | cons p rest ih =>
    obtain ⟨k, v⟩ := p
    have hk : k < name := hlt (k, v) (List.mem_cons_self _ _)
    simp only [Bindings.set, not_lt_of_lt hk, if_false, hk, if_true, List.cons_append]
    rw [ih (fun p hp => hlt p (List.mem_cons_of_mem _ hp))]

theorem Bindings.foldl_set_eq_map (f : Atom G → Atom G) (b acc : Bindings G)
    (hb : Bindings.Ordered (acc ++ b)) :
    b.foldl (fun c pair => Bindings.set c pair.1 (f pair.2)) acc
      = acc ++ b.map fun p => (p.1, f p.2) := by
  induction b generalizing acc with
  | nil => simp
  | cons p rest ih =>
    have hlt : ∀ q ∈ acc, q.1 < p.1 := fun q hq =>
      (List.pairwise_append.1 hb).2.2 q hq p (List.mem_cons_self _ _)
    simp only [List.foldl_cons, List.map_cons]
    rw [Bindings.set_eq_append _ hlt, ih]
    · simp
    · have hb2 : Bindings.Ordered (acc ++ [p] ++ rest) := by simpa using hb
      have h3 := List.pairwise_append.1 hb2
      refine List.pairwise_append.2 ⟨?_, h3.2.1, ?_⟩
      · have h4 := List.pairwise_append.1 h3.1
        refine List.pairwise_append.2 ⟨h4.1, by simp, ?_⟩
        intro x hx y hy
        have hy' : y = (p.1, f p.2) := by simpa using hy
        rw [hy']
        exact hlt x hx
      · intro x hx y hy
        rcases List.mem_append.1 hx with e | e
        · exact h3.2.2 x (List.mem_append.2 (Or.inl e)) y hy
        · have hx' : x = (p.1, f p.2) := by simpa using e
          rw [hx']
          exact h3.2.2 p (by simp) y hy

mutual
theorem match_atoms_ordered (h : Host G) (a b : Atom G) (m : MatchResult G)
    (hm : m.b_bindings.Ordered) : (match_atoms h a b m).2.b_bindings.Ordered := by
  match a, b with
  | .symbol _, .symbol _ => simpa [match_atoms] using hm
  | .symbol _, .grounded _ => simpa [match_atoms] using hm
  | .symbol _, .expr _ => simpa [match_atoms] using hm
  | .symbol _, .simplifier _ _ => simpa [match_atoms] using hm
  | .grounded _, .symbol _ => simpa [match_atoms] using hm
  | .grounded _, .grounded _ => simpa [match_atoms] using hm
  | .grounded _, .expr _ => simpa [match_atoms] using hm
  | .grounded _, .simplifier _ _ => simpa [match_atoms] using hm
  | .simplifier _ _, .symbol _ => simpa [match_atoms] using hm
  | .simplifier _ _, .grounded _ => simpa [match_atoms] using hm
  | .simplifier _ _, .expr _ => simpa [match_atoms] using hm
  | .simplifier _ _, .simplifier _ _ => simpa [match_atoms] using hm
  | .variable _, .symbol _ => simpa [match_atoms] using hm
  | .variable _, .grounded _ => simpa [match_atoms] using hm
  | .variable _, .expr _ => simpa [match_atoms] using hm
  | .variable _, .simplifier _ _ => simpa [match_atoms] using hm
  | .expr _, .symbol _ => simpa [match_atoms] using hm
  | .expr _, .grounded _ => simpa [match_atoms] using hm
  | .expr _, .simplifier _ _ => simpa [match_atoms] using hm
  | .symbol _, .variable name => simpa [match_atoms] using Bindings.ordered_set hm _ _
  | .grounded _, .variable name => simpa [match_atoms] using Bindings.ordered_set hm _ _
  | .simplifier _ _, .variable name => simpa [match_atoms] using Bindings.ordered_set hm _ _
  | .variable _, .variable name => simpa [match_atoms] using Bindings.ordered_set hm _ _
  | .expr _, .variable name => simpa [match_atoms] using Bindings.ordered_set hm _ _
  | .expr as, .expr bs =>
    simp only [match_atoms]
    split_ifs
    · exact hm
    · exact match_atoms_loop_ordered h as bs m hm
theorem match_atoms_loop_ordered (h : Host G) (as bs : List (Atom G)) (m : MatchResult G)
    (hm : m.b_bindings.Ordered) : (match_atoms_loop h as bs m).2.b_bindings.Ordered := by
  match as, bs with
  | [], _ => simpa [match_atoms_loop] using hm
  | _ :: _, [] => simpa [match_atoms_loop] using hm
  | a :: as, b :: bs =>
    have h1 := match_atoms_ordered h a b m hm
    simp only [match_atoms_loop]
    rcases hr : match_atoms h a b m with ⟨ok, m'⟩
    rw [hr] at h1
    cases ok
    · exact h1
    · exact match_atoms_loop_ordered h as bs m' h1
end

theorem apply_a_to_b_bindings_eq (m : MatchResult G) (hm : m.b_bindings.Ordered) :
    (apply_a_to_b_bindings m).b_bindings = composed_bindings m := by
  simp only [apply_a_to_b_bindings, composed_bindings]
  have := Bindings.foldl_set_eq_map (fun v => apply_match_to_atom v m.a_bindings)
    m.b_bindings [] (by simpa using hm)
  simpa using this

theorem apply_match_to_templ_content (results : GroundingSpace G) (templ : List (Atom G))
    (m : MatchResult G) :
    apply_match_to_templ results templ m
      = ⟨results.content ++ templ.map fun t => apply_match_to_atom t m.b_bindings⟩ := by
  induction templ generalizing results with
  | nil => simp [apply_match_to_templ]
  | cons t rest ih => simp [apply_match_to_templ, ih, GroundingSpace.add_atom]

theorem match_loop_content (h : Host G) (P : Atom G) (T content : List (Atom G))
    (result : GroundingSpace G) :
    GroundingSpace.match_loop h P T content result
      = ⟨result.content ++ content.flatMap (match_contribution h P T)⟩ := by
  induction content generalizing result with
  | nil => simp [GroundingSpace.match_loop]
  | cons K rest ih =>
    have ho := match_atoms_ordered h K P MatchResult.empty List.Pairwise.nil
    simp only [GroundingSpace.match_loop, match_contribution, List.flatMap_cons]
    rcases hr : match_atoms h K P MatchResult.empty with ⟨ok, m⟩
    rw [hr] at ho
    cases ok
    · simp only [ih]; simp
    · simp only [ih, apply_match_to_templ_content, apply_a_to_b_bindings_eq m ho]
      simp

theorem Bindings.find_eq_none {b : Bindings G} {name : String} (hk : name ∉ b.keys) :
    b.find name = none := by
  induction b with
  | nil => rfl
  | cons p rest ih =>
    obtain ⟨k, v⟩ := p
    simp only [Bindings.keys, List.map_cons, List.mem_cons, not_or] at hk
    have hne : ¬ k = name := fun e => hk.1 e.symm
    simp only [Bindings.find, hne, if_false]
    exact ih hk.2

mutual
theorem apply_match_to_atom_of_unbound (t : Atom G) (β : Bindings G)
    (hv : ∀ v ∈ t.variables, v ∉ β.keys) : apply_match_to_atom t β = t := by
  match t with
  | .symbol _ => rfl
  | .grounded _ => rfl
  | .simplifier _ _ => rfl
  | .variable name =>
    have hn : β.find name = none := Bindings.find_eq_none (hv name (by simp [Atom.variables]))
    simp [apply_match_to_atom, hn]
  | .expr children =>
    simp only [apply_match_to_atom]
    rw [apply_match_to_children_of_unbound children β (by simpa [Atom.variables] using hv)]
theorem apply_match_to_children_of_unbound (ts : List (Atom G)) (β : Bindings G)
    (hv : ∀ v ∈ Atom.variables_of ts, v ∉ β.keys) : apply_match_to_children ts β = ts := by
  match ts with
  | [] => rfl
  | t :: rest =>
    simp only [Atom.variables_of, List.mem_append] at hv
    simp only [apply_match_to_children]
    rw [apply_match_to_atom_of_unbound t β (fun v h => hv v (Or.inl h)),
      apply_match_to_children_of_unbound rest β (fun v h => hv v (Or.inr h))]
end


/-! ## The interpreter: auxiliary facts -/

theorem ExpressionSimplifier.execute_eq (h : Host G) (full : Atom G) (subs : List SubExpression)
    (args : List (Atom G)) (result : GroundingSpace G) :
    ExpressionSimplifier.execute h full subs args result =
      match subs.getLast? with
      | none => (⟨.error (.undefined "subs.back() of an empty vector"), result, []⟩, full)
      | some sub =>
        match sub.parent with
        | none =>
          match full.node_at sub.expr with
          | some (.expr children) =>
            match handle_plain_expression h children result with
            | ⟨.error e, space, calls⟩ => (⟨.error e, space, calls⟩, full)
            | ⟨.ok (some true), space, calls⟩ => (⟨.ok (), space, calls⟩, full)
            | ⟨.ok (some false), space, calls⟩ =>
              (⟨.ok (), space.add_atom (.expr children), calls⟩, full)
            | ⟨.ok none, space, calls⟩ =>
              (⟨.error (.undefined "value of a call that returned none"), space, calls⟩, full)
          | _ => (⟨.error (.undefined "sub.expr designates no expression"), result, []⟩, full)
        | some parent =>
          match full.node_at sub.expr with
          | some (.expr children) =>
            match handle_plain_expression h children ⟨[]⟩ with
            | ⟨.error e, _, calls⟩ => (⟨.error e, result, calls⟩, full)
            | ⟨.ok none, _, calls⟩ =>
              (⟨.error (.undefined "value of a call that returned none"), result, calls⟩, full)
            | ⟨.ok (some executed), tmp, calls⟩ =>
              match (if executed then tmp else tmp.add_atom (.expr children)).content with
              | [reduced] =>
                match full.set_child parent sub.index reduced with
                | some full' =>
                  (⟨.ok (), result.add_atom (.expr [ExpressionSimplifier.pop_sub full' subs]),
                    calls⟩, full')
                | none =>
                  (⟨.error (.undefined "assignment to a child that does not exist"), result,
                    calls⟩, full)
              | _ =>
                (⟨.error (.logic_error
                    "This case is not implemented yet: result size is not equal to 1"),
                  result, calls⟩, full)
          | _ => (⟨.error (.undefined "sub.expr designates no expression"), result, []⟩, full) := by
  rw [ExpressionSimplifier.execute]
  cases subs.getLast? with
  | none => rfl
  | some sub =>
    simp only
    cases sub.parent with
    | none =>
      simp only
      split <;> rename_i hh <;> simp only [hh]
    | some parent =>
      simp only
      split <;> rename_i hh <;> simp only [hh]

theorem Atom.node_at_append (a : Atom G) (p q : List Nat) :
    a.node_at (p ++ q) = (a.node_at p).bind fun b => b.node_at q := by
  induction p generalizing a with
  | nil => simp [Atom.node_at]
  | cons i p ih =>
    cases a with
    | expr cs =>
      simp only [List.cons_append, Atom.node_at]
      cases cs[i]? with
      | none => rfl
      | some c => exact ih c
    | _ => simp [Atom.node_at]

theorem Atom.node_at_replace_at (a : Atom G) (p : List Nat) (n b : Atom G)
    (hp : a.node_at p = some b) : (a.replace_at p n).node_at p = some n := by
  induction p generalizing a with
  | nil => simp [Atom.node_at, Atom.replace_at]
  | cons i p ih =>
    cases a with
    | expr cs =>
      simp only [Atom.node_at] at hp
      simp only [Atom.replace_at]
      cases hc : cs[i]? with
      | none => simp [hc] at hp
      | some c =>
        simp only [hc] at hp
        have hi : i < cs.length := (List.getElem?_eq_some.1 hc).1
        simp only [Atom.node_at, List.getElem?_set_self hi]
        exact ih c hp
    | _ => simp [Atom.node_at] at hp

theorem Atom.replace_at_replace_at (a : Atom G) (p : List Nat) (n n' : Atom G) :
    (a.replace_at p n).replace_at p n' = a.replace_at p n' := by
  induction p generalizing a with
  | nil => simp [Atom.replace_at]
  | cons i p ih =>
    cases a with
    | expr cs =>
      simp only [Atom.replace_at]
      cases hc : cs[i]? with
      | none => simp [Atom.replace_at, hc]
      | some c =>
        have hi : i < cs.length := (List.getElem?_eq_some.1 hc).1
        simp only [Atom.replace_at, List.getElem?_set_self hi, List.set_set, ih]
    | _ => simp [Atom.replace_at]

theorem Atom.replace_at_append (a : Atom G) (p q : List Nat) (n b : Atom G)
    (hp : a.node_at p = some b) :
    a.replace_at (p ++ q) n = a.replace_at p (b.replace_at q n) := by
  induction p generalizing a with
  | nil =>
    simp only [Atom.node_at, Option.some.injEq] at hp
    simp [Atom.replace_at, hp]
  | cons i p ih =>
    cases a with
    | expr cs =>
      simp only [Atom.node_at] at hp
      simp only [List.cons_append, Atom.replace_at]
      cases hc : cs[i]? with
      | none => simp [hc] at hp
      | some c =>
        simp only [hc] at hp
        have := ih c hp
        simp only [List.append_eq] at this ⊢
        rw [this]
    | _ => simp [Atom.node_at] at hp

theorem Atom.set_child_eq (a : Atom G) (p : List Nat) (i : Nat) (v c : Atom G)
    (hp : a.node_at (p ++ [i]) = some c) :
    a.set_child p i v = some (a.replace_at (p ++ [i]) v) := by
  induction p generalizing a with
  | nil =>
    cases a with
    | expr cs =>
      simp only [List.nil_append, Atom.node_at] at hp
      cases hc : cs[i]? with
      | none => simp [hc] at hp
      | some c' =>
        have hi : i < cs.length := (List.getElem?_eq_some.1 hc).1
        simp [Atom.set_child, Atom.replace_at, hc, hi]
    | _ => simp [Atom.node_at] at hp
  | cons j p ih =>
    cases a with
    | expr cs =>
      simp only [List.cons_append, Atom.node_at] at hp
      cases hc : cs[j]? with
      | none => simp [hc] at hp
      | some c' =>
        simp only [hc] at hp
        simp [Atom.set_child, Atom.replace_at, hc, ih c' hp]
    | _ => simp [Atom.node_at] at hp

theorem Atom.replace_at_child (a : Atom G) (p : List Nat) (i : Nat) (l : List (Atom G))
    (v b : Atom G) (hp : a.node_at p = some b) (hi : i < l.length) :
    (a.replace_at p (.expr l)).replace_at (p ++ [i]) v = a.replace_at p (.expr (l.set i v)) := by
  rw [Atom.replace_at_append _ p [i] v (.expr l) (Atom.node_at_replace_at a p _ b hp),
    Atom.replace_at_replace_at]
  have : l[i]? = some l[i] := List.getElem?_eq_getElem hi
  simp [Atom.replace_at, this]

theorem Atom.node_at_replace_at_child (a : Atom G) (p : List Nat) (i : Nat) (l : List (Atom G))
    (b : Atom G) (hp : a.node_at p = some b) :
    (a.replace_at p (.expr l)).node_at (p ++ [i]) = l[i]? := by
  rw [Atom.node_at_append, Atom.node_at_replace_at a p _ b hp]
  simp only [Option.some_bind, Atom.node_at]
  cases l[i]? <;> rfl

mutual
theorem ExpressionSimplifier.parse_append (expr : Atom G) (path : List Nat)
    (parent : Option (List Nat)) (index : Nat) (subs : List SubExpression) :
    ExpressionSimplifier.parse expr path parent index subs
      = subs ++ ExpressionSimplifier.parse expr path parent index [] := by
  match expr with
  | .expr children =>
    simp only [ExpressionSimplifier.parse]
    rw [ExpressionSimplifier.parse_loop_append children path 0 (subs ++ _),
      ExpressionSimplifier.parse_loop_append children path 0 ([] ++ _)]
    simp
  | .symbol _ => simp [ExpressionSimplifier.parse]
  | .grounded _ => simp [ExpressionSimplifier.parse]
  | .variable _ => simp [ExpressionSimplifier.parse]
  | .simplifier _ _ => simp [ExpressionSimplifier.parse]
theorem ExpressionSimplifier.parse_loop_append (children : List (Atom G)) (path : List Nat)
    (i : Nat) (subs : List SubExpression) :
    ExpressionSimplifier.parse_loop children path i subs
      = subs ++ ExpressionSimplifier.parse_loop children path i [] := by
  match children with
  | [] => simp [ExpressionSimplifier.parse_loop]
  | child :: rest =>
    simp only [ExpressionSimplifier.parse_loop]
    rw [ExpressionSimplifier.parse_loop_append rest path (i + 1) (ite _ _ _),
      ExpressionSimplifier.parse_loop_append rest path (i + 1) (ite _ _ [])]
    split_ifs
    · rw [ExpressionSimplifier.parse_append child _ _ _ subs]
      simp
    · simp
end

theorem handle_plain_expression_executes (h : Host G) (op : Atom G) (args : List (Atom G))
    (result : GroundingSpace G) (hop : op.get_type = AtomType.GROUNDED)
    (hvar : ∀ child ∈ op :: args, child.get_type ≠ AtomType.VARIABLE) :
    handle_plain_expression h (op :: args) result
      = ⟨(Atom.execute h op (op :: args) result).value.map fun _ => some true,
          (Atom.execute h op (op :: args) result).space,
          ⟨op, op :: args⟩ :: (Atom.execute h op (op :: args) result).calls⟩ := by
  have hany : ((op :: args).any fun child => decide (child.get_type = AtomType.VARIABLE))
      = false := by
    rw [List.any_eq_false]
    intro child hc
    simpa using hvar child hc
  rw [handle_plain_expression]
  simp only [hop, if_true, hany, Bool.false_eq_true, if_false]
  rcases Atom.execute h op (op :: args) result with ⟨value, space, calls⟩
  cases value <;> rfl

theorem interpret_step_executes (h : Host G) (rest : List (Atom G)) (op : Atom G)
    (args : List (Atom G)) (kb : SpaceAPI G) (hkb : kb.get_type = GroundingSpace.TYPE)
    (hplain : is_plain (op :: args) = true) (hop : op.get_type = AtomType.GROUNDED)
    (hvar : ∀ child ∈ op :: args, child.get_type ≠ AtomType.VARIABLE) :
    GroundingSpace.interpret_step h ⟨rest ++ [.expr (op :: args)]⟩ kb
        = ⟨(Atom.execute h op (op :: args) ⟨rest⟩).value,
            (Atom.execute h op (op :: args) ⟨rest⟩).space,
            ⟨op, op :: args⟩ :: (Atom.execute h op (op :: args) ⟨rest⟩).calls⟩ := by
  simp only [GroundingSpace.interpret_step, hkb, ne_eq, not_true_eq_false, if_false,
    List.getLast?_concat, List.dropLast_concat, hplain, if_true]
  rw [handle_plain_expression_executes h op args _ hop hvar]
  rcases Atom.execute h op (op :: args) ⟨rest⟩ with ⟨value, space, calls⟩
  cases value <;> rfl

theorem interpret_step_simplifier (h : Host G) (rest : List (Atom G)) (full : Atom G)
    (subs : List SubExpression) (kb : SpaceAPI G) (hkb : kb.get_type = GroundingSpace.TYPE) :
    GroundingSpace.interpret_step h ⟨rest ++ [.expr [.simplifier full subs]]⟩ kb
      = ⟨(ExpressionSimplifier.execute h full subs [.simplifier full subs] ⟨rest⟩).1.value,
          (ExpressionSimplifier.execute h full subs [.simplifier full subs] ⟨rest⟩).1.space,
          ⟨.simplifier full subs, [.simplifier full subs]⟩ ::
            (ExpressionSimplifier.execute h full subs [.simplifier full subs] ⟨rest⟩).1.calls⟩ := by
  rw [interpret_step_executes h rest (.simplifier full subs) [] kb hkb rfl rfl
    (by simp [Atom.get_type])]
  rw [Atom.execute]

theorem interpret_steps_succ (h : Host G) (n : Nat) (self space : GroundingSpace G)
    (kb : SpaceAPI G) (calls : List (Call G))
    (hs : self.interpret_step h kb = ⟨.ok (), space, calls⟩) :
    GroundingSpace.interpret_steps h (n + 1) self kb
      = GroundingSpace.interpret_steps h n space kb := by
  simp only [GroundingSpace.interpret_steps, hs]

theorem interpret_steps_add (h : Host G) (n m : Nat) (self mid : GroundingSpace G)
    (kb : SpaceAPI G) (hs : GroundingSpace.interpret_steps h n self kb = .ok mid) :
    GroundingSpace.interpret_steps h (n + m) self kb
      = GroundingSpace.interpret_steps h m mid kb := by
  induction n generalizing self with
  | zero =>
    simp only [GroundingSpace.interpret_steps, Except.ok.injEq] at hs
    simp [hs]
  | succ n ih =>
    rw [show n + 1 + m = (n + m) + 1 by omega]
    simp only [GroundingSpace.interpret_steps] at hs ⊢
    rcases hr : self.interpret_step h kb with ⟨value, space, calls⟩
    rw [hr] at hs
    cases value with
    | error e => simp at hs
    | ok u => exact ih space hs

theorem interpret_steps_before (h : Host G) (P : Except Error (GroundingSpace G) → Prop)
    (n m : Nat) (self mid : GroundingSpace G) (kb : SpaceAPI G)
    (hs : GroundingSpace.interpret_steps h n self kb = .ok mid)
    (h1 : ∀ j, j < n → P (GroundingSpace.interpret_steps h j self kb))
    (h2 : ∀ j, j < m → P (GroundingSpace.interpret_steps h j mid kb)) :
    ∀ j, j < n + m → P (GroundingSpace.interpret_steps h j self kb) := by
  intro j hj
  by_cases hjn : j < n
  · exact h1 j hjn
  · have hj' : j = n + (j - n) := by omega
    rw [hj', interpret_steps_add h n (j - n) self mid kb hs]
    exact h2 (j - n) (by omega)

theorem list_set_of_getElem? {α : Type} (l : List α) (i : Nat) (c : α)
    (hc : l[i]? = some c) : l.set i c = l := by
  induction l generalizing i with
  | nil => rfl
  | cons a l ih =>
    cases i with
    | zero =>
      simp only [List.getElem?_cons_zero, Option.some.injEq] at hc
      simp [hc]
    | succ i =>
      simp only [List.getElem?_cons_succ] at hc
      simp [ih i hc]

theorem Atom.replace_at_self (a : Atom G) (p : List Nat) (b : Atom G)
    (hp : a.node_at p = some b) : a.replace_at p b = a := by
  induction p generalizing a with
  | nil =>
    simp only [Atom.node_at, Option.some.injEq] at hp
    simp [Atom.replace_at, hp]
  | cons i p ih =>
    cases a with
    | expr cs =>
      simp only [Atom.node_at] at hp
      cases hc : cs[i]? with
      | none => simp [hc] at hp
      | some c =>
        simp only [hc] at hp
        simp only [Atom.replace_at, hc, ih c hp, list_set_of_getElem? cs i c hc]
    | _ => simp [Atom.node_at] at hp

theorem list_getElem?_middle {α : Type} (pre post : List α) (c : α) :
    (pre ++ c :: post)[pre.length]? = some c := by
  rw [List.getElem?_append_right (Nat.le_refl _)]
  simp

theorem list_set_middle {α : Type} (pre post : List α) (c v : α) :
    (pre ++ c :: post).set pre.length v = pre ++ v :: post := by
  induction pre with
  | nil => rfl
  | cons a pre ih => simp [ih]

theorem Atom.bottom_up_of_not_expr (h : Host G) (a : Atom G)
    (ha : a.get_type ≠ AtomType.EXPR) : a.bottom_up h = some a := by
  cases a with
  | expr cs => exact absurd rfl ha
  | _ => rfl

theorem Atom.expression_count_of_not_expr (a : Atom G)
    (ha : a.get_type ≠ AtomType.EXPR) : a.expression_count = 0 := by
  cases a with
  | expr cs => exact absurd rfl ha
  | _ => rfl

theorem ExpressionSimplifier.parse_expr (children : List (Atom G)) (path : List Nat)
    (parent : Option (List Nat)) (index : Nat) :
    ExpressionSimplifier.parse (.expr children) path parent index []
      = [⟨path, parent, index⟩] ++ ExpressionSimplifier.parse_loop children path 0 [] := by
  simp only [ExpressionSimplifier.parse, List.nil_append]
  rw [ExpressionSimplifier.parse_loop_append]

theorem ExpressionSimplifier.parse_loop_cons (child : Atom G) (rest : List (Atom G))
    (path : List Nat) (i : Nat) :
    ExpressionSimplifier.parse_loop (child :: rest) path i []
      = (if child.get_type = AtomType.EXPR then
          ExpressionSimplifier.parse child (path ++ [i]) (some path) i []
        else []) ++ ExpressionSimplifier.parse_loop rest path (i + 1) [] := by
  simp only [ExpressionSimplifier.parse_loop]
  rw [ExpressionSimplifier.parse_loop_append]

/-! ## Matching: the output of `match` (C1) -/

/-- C1: with a pattern space holding the single clause `P` and a template space with the
atoms `T`, `match` succeeds and leaves in the output space its previous content followed, for
each atom `K` of the queried space in content order, by the contribution of `K`: nothing when
`match_atoms(K, P)` fails, else the template atoms in their order instantiated by the
`b_bindings` of that match composed through its `a_bindings`.  In particular the space
`<(parent Alice Bob), (parent Bob Carol)>` queried with `<(parent $x Bob)>` and template
`<$x>` gives `<Alice>`. -/
theorem match_appends_contributions (h : Host G) :
    (∀ (self : GroundingSpace G) (P : Atom G) (T : List (Atom G)) (O : GroundingSpace G),
      self.match_ h (.grounding ⟨[P]⟩) (.grounding ⟨T⟩) O
        = (.ok (), ⟨O.content ++ self.content.flatMap (match_contribution h P T)⟩)) ∧
    GroundingSpace.match_ h
        ⟨[.expr [.symbol "parent", .symbol "Alice", .symbol "Bob"],
          .expr [.symbol "parent", .symbol "Bob", .symbol "Carol"]]⟩
        (.grounding ⟨[.expr [.symbol "parent", .variable "x", .symbol "Bob"]]⟩)
        (.grounding ⟨[.variable "x"]⟩) ⟨[]⟩
      = (.ok (), ⟨[.symbol "Alice"]⟩) := by
  refine ⟨?_, rfl⟩
  intro self P T O
  simp [GroundingSpace.match_, SpaceAPI.get_type, match_loop_content]


/-! ## Single interpreter steps (C3, C5, C6, C7) -/

/-- C3, evaluated on the code: on a space without content `interpret_step` reads
`content.back()` of the empty vector, which is undefined; no test of emptiness precedes
it. -/
theorem interpret_step_empty_undefined (h : Host G) :
    (GroundingSpace.interpret_step h ⟨[]⟩ (.grounding ⟨[]⟩)).value
      = .error (.undefined "content.back() of an empty vector") := by
  simp [GroundingSpace.interpret_step, SpaceAPI.get_type]

/-- C5, evaluated on the code: when the top atom is a plain expression whose child 0 is not
grounded, `interpret_step` makes no call of `execute` and drops the atom, as the claim says.
When child 0 is grounded and some child is a variable, `handle_plain_expression` makes no
call either, but ends without a `return` statement: the step is undefined, where the claim
has the atom dropped. -/
theorem interpret_step_plain_not_interpretable (h : Host G) (rest : List (Atom G))
    (op : Atom G) (args : List (Atom G)) (kb : SpaceAPI G)
    (hkb : kb.get_type = GroundingSpace.TYPE) (hplain : is_plain (op :: args) = true) :
    (op.get_type ≠ AtomType.GROUNDED →
      GroundingSpace.interpret_step h ⟨rest ++ [.expr (op :: args)]⟩ kb
        = ⟨.ok (), ⟨rest⟩, []⟩) ∧
    (op.get_type = AtomType.GROUNDED →
      (∃ child ∈ op :: args, child.get_type = AtomType.VARIABLE) →
      GroundingSpace.interpret_step h ⟨rest ++ [.expr (op :: args)]⟩ kb
        = ⟨.error (.undefined "handle_plain_expression ended without a return statement"),
            ⟨rest⟩, []⟩) := by
  constructor
  · intro hop
    simp only [GroundingSpace.interpret_step, hkb, ne_eq, not_true_eq_false, if_false,
      List.getLast?_concat, List.dropLast_concat, hplain, if_true]
    rw [handle_plain_expression]
    simp only [hop, if_false]
  · rintro hop ⟨child, hc, hv⟩
    simp only [GroundingSpace.interpret_step, hkb, ne_eq, not_true_eq_false, if_false,
      List.getLast?_concat, List.dropLast_concat, hplain, if_true]
    rw [handle_plain_expression]
    have hany : ((op :: args).any fun child => decide (child.get_type = AtomType.VARIABLE))
        = true := by
      rw [List.any_eq_true]
      exact ⟨child, hc, by simpa using hv⟩
    simp only [hop, if_true, hany]

/-- Witness of C5: `<(foo 1 2)>` with the symbol `foo` becomes `<>`, while the step on
`<(Add $x 2)>` with the grounded operator `Add` is undefined. -/
theorem interpret_step_plain_not_interpretable_witness :
    is_plain [Atom.symbol "foo", .grounded (Example.Value.number 1), .grounded (.number 2)]
      = true ∧
    GroundingSpace.interpret_step Example.arith
        ⟨[.expr [.symbol "foo", .grounded (.number 1), .grounded (.number 2)]]⟩
        (.grounding ⟨[]⟩)
      = ⟨.ok (), ⟨[]⟩, []⟩ ∧
    GroundingSpace.interpret_step Example.arith
        ⟨[.expr [.grounded .Add, .variable "x", .grounded (.number 2)]]⟩
        (.grounding ⟨[]⟩)
      = ⟨.error (.undefined "handle_plain_expression ended without a return statement"),
          ⟨[]⟩, []⟩ :=
  ⟨by decide,
    (interpret_step_plain_not_interpretable Example.arith [] (.symbol "foo")
      [.grounded (.number 1), .grounded (.number 2)] (.grounding ⟨[]⟩) rfl (by decide)).1
      (by decide),
    (interpret_step_plain_not_interpretable Example.arith [] (.grounded .Add)
      [.variable "x", .grounded (.number 2)] (.grounding ⟨[]⟩) rfl (by decide)).2 rfl
      ⟨.variable "x", by simp, rfl⟩⟩

/-- C6: when the top atom is not an expression, `interpret_step` discards exactly that atom:
the content afterwards is the content before without its last atom, and no `execute` is
called. -/
theorem interpret_step_value (h : Host G) (rest : List (Atom G)) (atom : Atom G)
    (kb : SpaceAPI G) (hkb : kb.get_type = GroundingSpace.TYPE)
    (hatom : atom.get_type ≠ AtomType.EXPR) :
    GroundingSpace.interpret_step h ⟨rest ++ [atom]⟩ kb = ⟨.ok (), ⟨rest⟩, []⟩ := by
  simp only [GroundingSpace.interpret_step, hkb, ne_eq, not_true_eq_false, if_false,
    List.getLast?_concat, List.dropLast_concat]
  cases atom with
  | expr children => exact absurd rfl hatom
  | _ => rfl

/-- Witness of C6: `<A, B>` becomes `<A>`. -/
theorem interpret_step_value_witness :
    (Atom.symbol "B" : Atom Unit).get_type ≠ AtomType.EXPR ∧
    GroundingSpace.interpret_step Example.echo ⟨[.symbol "A", .symbol "B"]⟩ (.grounding ⟨[]⟩)
      = ⟨.ok (), ⟨[.symbol "A"]⟩, []⟩ :=
  ⟨by decide,
    interpret_step_value Example.echo [.symbol "A"] (.symbol "B") (.grounding ⟨[]⟩) rfl
      (by decide)⟩

/-- C7, evaluated on the code: when the top atom is the empty expression, `is_plain` holds
of it and `handle_plain_expression` reads child 0 of an expression without children, which
is undefined. -/
theorem interpret_step_empty_expression_undefined (h : Host G) (rest : List (Atom G)) :
    is_plain ([] : List (Atom G)) = true ∧
    (GroundingSpace.interpret_step h ⟨rest ++ [.expr []]⟩ (.grounding ⟨[]⟩)).value
      = .error (.undefined "get_children()[0] of an expression without children") := by
  refine ⟨rfl, ?_⟩
  simp only [GroundingSpace.interpret_step, SpaceAPI.get_type, ne_eq, not_true_eq_false,
    if_false, List.getLast?_concat, List.dropLast_concat]
  rw [handle_plain_expression]
  rfl

/-! ## Matching: errors, variable patterns, substitution (C8, C9, C10) -/

/-- C8: when the pattern space does not hold exactly one clause, `match` ends with an error
whatever the queried space, the template space and the output space are, and the output
space is left as it was; with a grounding template space the error is the logic error of the
clause count. -/
theorem match_rejects_clause_count (h : Host G) (self result : GroundingSpace G)
    (pattern : GroundingSpace G) (_templ : SpaceAPI G) (hp : pattern.content.length ≠ 1) :
    (∃ e, (self.match_ h (.grounding pattern) _templ result).1 = .error e) ∧
    (self.match_ h (.grounding pattern) _templ result).2 = result ∧
    (∀ templ : GroundingSpace G, self.match_ h (.grounding pattern) (.grounding templ) result
      = (.error (.logic_error "_pattern with more than one clause is not supported"),
          result)) := by
  have hgen : ∀ templ : GroundingSpace G,
      self.match_ h (.grounding pattern) (.grounding templ) result
        = (.error (.logic_error "_pattern with more than one clause is not supported"),
            result) := by
    intro templ
    obtain ⟨content⟩ := pattern
    simp only [GroundingSpace.match_, SpaceAPI.get_type, ne_eq, not_true_eq_false, if_false]
    match content, hp with
    | [], _ => rfl
    | [_], hp => exact absurd rfl hp
    | _ :: _ :: _, _ => rfl
  refine ⟨?_, ?_, hgen⟩
  · cases _templ with
    | grounding templ => exact ⟨_, by rw [hgen templ]⟩
    | foreign type =>
      by_cases ht : type = GroundingSpace.TYPE
      · exact ⟨_, by simp [GroundingSpace.match_, SpaceAPI.get_type, ht]; rfl⟩
      · exact ⟨_, by simp [GroundingSpace.match_, SpaceAPI.get_type, ht]; rfl⟩
  · cases _templ with
    | grounding templ => rw [hgen templ]
    | foreign type =>
      by_cases ht : type = GroundingSpace.TYPE
      · simp [GroundingSpace.match_, SpaceAPI.get_type, ht]
      · simp [GroundingSpace.match_, SpaceAPI.get_type, ht]

/-- Witness of C8: an empty pattern space. -/
theorem match_rejects_clause_count_witness :
    ((⟨[]⟩ : GroundingSpace Unit).content.length ≠ 1) ∧
    (∃ e, (GroundingSpace.match_ ⟨fun _ _ => true, fun _ a => GroundedAtom.execute a⟩
        ⟨[.symbol "A"]⟩ (.grounding (⟨[]⟩ : GroundingSpace Unit)) (.grounding ⟨[.symbol "B"]⟩)
        ⟨[.symbol "C"]⟩).1 = .error e) ∧
    (GroundingSpace.match_ ⟨fun _ _ => true, fun _ a => GroundedAtom.execute a⟩
        ⟨[.symbol "A"]⟩ (.grounding (⟨[]⟩ : GroundingSpace Unit)) (.grounding ⟨[.symbol "B"]⟩)
        ⟨[.symbol "C"]⟩).2 = ⟨[.symbol "C"]⟩ :=
  ⟨by decide,
    (match_rejects_clause_count _ _ _ ⟨[]⟩ _ (by decide)).1,
    (match_rejects_clause_count _ _ _ ⟨[]⟩ _ (by decide)).2.1⟩

/-- C9: matching any atom `a` against a variable `b` succeeds, assigns `a` to `b` in
`b_bindings` (so that `b` is then bound to `a`) and leaves `a_bindings` as it was, also when
`a` is a variable: `$x` against `$y` records only `y -> $x`, in `b_bindings`.  Consequently
the space `<$y>` queried with pattern `<$x>` and template `<$x>` gives `<$y>`. -/
theorem match_atoms_variable_pattern (h : Host G) :
    (∀ (a : Atom G) (name : String) (m : MatchResult G),
      match_atoms h a (.variable name) m
          = (true, ⟨m.a_bindings, m.b_bindings.set name a⟩) ∧
        (m.b_bindings.set name a).find name = some a) ∧
    match_atoms h (.variable "x") (.variable "y") MatchResult.empty
      = (true, ⟨[], [("y", .variable "x")]⟩) ∧
    GroundingSpace.match_ h ⟨[.variable "y"]⟩ (.grounding ⟨[.variable "x"]⟩)
        (.grounding ⟨[.variable "x"]⟩) ⟨[]⟩
      = (.ok (), ⟨[.variable "y"]⟩) := by
  refine ⟨?_, rfl, rfl⟩
  intro a name m
  constructor
  · cases a <;> simp [match_atoms]
  · generalize m.b_bindings = b
    induction b with
    | nil => simp [Bindings.set, Bindings.find]
    | cons p rest ih =>
      obtain ⟨k, v⟩ := p
      simp only [Bindings.set]
      split_ifs with h1 h2
      · simp [Bindings.find]
      · simp [Bindings.find, ne_of_lt h2, ih]
      · have hk : k = name := le_antisymm (not_lt.1 h1) (not_lt.1 h2)
        simp [Bindings.find, hk]

theorem Bindings.mem_of_find {b : Bindings G} {name : String} {value : Atom G}
    (hf : b.find name = some value) : (name, value) ∈ b := by
  induction b with
  | nil => simp [Bindings.find] at hf
  | cons p rest ih =>
    obtain ⟨k, v⟩ := p
    simp only [Bindings.find] at hf
    split_ifs at hf with hk
    · simp only [Option.some.injEq] at hf
      rw [hk, hf]
      exact List.mem_cons_self _ _
    · exact List.mem_cons_of_mem _ (ih hf)

mutual
theorem apply_match_to_atom_twice (t : Atom G) (β : Bindings G)
    (hβ : ∀ p ∈ β, ∀ v ∈ p.2.variables, v ∉ β.keys) :
    apply_match_to_atom (apply_match_to_atom t β) β = apply_match_to_atom t β := by
  match t with
  | .symbol _ => rfl
  | .grounded _ => rfl
  | .simplifier _ _ => rfl
  | .variable name =>
    cases hf : β.find name with
    | none => simp [apply_match_to_atom, hf]
    | some value =>
      simp only [apply_match_to_atom, hf]
      exact apply_match_to_atom_of_unbound value β (hβ _ (Bindings.mem_of_find hf))
  | .expr children =>
    simp only [apply_match_to_atom]
    rw [apply_match_to_children_twice children β hβ]
theorem apply_match_to_children_twice (ts : List (Atom G)) (β : Bindings G)
    (hβ : ∀ p ∈ β, ∀ v ∈ p.2.variables, v ∉ β.keys) :
    apply_match_to_children (apply_match_to_children ts β) β = apply_match_to_children ts β := by
  match ts with
  | [] => rfl
  | t :: rest =>
    simp only [apply_match_to_children]
    rw [apply_match_to_atom_twice t β hβ, apply_match_to_children_twice rest β hβ]
end

mutual
theorem Atom.equals_self (h : Host G) (a : Atom G)
    (hrefl : ∀ g ∈ a.payloads, h.eq g g = true) : Atom.equals h a a = true := by
  match a with
  | .symbol _ => simp [Atom.equals]
  | .variable _ => simp [Atom.equals]
  | .grounded g => simpa [Atom.equals] using hrefl g (by simp [Atom.payloads])
  | .simplifier full _ =>
    simp only [Atom.equals]
    exact Atom.equals_self h full (by simpa [Atom.payloads] using hrefl)
  | .expr children =>
    simp only [Atom.equals, ne_eq, not_true_eq_false, if_false]
    exact Atom.equals_loop_self h children (by simpa [Atom.payloads] using hrefl)
theorem Atom.equals_loop_self (h : Host G) (l : List (Atom G))
    (hrefl : ∀ g ∈ Atom.payloads_of l, h.eq g g = true) : Atom.equals_loop h l l = true := by
  match l with
  | [] => simp [Atom.equals_loop]
  | a :: rest =>
    simp only [Atom.payloads_of, List.mem_append] at hrefl
    simp only [Atom.equals_loop, Atom.equals_self h a (fun g hg => hrefl g (Or.inl hg)),
      Bool.not_true, Bool.false_eq_true, if_false]
    exact Atom.equals_loop_self h rest (fun g hg => hrefl g (Or.inr hg))
end

mutual
theorem Atom.payloads_of_equals_self (h : Host G) (a : Atom G)
    (he : Atom.equals h a a = true) : ∀ g ∈ a.payloads, h.eq g g = true := by
  match a with
  | .symbol _ => simp [Atom.payloads]
  | .variable _ => simp [Atom.payloads]
  | .grounded g => simpa [Atom.equals, Atom.payloads] using he
  | .simplifier full _ =>
    simp only [Atom.equals] at he
    simpa [Atom.payloads] using Atom.payloads_of_equals_self h full he
  | .expr children =>
    simp only [Atom.equals, ne_eq, not_true_eq_false, if_false] at he
    simpa [Atom.payloads] using Atom.payloads_of_equals_loop_self h children he
theorem Atom.payloads_of_equals_loop_self (h : Host G) (l : List (Atom G))
    (he : Atom.equals_loop h l l = true) : ∀ g ∈ Atom.payloads_of l, h.eq g g = true := by
  match l with
  | [] => simp [Atom.payloads_of]
  | a :: rest =>
    simp only [Atom.equals_loop] at he
    cases ha : Atom.equals h a a with
    | false => simp [ha] at he
    | true =>
      simp only [ha, Bool.not_true, Bool.false_eq_true, if_false] at he
      intro g hg
      simp only [Atom.payloads_of, List.mem_append] at hg
      rcases hg with hg | hg
      · exact Atom.payloads_of_equals_self h a ha g hg
      · exact Atom.payloads_of_equals_loop_self h rest he g hg
end


/-- C12 as stated fails: a `ValueAtom<double>` whose payload is a NaN does not equal itself,
and so neither does an expression or a simplifier that holds it. -/
theorem equals_not_reflexive :
    Atom.equals Example.doubles (.grounded none) (.grounded none) = false ∧
    Atom.equals Example.doubles (.expr [.symbol "f", .grounded none])
      (.expr [.symbol "f", .grounded none]) = false ∧
    Atom.equals Example.doubles (.simplifier (.expr [.grounded none]) [⟨[], none, 0⟩])
      (.simplifier (.expr [.grounded none]) [⟨[], none, 0⟩]) = false :=
  ⟨rfl, rfl, rfl⟩

/-- C12, amended: `equals(a, a)` is true exactly when every host grounded atom inside `a`
equals itself; symbols, variables, expressions of any depth, the empty one included, and
simplifiers add no condition of their own. -/
theorem equals_reflexive (h : Host G) (a : Atom G) :
    Atom.equals h a a = true ↔ ∀ g ∈ a.payloads, h.eq g g = true :=
  ⟨Atom.payloads_of_equals_self h a, Atom.equals_self h a⟩

/-- Witness of C12: the host `Example.arith` and `(Add $x () (simplify (foo)))`. -/
theorem equals_reflexive_witness :
    (∀ g ∈ (Atom.expr [.grounded Example.Value.Add, .variable "x", .expr [],
        .simplifier (.expr [.symbol "foo"]) [⟨[], none, 0⟩]]).payloads,
      Example.arith.eq g g = true) ∧
    Atom.equals Example.arith
        (.expr [.grounded .Add, .variable "x", .expr [],
          .simplifier (.expr [.symbol "foo"]) [⟨[], none, 0⟩]])
        (.expr [.grounded .Add, .variable "x", .expr [],
          .simplifier (.expr [.symbol "foo"]) [⟨[], none, 0⟩]]) = true :=
  ⟨fun g _ => by simp [Example.arith],
    (equals_reflexive Example.arith _).2 (fun g _ => by simp [Example.arith])⟩

/-! ## The simplifier: one execution (C13, C14) -/

theorem Atom.node_at_replace_at_of_incomparable (a : Atom G) (t p : List Nat) (n : Atom G)
    (h1 : ¬ t <+: p) (h2 : ¬ p <+: t) : (a.replace_at t n).node_at p = a.node_at p := by
  induction t generalizing a p with
  | nil => exact absurd (List.nil_prefix) h1
  | cons i t ih =>
    cases p with
    | nil => exact absurd (List.nil_prefix) h2
    | cons j p =>
      match a with
      | .symbol _ => rfl
      | .grounded _ => rfl
      | .variable _ => rfl
      | .simplifier _ _ => rfl
      | .expr cs =>
        simp only [Atom.replace_at]
        cases hc : cs[i]? with
        | none => rfl
        | some c =>
          have hi : i < cs.length := (List.getElem?_eq_some.1 hc).1
          simp only [Atom.node_at]
          by_cases hij : i = j
          · subst hij
            rw [List.getElem?_set_self hi, hc]
            exact ih c p (fun hp => h1 (List.cons_prefix_cons.2 ⟨rfl, hp⟩))
              (fun hp => h2 (List.cons_prefix_cons.2 ⟨rfl, hp⟩))
          · rw [List.getElem?_set_ne hij]

/-- C13: when the top entry of `subs` has a parent and the reduction of its sub-expression
(the atoms `handle_plain_expression` left in the temporary space, or the sub-expression itself
when it declined) is a number of atoms other than one, `ExpressionSimplifier::execute` ends
with the logic error of the unimplemented case, the result space is as it was and so is the
expression `full`. -/
theorem simplifier_execute_rejects_result_count (h : Host G) (full : Atom G)
    (subs : List SubExpression) (args : List (Atom G)) (result : GroundingSpace G)
    (sub : SubExpression) (parent : List Nat) (children : List (Atom G)) (executed : Bool)
    (tmp : GroundingSpace G) (calls : List (Call G))
    (hsub : subs.getLast? = some sub) (hparent : sub.parent = some parent)
    (hnode : full.node_at sub.expr = some (.expr children))
    (hreduce : handle_plain_expression h children ⟨[]⟩ = ⟨.ok (some executed), tmp, calls⟩)
    (hcount : (if executed then tmp else tmp.add_atom (.expr children)).content.length ≠ 1) :
    ExpressionSimplifier.execute h full subs args result
      = (⟨.error (.logic_error
            "This case is not implemented yet: result size is not equal to 1"),
          result, calls⟩, full) := by
  rw [ExpressionSimplifier.execute_eq]
  simp only [hsub, hparent, hnode, hreduce]
  split
  · rename_i reduced hone
    rw [hone] at hcount
    simp at hcount
  · rfl

/-- Witness of C13: in `(f (0))` the operator `0` of `Example.copies` adds no atom, in
`(f (2))` the operator `2` adds two. -/
theorem simplifier_execute_rejects_result_count_witness :
    ExpressionSimplifier.execute Example.copies (.expr [.symbol "f", .expr [.grounded 0]])
        [⟨[], none, 0⟩, ⟨[1], some [], 1⟩] [] ⟨[.symbol "A"]⟩
      = (⟨.error (.logic_error
            "This case is not implemented yet: result size is not equal to 1"),
          ⟨[.symbol "A"]⟩, [⟨.grounded 0, [.grounded 0]⟩]⟩,
        .expr [.symbol "f", .expr [.grounded 0]]) ∧
    ExpressionSimplifier.execute Example.copies (.expr [.symbol "f", .expr [.grounded 2]])
        [⟨[], none, 0⟩, ⟨[1], some [], 1⟩] [] ⟨[.symbol "A"]⟩
      = (⟨.error (.logic_error
            "This case is not implemented yet: result size is not equal to 1"),
          ⟨[.symbol "A"]⟩, [⟨.grounded 2, [.grounded 2]⟩]⟩,
        .expr [.symbol "f", .expr [.grounded 2]]) :=
  ⟨simplifier_execute_rejects_result_count Example.copies
      (.expr [.symbol "f", .expr [.grounded 0]]) [⟨[], none, 0⟩, ⟨[1], some [], 1⟩] []
      ⟨[.symbol "A"]⟩ ⟨[1], some [], 1⟩ [] [.grounded 0] true ⟨[]⟩
      [⟨.grounded 0, [.grounded 0]⟩] rfl rfl rfl
      (by
        rw [handle_plain_expression_executes Example.copies (.grounded 0) [] ⟨[]⟩ rfl
          (by decide), Atom.execute]
        rfl)
      (by decide),
    simplifier_execute_rejects_result_count Example.copies
      (.expr [.symbol "f", .expr [.grounded 2]]) [⟨[], none, 0⟩, ⟨[1], some [], 1⟩] []
      ⟨[.symbol "A"]⟩ ⟨[1], some [], 1⟩ [] [.grounded 2] true ⟨[.symbol "r", .symbol "r"]⟩
      [⟨.grounded 2, [.grounded 2]⟩] rfl rfl rfl
      (by
        rw [handle_plain_expression_executes Example.copies (.grounded 2) [] ⟨[]⟩ rfl
          (by decide), Atom.execute]
        rfl)
      (by decide)⟩

theorem simplifier_execute_full_declined (h : Host G) (full : Atom G)
    (subs : List SubExpression) (args : List (Atom G)) (result : GroundingSpace G)
    (sub : SubExpression) (op : Atom G) (rest : List (Atom G))
    (hsub : subs.getLast? = some sub) (hparent : sub.parent = none)
    (hnode : full.node_at sub.expr = some (.expr (op :: rest)))
    (hop : op.get_type ≠ AtomType.GROUNDED) :
    ExpressionSimplifier.execute h full subs args result
      = (⟨.ok (), result.add_atom (.expr (op :: rest)), []⟩, full) := by
  rw [ExpressionSimplifier.execute_eq]
  simp only [hsub, hparent, hnode]
  rw [handle_plain_expression]
  simp only [hop, if_false]

theorem simplifier_execute_full_executes (h : Host G) (full : Atom G)
    (subs : List SubExpression) (args : List (Atom G)) (result : GroundingSpace G)
    (sub : SubExpression) (op : Atom G) (rest : List (Atom G))
    (hsub : subs.getLast? = some sub) (hparent : sub.parent = none)
    (hnode : full.node_at sub.expr = some (.expr (op :: rest)))
    (hop : op.get_type = AtomType.GROUNDED)
    (hvar : ∀ child ∈ op :: rest, child.get_type ≠ AtomType.VARIABLE) :
    ExpressionSimplifier.execute h full subs args result
      = (⟨(Atom.execute h op (op :: rest) result).value,
          (Atom.execute h op (op :: rest) result).space,
          ⟨op, op :: rest⟩ :: (Atom.execute h op (op :: rest) result).calls⟩, full) := by
  rw [ExpressionSimplifier.execute_eq]
  simp only [hsub, hparent, hnode, handle_plain_expression_executes h op rest result hop hvar]
  rcases Atom.execute h op (op :: rest) result with ⟨value, space, calls⟩
  cases value <;> rfl

/-- C14, evaluated on the code: two steps take `<(Add $x (Add 1 2))>` to the simplifier of
`(Add $x 3)` whose only entry is the one of `full`; on that expression, whose operator is
grounded and which has a variable child, `handle_plain_expression` executes nothing and ends
without returning a value, so that `ExpressionSimplifier::execute` tests a value that does
not exist instead of appending `full`. -/
theorem simplifier_execute_variable_child_undefined :
    GroundingSpace.interpret_steps Example.arith 2
        ⟨[.expr [.grounded .Add, .variable "x",
          .expr [.grounded .Add, .grounded (.number 1), .grounded (.number 2)]]]⟩
        (.grounding ⟨[]⟩)
      = .ok ⟨[.expr [.simplifier
          (.expr [.grounded .Add, .variable "x", .grounded (.number 3)])
          [⟨[], none, 0⟩]]]⟩ ∧
    handle_plain_expression Example.arith
        [.grounded .Add, .variable "x", .grounded (.number 3)] ⟨[]⟩
      = ⟨.ok none, ⟨[]⟩, []⟩ ∧
    ExpressionSimplifier.execute Example.arith
        (.expr [.grounded .Add, .variable "x", .grounded (.number 3)]) [⟨[], none, 0⟩] []
        ⟨[]⟩
      = (⟨.error (.undefined "value of a call that returned none"), ⟨[]⟩, []⟩,
        .expr [.grounded .Add, .variable "x", .grounded (.number 3)]) := by
  have hexec : ∀ args result, Atom.execute Example.arith (.grounded .Add) args result
      = ⟨.ok (), ⟨result.content ++ [.grounded (.number (Example.sum args))]⟩, []⟩ := by
    intro args result
    rw [Atom.execute]
    rfl
  have hplain : handle_plain_expression Example.arith
      [.grounded .Add, .variable "x", .grounded (.number 3)] ⟨[]⟩
      = ⟨.ok none, ⟨[]⟩, []⟩ := by
    rw [handle_plain_expression]
    simp [Atom.get_type]
  refine ⟨?_, hplain, ?_⟩
  · simp [GroundingSpace.interpret_steps, GroundingSpace.interpret_step, SpaceAPI.get_type,
      is_plain, Atom.get_type, ExpressionSimplifier.new, ExpressionSimplifier.parse,
      ExpressionSimplifier.parse_loop, handle_plain_expression, Atom.execute,
      ExpressionSimplifier.execute_eq, Atom.node_at, hexec, Atom.set_child,
      GroundingSpace.add_atom, ExpressionSimplifier.pop_sub, Example.sum]
  · rw [ExpressionSimplifier.execute_eq]
    simp [Atom.node_at, hplain]


/-! ## The simplifier: the entries of `subs` (C17) -/

theorem ExpressionSimplifier.parse_of_not_expr (c : Atom G) (path : List Nat)
    (parent : Option (List Nat)) (index : Nat) (subs : List SubExpression)
    (hc : c.get_type ≠ AtomType.EXPR) :
    ExpressionSimplifier.parse c path parent index subs = subs := by
  cases c with
  | expr cs => exact absurd rfl hc
  | _ => rfl

theorem ExpressionSimplifier.parse_loop_cons_parse (child : Atom G) (rest : List (Atom G))
    (path : List Nat) (i : Nat) :
    ExpressionSimplifier.parse_loop (child :: rest) path i []
      = ExpressionSimplifier.parse child (path ++ [i]) (some path) i []
        ++ ExpressionSimplifier.parse_loop rest path (i + 1) [] := by
  rw [ExpressionSimplifier.parse_loop_cons]
  split_ifs with hc
  · rfl
  · rw [ExpressionSimplifier.parse_of_not_expr _ _ _ _ _ hc]

mutual
theorem ExpressionSimplifier.parse_length (c : Atom G) (path : List Nat)
    (parent : Option (List Nat)) (index : Nat) :
    (ExpressionSimplifier.parse c path parent index []).length = c.expression_count := by
  match c with
  | .symbol _ => rfl
  | .grounded _ => rfl
  | .variable _ => rfl
  | .simplifier _ _ => rfl
  | .expr cs =>
    rw [ExpressionSimplifier.parse_expr]
    simp only [List.length_append, List.length_singleton, Atom.expression_count,
      ExpressionSimplifier.parse_loop_length cs path 0]
theorem ExpressionSimplifier.parse_loop_length (cs : List (Atom G)) (path : List Nat)
    (i : Nat) :
    (ExpressionSimplifier.parse_loop cs path i []).length = Atom.expression_count_of cs := by
  match cs with
  | [] => rfl
  | c :: rest =>
    rw [ExpressionSimplifier.parse_loop_cons_parse]
    simp only [List.length_append, Atom.expression_count_of,
      ExpressionSimplifier.parse_length c, ExpressionSimplifier.parse_loop_length rest]
end

mutual
theorem ExpressionSimplifier.parse_prefix (c : Atom G) (path : List Nat)
    (parent : Option (List Nat)) (index : Nat) :
    ∀ s ∈ ExpressionSimplifier.parse c path parent index [], path <+: s.expr := by
  match c with
  | .symbol _ => intro s hs; simp [ExpressionSimplifier.parse] at hs
  | .grounded _ => intro s hs; simp [ExpressionSimplifier.parse] at hs
  | .variable _ => intro s hs; simp [ExpressionSimplifier.parse] at hs
  | .simplifier _ _ => intro s hs; simp [ExpressionSimplifier.parse] at hs
  | .expr cs =>
    intro s hs
    rw [ExpressionSimplifier.parse_expr] at hs
    rcases List.mem_append.1 hs with e | e
    · simp only [List.mem_singleton] at e
      rw [e]
    · obtain ⟨j, _, hj⟩ := ExpressionSimplifier.parse_loop_prefix cs path 0 s e
      exact (List.prefix_append path [j]).trans hj
theorem ExpressionSimplifier.parse_loop_prefix (cs : List (Atom G)) (path : List Nat)
    (i : Nat) :
    ∀ s ∈ ExpressionSimplifier.parse_loop cs path i [],
      ∃ j, i ≤ j ∧ (path ++ [j]) <+: s.expr := by
  match cs with
  | [] => intro s hs; simp [ExpressionSimplifier.parse_loop] at hs
  | c :: rest =>
    intro s hs
    rw [ExpressionSimplifier.parse_loop_cons_parse] at hs
    rcases List.mem_append.1 hs with e | e
    · exact ⟨i, Nat.le_refl _, ExpressionSimplifier.parse_prefix c _ _ _ s e⟩
    · obtain ⟨j, hj, hp⟩ := ExpressionSimplifier.parse_loop_prefix rest path (i + 1) s e
      exact ⟨j, by omega, hp⟩
end

theorem list_not_prefix_of_siblings (path t s : List Nat) (i j : Nat) (hij : i ≠ j)
    (hs : (path ++ [i]) <+: s) (ht : (path ++ [j]) <+: t) : ¬ t <+: s := by
  intro hts
  have h1 : (path ++ [j]) <+: s := ht.trans hts
  have h2 := List.prefix_of_prefix_length_le hs h1 (by simp)
  have h3 := h2.eq_of_length (by simp)
  have h4 := List.append_cancel_left h3
  simp only [List.cons.injEq, and_true] at h4
  exact hij h4

mutual
theorem ExpressionSimplifier.parse_pairwise (c : Atom G) (path : List Nat)
    (parent : Option (List Nat)) (index : Nat) :
    (ExpressionSimplifier.parse c path parent index []).Pairwise
      (fun s t => ¬ t.expr <+: s.expr) := by
  match c with
  | .symbol _ => simp [ExpressionSimplifier.parse]
  | .grounded _ => simp [ExpressionSimplifier.parse]
  | .variable _ => simp [ExpressionSimplifier.parse]
  | .simplifier _ _ => simp [ExpressionSimplifier.parse]
  | .expr cs =>
    rw [ExpressionSimplifier.parse_expr]
    refine List.pairwise_append.2 ⟨by simp, ExpressionSimplifier.parse_loop_pairwise cs path 0, ?_⟩
    intro s hs t ht
    simp only [List.mem_singleton] at hs
    rw [hs]
    obtain ⟨j, _, hj⟩ := ExpressionSimplifier.parse_loop_prefix cs path 0 t ht
    intro hts
    have h1 := (hj.trans hts).length_le
    simp at h1
theorem ExpressionSimplifier.parse_loop_pairwise (cs : List (Atom G)) (path : List Nat)
    (i : Nat) :
    (ExpressionSimplifier.parse_loop cs path i []).Pairwise
      (fun s t => ¬ t.expr <+: s.expr) := by
  match cs with
  | [] => simp [ExpressionSimplifier.parse_loop]
  | c :: rest =>
    rw [ExpressionSimplifier.parse_loop_cons_parse]
    refine List.pairwise_append.2 ⟨ExpressionSimplifier.parse_pairwise c _ _ _,
      ExpressionSimplifier.parse_loop_pairwise rest path (i + 1), ?_⟩
    intro s hs t ht
    have h1 := ExpressionSimplifier.parse_prefix c _ _ _ s hs
    obtain ⟨j, hj, h2⟩ := ExpressionSimplifier.parse_loop_prefix rest path (i + 1) t ht
    exact list_not_prefix_of_siblings path t.expr s.expr i j (by omega) h1 h2
end

mutual
theorem ExpressionSimplifier.mem_parse (c : Atom G) (path : List Nat)
    (parent : Option (List Nat)) (index : Nat) (p : List Nat) :
    p ∈ (ExpressionSimplifier.parse c path parent index []).map (fun s => s.expr) ↔
      ∃ r cs, p = path ++ r ∧ c.node_at r = some (.expr cs) := by
  match c with
  | .symbol _ =>
    simp only [ExpressionSimplifier.parse, List.map_nil, List.not_mem_nil, false_iff]
    rintro ⟨r, cs, _, hn⟩
    cases r <;> simp [Atom.node_at] at hn
  | .grounded _ =>
    simp only [ExpressionSimplifier.parse, List.map_nil, List.not_mem_nil, false_iff]
    rintro ⟨r, cs, _, hn⟩
    cases r <;> simp [Atom.node_at] at hn
  | .variable _ =>
    simp only [ExpressionSimplifier.parse, List.map_nil, List.not_mem_nil, false_iff]
    rintro ⟨r, cs, _, hn⟩
    cases r <;> simp [Atom.node_at] at hn
  | .simplifier _ _ =>
    simp only [ExpressionSimplifier.parse, List.map_nil, List.not_mem_nil, false_iff]
    rintro ⟨r, cs, _, hn⟩
    cases r <;> simp [Atom.node_at] at hn
  | .expr cs =>
    rw [ExpressionSimplifier.parse_expr]
    simp only [List.map_append, List.map_cons, List.map_nil, List.mem_append,
      List.mem_singleton, ExpressionSimplifier.mem_parse_loop cs path 0 p]
    constructor
    · rintro (e | ⟨j, c', r, ccs, hc, hp, hn⟩)
      · exact ⟨[], cs, by simp [e], rfl⟩
      · refine ⟨j :: r, ccs, by simpa using hp, ?_⟩
        simp only [Atom.node_at, hc, hn]
    · rintro ⟨r, ccs, hp, hn⟩
      cases r with
      | nil => left; simpa using hp
      | cons j r =>
        right
        simp only [Atom.node_at] at hn
        cases hc : cs[j]? with
        | none => simp [hc] at hn
        | some c' =>
          simp only [hc] at hn
          exact ⟨j, c', r, ccs, hc, by simpa using hp, hn⟩
theorem ExpressionSimplifier.mem_parse_loop (cs : List (Atom G)) (path : List Nat)
    (i : Nat) (p : List Nat) :
    p ∈ (ExpressionSimplifier.parse_loop cs path i []).map (fun s => s.expr) ↔
      ∃ j c r ccs, cs[j]? = some c ∧ p = path ++ [i + j] ++ r ∧
        c.node_at r = some (.expr ccs) := by
  match cs with
  | [] =>
    simp only [ExpressionSimplifier.parse_loop, List.map_nil, List.not_mem_nil, false_iff]
    rintro ⟨j, c, r, ccs, hc, _⟩
    simp at hc
  | c :: rest =>
    rw [ExpressionSimplifier.parse_loop_cons_parse]
    simp only [List.map_append, List.mem_append,
      ExpressionSimplifier.mem_parse c (path ++ [i]) (some path) i p,
      ExpressionSimplifier.mem_parse_loop rest path (i + 1) p]
    constructor
    · rintro (⟨r, ccs, hp, hn⟩ | ⟨j, c', r, ccs, hc, hp, hn⟩)
      · exact ⟨0, c, r, ccs, by simp, by simpa using hp, hn⟩
      · exact ⟨j + 1, c', r, ccs, by simpa using hc,
          by rw [hp, show i + 1 + j = i + (j + 1) by omega], hn⟩
    · rintro ⟨j, c', r, ccs, hc, hp, hn⟩
      cases j with
      | zero =>
        simp only [List.getElem?_cons_zero, Option.some.injEq] at hc
        subst hc
        exact Or.inl ⟨r, ccs, by simpa using hp, hn⟩
      | succ j =>
        simp only [List.getElem?_cons_succ] at hc
        exact Or.inr ⟨j, c', r, ccs, hc,
          by rw [hp, show i + (j + 1) = i + 1 + j by omega], hn⟩
end

mutual
theorem ExpressionSimplifier.parse_parents (c : Atom G) (path parent : List Nat)
    (index : Nat) :
    ∀ s ∈ ExpressionSimplifier.parse c path (some parent) index [], s.parent ≠ none := by
  match c with
  | .symbol _ => intro s hs; simp [ExpressionSimplifier.parse] at hs
  | .grounded _ => intro s hs; simp [ExpressionSimplifier.parse] at hs
  | .variable _ => intro s hs; simp [ExpressionSimplifier.parse] at hs
  | .simplifier _ _ => intro s hs; simp [ExpressionSimplifier.parse] at hs
  | .expr cs =>
    intro s hs
    rw [ExpressionSimplifier.parse_expr] at hs
    rcases List.mem_append.1 hs with e | e
    · simp only [List.mem_singleton] at e
      rw [e]
      simp
    · exact ExpressionSimplifier.parse_loop_parents cs path 0 s e
theorem ExpressionSimplifier.parse_loop_parents (cs : List (Atom G)) (path : List Nat)
    (i : Nat) :
    ∀ s ∈ ExpressionSimplifier.parse_loop cs path i [], s.parent ≠ none := by
  match cs with
  | [] => intro s hs; simp [ExpressionSimplifier.parse_loop] at hs
  | c :: rest =>
    intro s hs
    rw [ExpressionSimplifier.parse_loop_cons_parse] at hs
    rcases List.mem_append.1 hs with e | e
    · exact ExpressionSimplifier.parse_parents c _ _ _ s e
    · exact ExpressionSimplifier.parse_loop_parents rest path (i + 1) s e
end

theorem list_take_dropLast {α : Type} (l : List α) (n : Nat) (hn : n ≤ l.dropLast.length) :
    l.take n = l.dropLast.take n := by
  rw [List.dropLast_eq_take, List.take_take]
  congr 1
  simp only [List.length_dropLast] at hn
  omega

theorem interpret_step_pops (h : Host G) (rest : List (Atom G)) (full : Atom G)
    (front : List SubExpression) (sub : SubExpression) (kb : SpaceAPI G)
    (hkb : kb.get_type = GroundingSpace.TYPE) (hparent : sub.parent ≠ none)
    (u : Unit) (space : GroundingSpace G) (calls : List (Call G))
    (hstep : GroundingSpace.interpret_step h
      ⟨rest ++ [.expr [.simplifier full (front ++ [sub])]]⟩ kb = ⟨.ok u, space, calls⟩) :
    ∃ full', space = ⟨rest ++ [.expr [.simplifier full' front]]⟩ := by
  obtain ⟨parent, hp⟩ : ∃ parent, sub.parent = some parent := by
    cases hs : sub.parent with
    | none => exact absurd hs hparent
    | some parent => exact ⟨parent, rfl⟩
  rw [interpret_step_simplifier h rest full _ kb hkb, ExpressionSimplifier.execute_eq] at hstep
  simp only [List.getLast?_concat, hp] at hstep
  split at hstep
  · rename_i children hnode
    generalize handle_plain_expression h children ⟨[]⟩ = r at hstep
    rcases r with ⟨value, tmp, calls0⟩
    rcases value with e | (_ | executed)
    · simp at hstep
    · simp at hstep
    · simp only at hstep
      split at hstep
      · split at hstep
        · rename_i full' _
          simp only [Run.mk.injEq, GroundingSpace.add_atom, ExpressionSimplifier.pop_sub,
            List.dropLast_concat] at hstep
          exact ⟨full', hstep.2.1.symm⟩
        · simp at hstep
      · simp at hstep
  · simp at hstep

theorem interpret_steps_pop (h : Host G) (rest : List (Atom G)) (kb : SpaceAPI G)
    (hkb : kb.get_type = GroundingSpace.TYPE) (base : List SubExpression) (j : Nat) :
    ∀ (entries : List SubExpression) (full : Atom G) (space : GroundingSpace G),
      (∀ s ∈ entries, s.parent ≠ none) → j ≤ entries.length →
      GroundingSpace.interpret_steps h j
          ⟨rest ++ [.expr [.simplifier full (base ++ entries)]]⟩ kb = .ok space →
      ∃ full', space
        = ⟨rest ++ [.expr [.simplifier full' (base ++ entries.take (entries.length - j))]]⟩ := by
  induction j with
  | zero =>
    intro entries full space _ _ hrun
    simp only [GroundingSpace.interpret_steps, Except.ok.injEq] at hrun
    exact ⟨full, by simp [← hrun]⟩
  | succ j ih =>
    intro entries full space hpar hj hrun
    have hne : entries ≠ [] := by
      intro e
      rw [e] at hj
      simp at hj
    have hsplit := List.dropLast_append_getLast hne
    have hlen : entries.dropLast.length + 1 = entries.length := by
      have := congrArg List.length hsplit
      simpa using this
    simp only [GroundingSpace.interpret_steps] at hrun
    rcases hstep : GroundingSpace.interpret_step h
      ⟨rest ++ [.expr [.simplifier full (base ++ entries)]]⟩ kb with ⟨value, space1, calls⟩
    rw [hstep] at hrun
    cases value with
    | error e => simp at hrun
    | ok u =>
      simp only at hrun
      have hstep' : GroundingSpace.interpret_step h
          ⟨rest ++ [.expr [.simplifier full
            ((base ++ entries.dropLast) ++ [entries.getLast hne])]]⟩ kb
          = ⟨.ok u, space1, calls⟩ := by
        rw [List.append_assoc, hsplit]
        exact hstep
      obtain ⟨full1, h1⟩ := interpret_step_pops h rest full _ _ kb hkb
        (hpar _ (List.getLast_mem hne)) u space1 calls hstep'
      rw [h1] at hrun
      obtain ⟨full', h2⟩ := ih entries.dropLast full1 space
        (fun s hs => hpar s (List.mem_of_mem_dropLast hs)) (by omega) hrun
      refine ⟨full', ?_⟩
      rw [h2]
      have hn : entries.length - (j + 1) = entries.dropLast.length - j := by omega
      rw [hn, list_take_dropLast entries _ (by omega)]

/-- C17 as stated fails: for `(f (g (h 1)) (k 2))` the entries of `subs` are those of the
expression itself, of `(g (h 1))`, of `(h 1)` and of `(k 2)`, in this order, which is
pre-order; the entry on top is the one of `(k 2)`, at nesting depth 1, while the entry of
`(h 1)`, at nesting depth 2, remains below it. -/
theorem simplifier_subs_not_deepest_first :
    ExpressionSimplifier.new
        (.expr [.symbol "f", .expr [.symbol "g", .expr [.symbol "h", .symbol "1"]],
          .expr [.symbol "k", .symbol "2"]] : Atom Unit)
      = .simplifier
          (.expr [.symbol "f", .expr [.symbol "g", .expr [.symbol "h", .symbol "1"]],
            .expr [.symbol "k", .symbol "2"]])
          [⟨[], none, 0⟩, ⟨[1], some [], 1⟩, ⟨[1, 1], some [1], 1⟩, ⟨[2], some [], 2⟩] ∧
    ([⟨[], none, 0⟩, ⟨[1], some [], 1⟩, ⟨[1, 1], some [1], 1⟩, ⟨[2], some [], 2⟩] :
        List SubExpression).getLast? = some ⟨[2], some [], 2⟩ ∧
    (⟨[1, 1], some [1], 1⟩ : SubExpression) ∈
      ([⟨[], none, 0⟩, ⟨[1], some [], 1⟩, ⟨[1, 1], some [1], 1⟩, ⟨[2], some [], 2⟩] :
        List SubExpression).dropLast ∧
    (⟨[2], some [], 2⟩ : SubExpression).expr.length
      < (⟨[1, 1], some [1], 1⟩ : SubExpression).expr.length :=
  ⟨rfl, rfl, by decide, by decide⟩

/-- C17, amended: the simplifier constructed from an expression `full` holds in `subs`
exactly one entry for `full` and one for each expression descendant of `full`, listed in
pre-order, every expression before the expressions inside it; so the entry on top of what
remains of `subs` is an innermost one: no entry below it is the entry of an expression
inside the expression of the top entry. -/
theorem simplifier_subs_ancestors_first (children : List (Atom G)) :
    ExpressionSimplifier.new (.expr children)
      = .simplifier (.expr children)
          (ExpressionSimplifier.parse (.expr children) [] none 0 []) ∧
    (ExpressionSimplifier.parse (.expr children) [] none 0 []).length
      = (Atom.expr children).expression_count ∧
    (∀ p : List Nat,
      p ∈ (ExpressionSimplifier.parse (.expr children) [] none 0 []).map (fun s => s.expr) ↔
        ∃ cs, (Atom.expr children).node_at p = some (.expr cs)) ∧
    ((ExpressionSimplifier.parse (.expr children) [] none 0 []).map (fun s => s.expr)).Nodup ∧
    (∀ front top back,
      ExpressionSimplifier.parse (.expr children) [] none 0 [] = front ++ top :: back →
      ∀ s ∈ front, ¬ top.expr <+: s.expr) := by
  have hpw := ExpressionSimplifier.parse_pairwise (Atom.expr children) [] none 0
  refine ⟨rfl, ExpressionSimplifier.parse_length _ _ _ _, ?_, ?_, ?_⟩
  · intro p
    rw [ExpressionSimplifier.mem_parse]
    constructor
    · rintro ⟨r, cs, hp, hn⟩
      exact ⟨cs, by simpa [hp] using hn⟩
    · rintro ⟨cs, hn⟩
      exact ⟨p, cs, by simp, hn⟩
  · rw [List.Nodup, List.pairwise_map]
    refine hpw.imp ?_
    intro s t hst e
    apply hst
    rw [e]
  · intro front top back hsplit s hs
    rw [hsplit] at hpw
    exact (List.pairwise_append.1 hpw).2.2 s hs top (List.mem_cons_self _ _)

/-! ## The matcher: repeated variables, non-variable patterns, soundness (C18, C19, C20) -/

theorem Bindings.find_set (b : Bindings G) (name v : String) (atom : Atom G) :
    (b.set name atom).find v = if name = v then some atom else b.find v := by
  induction b with
  | nil => simp [Bindings.set, Bindings.find]
  | cons p rest ih =>
    obtain ⟨k, x⟩ := p
    simp only [Bindings.set]
    by_cases hv : name = v
    · subst hv
      simp only [if_true] at ih ⊢
      split_ifs with h1 h2
      · simp [Bindings.find]
      · simp [Bindings.find, ne_of_lt h2, ih]
      · have hk : k = name := le_antisymm (not_lt.1 h1) (not_lt.1 h2)
        simp [Bindings.find, hk]
    · simp only [hv, if_false] at ih ⊢
      split_ifs with h1 h2
      · simp [Bindings.find, hv]
      · simp [Bindings.find, ih]
      · have hk : k = name := le_antisymm (not_lt.1 h1) (not_lt.1 h2)
        simp [Bindings.find, hk, hv]

mutual
theorem match_atoms_flag (h : Host G) (a b : Atom G) (m m' : MatchResult G) :
    (match_atoms h a b m).1 = (match_atoms h a b m').1 := by
  match a, b with
  | .symbol _, .symbol _ => simp [match_atoms]
  | .symbol _, .grounded _ => simp [match_atoms]
  | .symbol _, .expr _ => simp [match_atoms]
  | .symbol _, .simplifier _ _ => simp [match_atoms]
  | .grounded _, .symbol _ => simp [match_atoms]
  | .grounded _, .grounded _ => simp [match_atoms]
  | .grounded _, .expr _ => simp [match_atoms]
  | .grounded _, .simplifier _ _ => simp [match_atoms]
  | .simplifier _ _, .symbol _ => simp [match_atoms]
  | .simplifier _ _, .grounded _ => simp [match_atoms]
  | .simplifier _ _, .expr _ => simp [match_atoms]
  | .simplifier _ _, .simplifier _ _ => simp [match_atoms]
  | .variable _, .symbol _ => simp [match_atoms]
  | .variable _, .grounded _ => simp [match_atoms]
  | .variable _, .expr _ => simp [match_atoms]
  | .variable _, .simplifier _ _ => simp [match_atoms]
  | .expr _, .symbol _ => simp [match_atoms]
  | .expr _, .grounded _ => simp [match_atoms]
  | .expr _, .simplifier _ _ => simp [match_atoms]
  | .symbol _, .variable name => simp [match_atoms]
  | .grounded _, .variable name => simp [match_atoms]
  | .simplifier _ _, .variable name => simp [match_atoms]
  | .variable _, .variable name => simp [match_atoms]
  | .expr _, .variable name => simp [match_atoms]
  | .expr as, .expr bs =>
    simp only [match_atoms]
    split_ifs
    · rfl
    · exact match_atoms_loop_flag h as bs m m'
theorem match_atoms_loop_flag (h : Host G) (as bs : List (Atom G)) (m m' : MatchResult G) :
    (match_atoms_loop h as bs m).1 = (match_atoms_loop h as bs m').1 := by
  match as, bs with
  | [], _ => simp [match_atoms_loop]
  | _ :: _, [] => simp [match_atoms_loop]
  | a :: as, b :: bs =>
    have h1 := match_atoms_flag h a b m m'
    simp only [match_atoms_loop]
    rcases hr : match_atoms h a b m with ⟨ok, m1⟩
    rcases hr' : match_atoms h a b m' with ⟨ok', m1'⟩
    rw [hr, hr'] at h1
    simp only at h1
    subst h1
    cases ok
    · rfl
    · exact match_atoms_loop_flag h as bs m1 m1'
end

mutual
theorem match_atoms_find (h : Host G) (a b : Atom G) (m : MatchResult G) (v : String)
    (hv : v ∉ b.variables) :
    (match_atoms h a b m).2.b_bindings.find v = m.b_bindings.find v := by
  match a, b with
  | .symbol _, .symbol _ => simp [match_atoms]
  | .symbol _, .grounded _ => simp [match_atoms]
  | .symbol _, .expr _ => simp [match_atoms]
  | .symbol _, .simplifier _ _ => simp [match_atoms]
  | .grounded _, .symbol _ => simp [match_atoms]
  | .grounded _, .grounded _ => simp [match_atoms]
  | .grounded _, .expr _ => simp [match_atoms]
  | .grounded _, .simplifier _ _ => simp [match_atoms]
  | .simplifier _ _, .symbol _ => simp [match_atoms]
  | .simplifier _ _, .grounded _ => simp [match_atoms]
  | .simplifier _ _, .expr _ => simp [match_atoms]
  | .simplifier _ _, .simplifier _ _ => simp [match_atoms]
  | .variable _, .symbol _ => simp [match_atoms]
  | .variable _, .grounded _ => simp [match_atoms]
  | .variable _, .expr _ => simp [match_atoms]
  | .variable _, .simplifier _ _ => simp [match_atoms]
  | .expr _, .symbol _ => simp [match_atoms]
  | .expr _, .grounded _ => simp [match_atoms]
  | .expr _, .simplifier _ _ => simp [match_atoms]
  | .symbol _, .variable name =>
    have hne : name ≠ v := fun e => hv (by simp [Atom.variables, e])
    simp [match_atoms, Bindings.find_set, hne]
  | .grounded _, .variable name =>
    have hne : name ≠ v := fun e => hv (by simp [Atom.variables, e])
    simp [match_atoms, Bindings.find_set, hne]
  | .simplifier _ _, .variable name =>
    have hne : name ≠ v := fun e => hv (by simp [Atom.variables, e])
    simp [match_atoms, Bindings.find_set, hne]
  | .variable _, .variable name =>
    have hne : name ≠ v := fun e => hv (by simp [Atom.variables, e])
    simp [match_atoms, Bindings.find_set, hne]
  | .expr _, .variable name =>
    have hne : name ≠ v := fun e => hv (by simp [Atom.variables, e])
    simp [match_atoms, Bindings.find_set, hne]
  | .expr as, .expr bs =>
    simp only [match_atoms]
    split_ifs
    · rfl
    · exact match_atoms_loop_find h as bs m v (by simpa [Atom.variables] using hv)
theorem match_atoms_loop_find (h : Host G) (as bs : List (Atom G)) (m : MatchResult G)
    (v : String) (hv : v ∉ Atom.variables_of bs) :
    (match_atoms_loop h as bs m).2.b_bindings.find v = m.b_bindings.find v := by
  match as, bs with
  | [], _ => simp [match_atoms_loop]
  | _ :: _, [] => simp [match_atoms_loop]
  | a :: as, b :: bs =>
    simp only [Atom.variables_of, List.mem_append, not_or] at hv
    have h1 := match_atoms_find h a b m v hv.1
    simp only [match_atoms_loop]
    rcases hr : match_atoms h a b m with ⟨ok, m1⟩
    rw [hr] at h1
    cases ok
    · exact h1
    · simp only
      rw [match_atoms_loop_find h as bs m1 v hv.2]
      exact h1
end

theorem match_atoms_loop_append (h : Host G) (as1 bs1 as2 bs2 : List (Atom G))
    (m : MatchResult G) (hlen : as1.length = bs1.length) :
    match_atoms_loop h (as1 ++ as2) (bs1 ++ bs2) m =
      match match_atoms_loop h as1 bs1 m with
      | (false, m') => (false, m')
      | (true, m') => match_atoms_loop h as2 bs2 m' := by
  induction as1 generalizing bs1 m with
  | nil =>
    cases bs1 with
    | nil => simp [match_atoms_loop]
    | cons b bs1 => simp at hlen
  | cons a as1 ih =>
    cases bs1 with
    | nil => simp at hlen
    | cons b bs1 =>
      simp only [List.cons_append, match_atoms_loop]
      rcases match_atoms h a b m with ⟨ok, m1⟩
      cases ok
      · rfl
      · exact ih bs1 m1 (by simpa using hlen)

theorem match_atoms_loop_succeeds (h : Host G) (as bs : List (Atom G)) (m : MatchResult G)
    (hall : ∀ (k : Nat) (a b : Atom G), as[k]? = some a → bs[k]? = some b →
      (match_atoms h a b MatchResult.empty).1 = true) :
    (match_atoms_loop h as bs m).1 = true := by
  induction as generalizing bs m with
  | nil => simp [match_atoms_loop]
  | cons a as ih =>
    cases bs with
    | nil => simp [match_atoms_loop]
    | cons b bs =>
      have h0 := hall 0 a b (by simp) (by simp)
      rw [match_atoms_flag h a b MatchResult.empty m] at h0
      simp only [match_atoms_loop]
      rcases hr : match_atoms h a b m with ⟨ok, m1⟩
      rw [hr] at h0
      simp only at h0
      subst h0
      exact ih bs m1 (fun k a' b' ha hb => hall (k + 1) a' b' (by simpa using ha) (by simpa using hb))

theorem Atom.not_mem_variables_of (v : String) (l : List (Atom G))
    (hl : ∀ b ∈ l, v ∉ b.variables) : v ∉ Atom.variables_of l := by
  induction l with
  | nil => simp [Atom.variables_of]
  | cons b rest ih =>
    simp only [Atom.variables_of, List.mem_append, not_or]
    exact ⟨hl b (List.mem_cons_self _ _), ih (fun c hc => hl c (List.mem_cons_of_mem _ hc))⟩

theorem match_atoms_variable (h : Host G) (a : Atom G) (name : String) (m : MatchResult G) :
    match_atoms h a (.variable name) m = (true, ⟨m.a_bindings, m.b_bindings.set name a⟩) := by
  cases a <;> simp [match_atoms]

theorem list_split_at {α : Type} (l : List α) (j : Nat) (x : α) (hj : l[j]? = some x) :
    l = l.take j ++ x :: l.drop (j + 1) := by
  induction l generalizing j with
  | nil => simp at hj
  | cons a l ih =>
    cases j with
    | zero =>
      simp only [List.getElem?_cons_zero, Option.some.injEq] at hj
      simp [hj]
    | succ j =>
      simp only [List.getElem?_cons_succ] at hj
      simp only [List.take_succ_cons, List.drop_succ_cons, List.cons_append, List.cons.injEq,
        true_and]
      exact ih j hj

/-- C18: `match_atoms` does not compare the witnesses of a variable bound twice, and the last
binding wins: when the expressions `a` and `b` have the same number of children, `b` holds
the variable `v` at the positions `i < j` and in no child after position `j`, and every
other pair of children matches, then `match_atoms(a, b)` succeeds, whatever child `i` and
child `j` of `a` are, and the resulting `b_bindings` bind `v` to child `j` of `a`. -/
theorem match_atoms_last_binding_wins (h : Host G) (as bs : List (Atom G)) (v : String)
    (i j : Nat) (m : MatchResult G) (hlen : as.length = bs.length) (_hij : i < j)
    (hi : bs[i]? = some (.variable v)) (hj : bs[j]? = some (.variable v))
    (hothers : ∀ (k : Nat) (a b : Atom G), k ≠ i → k ≠ j → as[k]? = some a → bs[k]? = some b →
      (match_atoms h a b MatchResult.empty).1 = true)
    (hlater : ∀ (k : Nat) (b : Atom G), j < k → bs[k]? = some b → v ∉ b.variables) :
    (match_atoms h (.expr as) (.expr bs) m).1 = true ∧
    (match_atoms h (.expr as) (.expr bs) m).2.b_bindings.find v = as[j]? := by
  have hall : ∀ (k : Nat) (a b : Atom G), as[k]? = some a → bs[k]? = some b →
      (match_atoms h a b MatchResult.empty).1 = true := by
    intro k a b ha hb
    by_cases hki : k = i
    · rw [hki, hi] at hb
      simp only [Option.some.injEq] at hb
      rw [← hb, match_atoms_variable]
    · by_cases hkj : k = j
      · rw [hkj, hj] at hb
        simp only [Option.some.injEq] at hb
        rw [← hb, match_atoms_variable]
      · exact hothers k a b hki hkj ha hb
  have hstep : match_atoms h (.expr as) (.expr bs) m = match_atoms_loop h as bs m := by
    simp [match_atoms, hlen]
  rw [hstep]
  refine ⟨match_atoms_loop_succeeds h as bs m hall, ?_⟩
  have hjb : j < bs.length := (List.getElem?_eq_some.1 hj).1
  have hja : j < as.length := by omega
  have haj : as[j]? = some as[j] := List.getElem?_eq_getElem hja
  have hsa := list_split_at as j _ haj
  have hsb := list_split_at bs j _ hj
  have hl : (as.take j).length = (bs.take j).length := by simp [hlen]
  have h1 : (match_atoms_loop h (as.take j) (bs.take j) m).1 = true :=
    match_atoms_loop_succeeds h _ _ m (fun k a b ha hb => by
      rw [List.getElem?_take] at ha hb
      split_ifs at ha hb with hk
      exact hall k a b ha hb)
  have hv2 : v ∉ Atom.variables_of (bs.drop (j + 1)) := by
    apply Atom.not_mem_variables_of
    intro b hb
    obtain ⟨k, hk⟩ := List.getElem?_of_mem hb
    rw [List.getElem?_drop] at hk
    exact hlater (j + 1 + k) b (by omega) hk
  rw [haj]
  conv_lhs => rw [hsa, hsb]
  rw [match_atoms_loop_append h _ _ _ _ m hl]
  rcases hr : match_atoms_loop h (as.take j) (bs.take j) m with ⟨ok, m1⟩
  rw [hr] at h1
  simp only at h1
  subst h1
  simp only [match_atoms_loop, match_atoms_variable]
  rw [match_atoms_loop_find h _ _ _ v hv2]
  simp [Bindings.find_set]

/-- Witness of C18: `(A B)` against `($x $x)` succeeds with `$x -> B`, although `A` and `B`
are unequal. -/
theorem match_atoms_last_binding_wins_witness :
    Atom.equals Example.echo (.symbol "A") (.symbol "B") = false ∧
    (match_atoms Example.echo (.expr [.symbol "A", .symbol "B"])
        (.expr [.variable "x", .variable "x"]) MatchResult.empty).1 = true ∧
    (match_atoms Example.echo (.expr [.symbol "A", .symbol "B"])
        (.expr [.variable "x", .variable "x"]) MatchResult.empty).2.b_bindings.find "x"
      = some (.symbol "B") :=
  ⟨by decide,
    (match_atoms_last_binding_wins Example.echo [.symbol "A", .symbol "B"]
      [.variable "x", .variable "x"] "x" 0 1 MatchResult.empty rfl (by decide) rfl rfl
      (fun k a b h0 h1 ha _ => by
        match k, h0, h1, ha with
        | k + 2, _, _, ha => simp at ha)
      (fun k b hk hb => by
        match k, hk, hb with
        | k + 2, _, hb => simp at hb)).1,
    (match_atoms_last_binding_wins Example.echo [.symbol "A", .symbol "B"]
      [.variable "x", .variable "x"] "x" 0 1 MatchResult.empty rfl (by decide) rfl rfl
      (fun k a b h0 h1 ha _ => by
        match k, h0, h1, ha with
        | k + 2, _, _, ha => simp at ha)
      (fun k b hk hb => by
        match k, hk, hb with
        | k + 2, _, hb => simp at hb)).2⟩

theorem match_atoms_loop_flag_iff (h : Host G) (as bs : List (Atom G)) (m : MatchResult G) :
    (match_atoms_loop h as bs m).1 = true ↔
      ∀ (k : Nat) (a b : Atom G), as[k]? = some a → bs[k]? = some b →
        ∀ m', (match_atoms h a b m').1 = true := by
  constructor
  · intro hl
    induction as generalizing bs m with
    | nil => intro k a b ha; simp at ha
    | cons a as ih =>
      cases bs with
      | nil => intro k a' b' _ hb; simp at hb
      | cons b bs =>
        simp only [match_atoms_loop] at hl
        rcases hr : match_atoms h a b m with ⟨ok, m1⟩
        rw [hr] at hl
        cases ok
        · simp at hl
        · intro k a' b' ha hb m'
          cases k with
          | zero =>
            simp only [List.getElem?_cons_zero, Option.some.injEq] at ha hb
            rw [← ha, ← hb, match_atoms_flag h a b m' m, hr]
          | succ k =>
            simp only [List.getElem?_cons_succ] at ha hb
            exact ih bs m1 hl k a' b' ha hb m'
  · intro hall
    exact match_atoms_loop_succeeds h as bs m (fun k a b ha hb => hall k a b ha hb _)

/-- C19: against an atom `b` that is no variable, `match_atoms(a, b)` succeeds exactly when
`a` is a symbol or grounded and `equals(a, b)` holds, or `a` is a variable, or `a` and `b`
are expressions with the same number of children on every pair of which, at the same
position, `match_atoms` succeeds.  A variable `a` is assigned `b` in `a_bindings`; and the
first failing pair of children ends the match: the call returns false with the match result
as that pair left it, the later pairs not being visited. -/
theorem match_atoms_non_variable_pattern (h : Host G) (a b : Atom G) (m : MatchResult G)
    (hb : b.get_type ≠ AtomType.VARIABLE) :
    ((match_atoms h a b m).1 = true ↔
      ((a.get_type = AtomType.SYMBOL ∨ a.get_type = AtomType.GROUNDED) ∧
        Atom.equals h a b = true) ∨
      a.get_type = AtomType.VARIABLE ∨
      ∃ as bs, a = .expr as ∧ b = .expr bs ∧ as.length = bs.length ∧
        ∀ (k : Nat) (a' b' : Atom G), as[k]? = some a' → bs[k]? = some b' →
          ∀ m', (match_atoms h a' b' m').1 = true) ∧
    (∀ name, a = .variable name →
      match_atoms h a b m = (true, ⟨m.a_bindings.set name b, m.b_bindings⟩)) ∧
    (∀ as1 bs1 a' b' as2 bs2, a = .expr (as1 ++ a' :: as2) → b = .expr (bs1 ++ b' :: bs2) →
      as1.length = bs1.length → as2.length = bs2.length →
      (match_atoms_loop h as1 bs1 m).1 = true →
      (match_atoms h a' b' (match_atoms_loop h as1 bs1 m).2).1 = false →
      match_atoms h a b m
        = (false, (match_atoms h a' b' (match_atoms_loop h as1 bs1 m).2).2)) := by
  refine ⟨?_, ?_, ?_⟩
  · match a, b, hb with
    | _, .variable _, hb => exact absurd rfl hb
    | .symbol _, .symbol _, _ => simp [match_atoms, Atom.get_type]
    | .symbol _, .grounded _, _ => simp [match_atoms, Atom.get_type]
    | .symbol _, .expr _, _ => simp [match_atoms, Atom.get_type]
    | .symbol _, .simplifier _ _, _ => simp [match_atoms, Atom.get_type]
    | .grounded _, .symbol _, _ => simp [match_atoms, Atom.get_type]
    | .grounded _, .grounded _, _ => simp [match_atoms, Atom.get_type]
    | .grounded _, .expr _, _ => simp [match_atoms, Atom.get_type]
    | .grounded _, .simplifier _ _, _ => simp [match_atoms, Atom.get_type]
    | .simplifier _ _, .symbol _, _ => simp [match_atoms, Atom.get_type]
    | .simplifier _ _, .grounded _, _ => simp [match_atoms, Atom.get_type]
    | .simplifier _ _, .expr _, _ => simp [match_atoms, Atom.get_type]
    | .simplifier _ _, .simplifier _ _, _ => simp [match_atoms, Atom.get_type]
    | .variable _, .symbol _, _ => simp [match_atoms, Atom.get_type]
    | .variable _, .grounded _, _ => simp [match_atoms, Atom.get_type]
    | .variable _, .expr _, _ => simp [match_atoms, Atom.get_type]
    | .variable _, .simplifier _ _, _ => simp [match_atoms, Atom.get_type]
    | .expr _, .symbol _, _ => simp [match_atoms, Atom.get_type]
    | .expr _, .grounded _, _ => simp [match_atoms, Atom.get_type]
    | .expr _, .simplifier _ _, _ => simp [match_atoms, Atom.get_type]
    | .expr as, .expr bs, _ =>
      simp only [match_atoms, Atom.get_type, false_and, false_or, reduceCtorEq, or_self,
        Atom.expr.injEq]
      by_cases hlen : as.length = bs.length
      · simp only [ne_eq, hlen, not_true_eq_false, if_false, match_atoms_loop_flag_iff]
        constructor
        · intro hall
          exact ⟨as, bs, rfl, rfl, hlen, hall⟩
        · rintro ⟨as', bs', rfl, rfl, _, hall⟩
          exact hall
      · simp only [ne_eq, hlen, not_false_eq_true, if_true, Bool.false_eq_true, false_iff]
        rintro ⟨as', bs', rfl, rfl, hl, _⟩
        exact hlen hl
  · intro name ha
    subst ha
    match b, hb with
    | .variable _, hb => exact absurd rfl hb
    | .symbol _, _ => simp [match_atoms]
    | .grounded _, _ => simp [match_atoms]
    | .expr _, _ => simp [match_atoms]
    | .simplifier _ _, _ => simp [match_atoms]
  · intro as1 bs1 a' b' as2 bs2 ha hb' hl1 hl2 hok hfail
    subst ha hb'
    have hlen : (as1 ++ a' :: as2).length = (bs1 ++ b' :: bs2).length := by
      simp [hl1, hl2]
    simp only [match_atoms, ne_eq, hlen, not_true_eq_false, if_false]
    rw [match_atoms_loop_append h _ _ _ _ m hl1]
    rcases hr : match_atoms_loop h as1 bs1 m with ⟨ok, m1⟩
    rw [hr] at hok hfail
    simp only at hok hfail
    subst hok
    simp only [match_atoms_loop]
    rcases hr2 : match_atoms h a' b' m1 with ⟨ok2, m2⟩
    rw [hr2] at hfail
    simp only at hfail
    subst hfail
    rfl

/-- Witness of C19: `(A B $y)` against `(A X C)` fails at the second pair of children, and
`$y` of the third pair is not bound. -/
theorem match_atoms_non_variable_pattern_witness :
    (Atom.expr [.symbol "A", .symbol "X", .symbol "C"] : Atom Unit).get_type
      ≠ AtomType.VARIABLE ∧
    match_atoms Example.echo (.expr [.symbol "A", .symbol "B", .variable "y"])
        (.expr [.symbol "A", .symbol "X", .symbol "C"]) MatchResult.empty
      = (false, MatchResult.empty) :=
  ⟨by decide,
    ((match_atoms_non_variable_pattern Example.echo
        (.expr [.symbol "A", .symbol "B", .variable "y"])
        (.expr [.symbol "A", .symbol "X", .symbol "C"]) MatchResult.empty (by decide)).2.2
      [.symbol "A"] [.symbol "A"] (.symbol "B") (.symbol "X") [.variable "y"] [.symbol "C"]
      rfl rfl rfl rfl rfl rfl).trans rfl⟩

mutual
theorem apply_match_to_atom_congr (t : Atom G) (β β' : Bindings G)
    (hf : ∀ v ∈ t.variables, β.find v = β'.find v) :
    apply_match_to_atom t β = apply_match_to_atom t β' := by
  match t with
  | .symbol _ => rfl
  | .grounded _ => rfl
  | .simplifier _ _ => rfl
  | .variable name =>
    simp only [apply_match_to_atom, hf name (by simp [Atom.variables])]
  | .expr children =>
    simp only [apply_match_to_atom]
    rw [apply_match_to_children_congr children β β' (by simpa [Atom.variables] using hf)]
theorem apply_match_to_children_congr (ts : List (Atom G)) (β β' : Bindings G)
    (hf : ∀ v ∈ Atom.variables_of ts, β.find v = β'.find v) :
    apply_match_to_children ts β = apply_match_to_children ts β' := by
  match ts with
  | [] => rfl
  | t :: rest =>
    simp only [Atom.variables_of, List.mem_append] at hf
    simp only [apply_match_to_children]
    rw [apply_match_to_atom_congr t β β' (fun v hv => hf v (Or.inl hv)),
      apply_match_to_children_congr rest β β' (fun v hv => hf v (Or.inr hv))]
end

theorem apply_match_to_children_length (ts : List (Atom G)) (β : Bindings G) :
    (apply_match_to_children ts β).length = ts.length := by
  induction ts with
  | nil => rfl
  | cons t rest ih => simp [apply_match_to_children, ih]

theorem apply_match_to_atom_nil (t : Atom G) : apply_match_to_atom t [] = t :=
  apply_match_to_atom_of_unbound t [] (fun _ _ => by simp [Bindings.keys])

mutual
theorem match_atoms_sound (h : Host G) (a b : Atom G)
    (m m' : MatchResult G) (hrefl : ∀ g ∈ a.payloads, h.eq g g = true)
    (ha : a.variables = []) (hb : b.variables.Nodup)
    (hm : match_atoms h a b m = (true, m')) :
    m'.a_bindings = m.a_bindings ∧
    Atom.equals h a (apply_match_to_atom b m'.b_bindings) = true := by
  match a, b with
  | .variable _, _ => simp [Atom.variables] at ha
  | .symbol s, .variable name =>
    simp only [match_atoms, Prod.mk.injEq, true_and] at hm
    subst hm
    simp [apply_match_to_atom, Bindings.find_set, Atom.equals_self h _ hrefl]
  | .grounded g, .variable name =>
    simp only [match_atoms, Prod.mk.injEq, true_and] at hm
    subst hm
    simp [apply_match_to_atom, Bindings.find_set, Atom.equals_self h _ hrefl]
  | .simplifier full subs, .variable name =>
    simp only [match_atoms, Prod.mk.injEq, true_and] at hm
    subst hm
    simp [apply_match_to_atom, Bindings.find_set, Atom.equals_self h _ hrefl]
  | .expr as, .variable name =>
    simp only [match_atoms, Prod.mk.injEq, true_and] at hm
    subst hm
    simp [apply_match_to_atom, Bindings.find_set, Atom.equals_self h _ hrefl]
  | .symbol _, .symbol _ =>
    simp only [match_atoms, Prod.mk.injEq] at hm
    obtain ⟨he, hm⟩ := hm
    subst hm
    exact ⟨rfl, by simpa [apply_match_to_atom] using he⟩
  | .symbol _, .grounded _ => simp [match_atoms, Atom.equals] at hm
  | .symbol _, .expr _ => simp [match_atoms, Atom.equals] at hm
  | .symbol _, .simplifier _ _ => simp [match_atoms, Atom.equals] at hm
  | .grounded _, .symbol _ => simp [match_atoms, Atom.equals] at hm
  | .grounded _, .grounded _ =>
    simp only [match_atoms, Prod.mk.injEq] at hm
    obtain ⟨he, hm⟩ := hm
    subst hm
    exact ⟨rfl, by simpa [apply_match_to_atom] using he⟩
  | .grounded _, .expr _ => simp [match_atoms, Atom.equals] at hm
  | .grounded _, .simplifier _ _ => simp [match_atoms, Atom.equals] at hm
  | .simplifier _ _, .symbol _ => simp [match_atoms, Atom.equals] at hm
  | .simplifier _ _, .grounded _ => simp [match_atoms, Atom.equals] at hm
  | .simplifier _ _, .expr _ => simp [match_atoms, Atom.equals] at hm
  | .simplifier _ _, .simplifier _ _ =>
    simp only [match_atoms, Prod.mk.injEq] at hm
    obtain ⟨he, hm⟩ := hm
    subst hm
    exact ⟨rfl, by simpa [apply_match_to_atom] using he⟩
  | .expr _, .symbol _ => simp [match_atoms] at hm
  | .expr _, .grounded _ => simp [match_atoms] at hm
  | .expr _, .simplifier _ _ => simp [match_atoms] at hm
  | .expr as, .expr bs =>
    simp only [match_atoms] at hm
    split_ifs at hm with hlen
    · simp at hm
    · simp only [ne_eq, Decidable.not_not] at hlen
      obtain ⟨h1, h2⟩ := match_atoms_loop_sound h as bs m m'
        (by simpa [Atom.payloads] using hrefl) (by simpa [Atom.variables] using ha) (by simpa [Atom.variables] using hb) hm
      refine ⟨h1, ?_⟩
      simp only [apply_match_to_atom, Atom.equals, apply_match_to_children_length, ne_eq, hlen,
        not_true_eq_false, if_false]
      exact h2
theorem match_atoms_loop_sound (h : Host G)
    (as bs : List (Atom G)) (m m' : MatchResult G)
    (hrefl : ∀ g ∈ Atom.payloads_of as, h.eq g g = true) (ha : Atom.variables_of as = [])
    (hb : (Atom.variables_of bs).Nodup) (hm : match_atoms_loop h as bs m = (true, m')) :
    m'.a_bindings = m.a_bindings ∧
    Atom.equals_loop h as (apply_match_to_children bs m'.b_bindings) = true := by
  match as, bs with
  | [], _ =>
    simp only [match_atoms_loop, Prod.mk.injEq, true_and] at hm
    subst hm
    exact ⟨rfl, by simp [Atom.equals_loop]⟩
  | _ :: _, [] =>
    simp only [match_atoms_loop, Prod.mk.injEq, true_and] at hm
    subst hm
    exact ⟨rfl, by simp [Atom.equals_loop, apply_match_to_children]⟩
  | a :: as, b :: bs =>
    simp only [Atom.variables_of, List.append_eq_nil] at ha
    simp only [Atom.variables_of] at hb
    have hb' := List.nodup_append.1 hb
    simp only [match_atoms_loop] at hm
    rcases hr : match_atoms h a b m with ⟨ok, m1⟩
    rw [hr] at hm
    cases ok
    · simp at hm
    · simp only at hm
      simp only [Atom.payloads_of, List.mem_append] at hrefl
      obtain ⟨h1, h2⟩ := match_atoms_sound h a b m m1 (fun g hg => hrefl g (Or.inl hg))
        ha.1 hb'.1 hr
      obtain ⟨h3, h4⟩ := match_atoms_loop_sound h as bs m1 m'
        (fun g hg => hrefl g (Or.inr hg)) ha.2 hb'.2.1 hm
      refine ⟨h3.trans h1, ?_⟩
      have hsame : apply_match_to_atom b m'.b_bindings = apply_match_to_atom b m1.b_bindings := by
        apply apply_match_to_atom_congr
        intro v hv
        have := match_atoms_loop_find h as bs m1 v (fun hv' => hb'.2.2 hv hv')
        rw [hm] at this
        exact this
      simp only [apply_match_to_children, Atom.equals_loop, hsame, h2, Bool.not_true,
        Bool.false_eq_true, if_false]
      exact h4
end

mutual
theorem Atom.equals_comm (h : Host G) (hsymm : ∀ g g', h.eq g g' = h.eq g' g) (a b : Atom G) :
    Atom.equals h a b = Atom.equals h b a := by
  match a, b with
  | .symbol s, .symbol t => simp only [Atom.equals, eq_comm]
  | .symbol _, .grounded _ => simp [Atom.equals]
  | .symbol _, .expr _ => simp [Atom.equals]
  | .symbol _, .variable _ => simp [Atom.equals]
  | .symbol _, .simplifier _ _ => simp [Atom.equals]
  | .grounded _, .symbol _ => simp [Atom.equals]
  | .grounded g, .grounded g' => simpa [Atom.equals] using hsymm g g'
  | .grounded _, .expr _ => simp [Atom.equals]
  | .grounded _, .variable _ => simp [Atom.equals]
  | .grounded _, .simplifier _ _ => simp [Atom.equals]
  | .variable _, .symbol _ => simp [Atom.equals]
  | .variable _, .grounded _ => simp [Atom.equals]
  | .variable _, .expr _ => simp [Atom.equals]
  | .variable s, .variable t => simp only [Atom.equals, eq_comm]
  | .variable _, .simplifier _ _ => simp [Atom.equals]
  | .simplifier _ _, .symbol _ => simp [Atom.equals]
  | .simplifier _ _, .grounded _ => simp [Atom.equals]
  | .simplifier _ _, .expr _ => simp [Atom.equals]
  | .simplifier _ _, .variable _ => simp [Atom.equals]
  | .simplifier full _, .simplifier full' _ =>
    simp only [Atom.equals]
    exact Atom.equals_comm h hsymm full full'
  | .expr _, .symbol _ => simp [Atom.equals]
  | .expr _, .grounded _ => simp [Atom.equals]
  | .expr _, .variable _ => simp [Atom.equals]
  | .expr _, .simplifier _ _ => simp [Atom.equals]
  | .expr as, .expr bs =>
    simp only [Atom.equals, Atom.equals_loop_comm h hsymm as bs, ne_eq, eq_comm]
theorem Atom.equals_loop_comm (h : Host G) (hsymm : ∀ g g', h.eq g g' = h.eq g' g)
    (as bs : List (Atom G)) : Atom.equals_loop h as bs = Atom.equals_loop h bs as := by
  match as, bs with
  | [], [] => rfl
  | [], _ :: _ => simp [Atom.equals_loop]
  | _ :: _, [] => simp [Atom.equals_loop]
  | a :: as, b :: bs =>
    simp only [Atom.equals_loop, Atom.equals_comm h hsymm a b,
      Atom.equals_loop_comm h hsymm as bs]
end

theorem composed_bindings_of_ground (m : MatchResult G) (hm : m.a_bindings = []) :
    composed_bindings m = m.b_bindings := by
  simp only [composed_bindings, hm, apply_match_to_atom_nil]
  exact List.map_id' _

/-- C20 as stated fails: the ground atom `K`, a `ValueAtom<double>` whose payload is a NaN,
matches the pattern `$x`, which is linear; `a_bindings` is empty and applying `b_bindings`
to `$x` gives `K`, which `operator==` tells from `K`, in both directions. -/
theorem match_not_sound_on_nan :
    (Atom.grounded none : Atom (Option Int)).variables = [] ∧
    (Atom.variable "x" : Atom (Option Int)).variables.Nodup ∧
    match_atoms Example.doubles (.grounded none) (.variable "x") MatchResult.empty
      = (true, ⟨[], [("x", .grounded none)]⟩) ∧
    apply_match_to_atom (.variable "x") [("x", (.grounded none : Atom (Option Int)))]
      = .grounded none ∧
    Atom.equals Example.doubles (.grounded none)
      (apply_match_to_atom (.variable "x") [("x", .grounded none)]) = false ∧
    Atom.equals Example.doubles
      (apply_match_to_atom (.variable "x") [("x", .grounded none)]) (.grounded none) = false :=
  ⟨rfl, by decide, rfl, rfl, rfl, rfl⟩

/-- C20, amended: matching is sound on linear patterns over ground atoms whose host grounded
atoms equal themselves.  When `K` contains no variable, every host grounded atom inside `K`
equals itself, no variable name occurs twice in `P` and `match_atoms(K, P)` succeeds,
`a_bindings` is empty and `K` equals `apply_match_to_atom(P, b_bindings)` (and conversely
when the comparison of host payloads is symmetric).  Hence on a space of such atoms `match`
with the pattern `<P>` and the template `<P>` appends, in order, one atom for each atom of
the space that matches `P`, each equal to the atom it comes from. -/
theorem match_sound_on_linear_patterns (h : Host G) :
    (∀ (K P : Atom G) (m : MatchResult G), K.variables = [] →
      (∀ g ∈ K.payloads, h.eq g g = true) → P.variables.Nodup →
      match_atoms h K P MatchResult.empty = (true, m) →
      m.a_bindings = [] ∧
      Atom.equals h K (apply_match_to_atom P m.b_bindings) = true ∧
      ((∀ g g', h.eq g g' = h.eq g' g) →
        Atom.equals h (apply_match_to_atom P m.b_bindings) K = true)) ∧
    (∀ (self : GroundingSpace G) (P : Atom G) (O : GroundingSpace G),
      (∀ K ∈ self.content, K.variables = [] ∧ ∀ g ∈ K.payloads, h.eq g g = true) →
      P.variables.Nodup →
      ∃ outs, self.match_ h (.grounding ⟨[P]⟩) (.grounding ⟨[P]⟩) O
          = (.ok (), ⟨O.content ++ outs⟩) ∧
        List.Forall₂ (fun K out => Atom.equals h K out = true)
          (self.content.filter fun K => (match_atoms h K P MatchResult.empty).1) outs) := by
  have hsound : ∀ (K P : Atom G) (m : MatchResult G), K.variables = [] →
      (∀ g ∈ K.payloads, h.eq g g = true) → P.variables.Nodup →
      match_atoms h K P MatchResult.empty = (true, m) →
      m.a_bindings = [] ∧ Atom.equals h K (apply_match_to_atom P m.b_bindings) = true :=
    fun K P m hK hrefl hP hm => match_atoms_sound h K P MatchResult.empty m hrefl hK hP hm
  refine ⟨fun K P m hK hrefl hP hm => ⟨(hsound K P m hK hrefl hP hm).1,
    (hsound K P m hK hrefl hP hm).2,
    fun hsymm => by rw [Atom.equals_comm h hsymm]; exact (hsound K P m hK hrefl hP hm).2⟩, ?_⟩
  intro self P O hself hP
  refine ⟨self.content.flatMap (match_contribution h P [P]), ?_, ?_⟩
  · simp [GroundingSpace.match_, SpaceAPI.get_type, match_loop_content]
  · obtain ⟨content⟩ := self
    simp only at hself ⊢
    induction content with
    | nil => simp
    | cons K rest ih =>
      have ih' := ih (fun K' hK' => hself K' (List.mem_cons_of_mem _ hK'))
      simp only [List.flatMap_cons, List.filter_cons]
      rcases hr : match_atoms h K P MatchResult.empty with ⟨ok, m⟩
      cases ok
      · simpa [match_contribution, hr] using ih'
      · obtain ⟨h1, h2⟩ := hsound K P m (hself K (List.mem_cons_self _ _)).1
          (hself K (List.mem_cons_self _ _)).2 hP hr
        simp only [match_contribution, hr, List.map_cons, List.map_nil, if_true,
          composed_bindings_of_ground m h1, List.singleton_append]
        exact List.Forall₂.cons h2 ih'

/-- Witness of C20: the space `<(parent Alice Bob), (parent Bob Carol)>` queried with the
pattern and template `<(parent $x Bob)>` gives `<(parent Alice Bob)>`. -/
theorem match_sound_on_linear_patterns_witness :
    (∀ K ∈ [Atom.expr [.symbol "parent", .symbol "Alice", .symbol "Bob"],
        .expr [.symbol "parent", .symbol "Bob", .symbol "Carol"]],
      K.variables = [] ∧ ∀ g ∈ K.payloads, Example.echo.eq g g = true) ∧
    (∃ outs, GroundingSpace.match_ Example.echo
        ⟨[.expr [.symbol "parent", .symbol "Alice", .symbol "Bob"],
          .expr [.symbol "parent", .symbol "Bob", .symbol "Carol"]]⟩
        (.grounding ⟨[.expr [.symbol "parent", .variable "x", .symbol "Bob"]]⟩)
        (.grounding ⟨[.expr [.symbol "parent", .variable "x", .symbol "Bob"]]⟩) ⟨[]⟩
          = (.ok (), ⟨[] ++ outs⟩) ∧
      List.Forall₂ (fun K out => Atom.equals Example.echo K out = true)
        [.expr [.symbol "parent", .symbol "Alice", .symbol "Bob"]] outs) ∧
    GroundingSpace.match_ Example.echo
        ⟨[.expr [.symbol "parent", .symbol "Alice", .symbol "Bob"],
          .expr [.symbol "parent", .symbol "Bob", .symbol "Carol"]]⟩
        (.grounding ⟨[.expr [.symbol "parent", .variable "x", .symbol "Bob"]]⟩)
        (.grounding ⟨[.expr [.symbol "parent", .variable "x", .symbol "Bob"]]⟩) ⟨[]⟩
      = (.ok (), ⟨[.expr [.symbol "parent", .symbol "Alice", .symbol "Bob"]]⟩) :=
  ⟨by decide,
    (match_sound_on_linear_patterns Example.echo).2
      ⟨[.expr [.symbol "parent", .symbol "Alice", .symbol "Bob"],
        .expr [.symbol "parent", .symbol "Bob", .symbol "Carol"]]⟩
      (.expr [.symbol "parent", .variable "x", .symbol "Bob"]) ⟨[]⟩
      (by decide) (by decide),
    rfl⟩

/-! ## Expressions that are never reduced (C21) -/

/-- A step on a simplifier whose top entry is an expression with a child 0 that is not
grounded: the expression is not executed, it is assigned to its own place, and the entry is
popped. -/
theorem interpret_step_put_back (h : Host G) (rest : List (Atom G)) (full : Atom G)
    (base : List SubExpression) (q : List Nat) (i : Nat) (op : Atom G)
    (args : List (Atom G)) (kb : SpaceAPI G) (hkb : kb.get_type = GroundingSpace.TYPE)
    (hnode : full.node_at (q ++ [i]) = some (.expr (op :: args)))
    (hop : op.get_type ≠ AtomType.GROUNDED) :
    ∃ calls, GroundingSpace.interpret_step h
        ⟨rest ++ [.expr [.simplifier full (base ++ [⟨q ++ [i], some q, i⟩])]]⟩ kb
      = ⟨.ok (), ⟨rest ++ [.expr [.simplifier full base]]⟩, calls⟩ := by
  have hplain : handle_plain_expression h (op :: args) ⟨[]⟩ = ⟨.ok (some false), ⟨[]⟩, []⟩ := by
    rw [handle_plain_expression]
    simp only [hop, if_false]
  have hset : full.set_child q i (.expr (op :: args)) = some full := by
    rw [Atom.set_child_eq _ q i _ _ hnode, Atom.replace_at_self _ _ _ hnode]
  rw [interpret_step_simplifier h rest full _ kb hkb, ExpressionSimplifier.execute_eq]
  simp only [List.getLast?_concat, hnode, hplain]
  simp only [Bool.false_eq_true, if_false, GroundingSpace.add_atom, List.nil_append, hset,
    ExpressionSimplifier.pop_sub, List.dropLast_concat]
  exact ⟨_, rfl⟩

/-- A step on a simplifier whose only entry is the whole expression, with a child 0 that is
not grounded: the expression itself is pushed back on the space. -/
theorem interpret_step_put_back_full (h : Host G) (rest : List (Atom G)) (full : Atom G)
    (i : Nat) (op : Atom G) (args : List (Atom G)) (kb : SpaceAPI G)
    (hkb : kb.get_type = GroundingSpace.TYPE)
    (hnode : full.node_at [] = some (.expr (op :: args)))
    (hop : op.get_type ≠ AtomType.GROUNDED) :
    ∃ calls, GroundingSpace.interpret_step h
        ⟨rest ++ [.expr [.simplifier full [⟨[], none, i⟩]]]⟩ kb
      = ⟨.ok (), ⟨rest ++ [.expr (op :: args)]⟩, calls⟩ := by
  rw [interpret_step_simplifier h rest full _ kb hkb,
    simplifier_execute_full_declined h full [⟨[], none, i⟩] _ _ ⟨[], none, i⟩ op args rfl rfl
      hnode hop]
  exact ⟨_, rfl⟩

mutual
/-- The entries of an expression none of whose nodes can be executed are popped in
`expression_count` steps that leave `full` as it is; the top of the space is a simplifier
all the way. -/
theorem run_declined_expression (h : Host G) (kb : SpaceAPI G)
    (hkb : kb.get_type = GroundingSpace.TYPE) (c : Atom G) (full : Atom G) (q : List Nat)
    (i : Nat) (base : List SubExpression) (rest : List (Atom G))
    (hc : c.get_type = AtomType.EXPR) (hnode : full.node_at (q ++ [i]) = some c)
    (hin : c.uninterpretable = true) :
    GroundingSpace.interpret_steps h c.expression_count
        ⟨rest ++ [.expr [.simplifier full
          (base ++ ExpressionSimplifier.parse c (q ++ [i]) (some q) i [])]]⟩ kb
      = .ok ⟨rest ++ [.expr [.simplifier full base]]⟩ ∧
    ∀ j, j < c.expression_count → ∃ full' subs',
      GroundingSpace.interpret_steps h j
          ⟨rest ++ [.expr [.simplifier full
            (base ++ ExpressionSimplifier.parse c (q ++ [i]) (some q) i [])]]⟩ kb
        = .ok ⟨rest ++ [.expr [.simplifier full' subs']]⟩ := by
  match c with
  | .symbol _ => simp [Atom.get_type] at hc
  | .grounded _ => simp [Atom.get_type] at hc
  | .variable _ => simp [Atom.get_type] at hc
  | .simplifier _ _ => simp [Atom.get_type] at hc
  | .expr [] => simp [Atom.uninterpretable] at hin
  | .expr (op :: args) =>
    simp only [Atom.uninterpretable, Bool.and_eq_true, decide_eq_true_eq] at hin
    obtain ⟨hop, hall⟩ := hin
    have hnodes : ∀ (j : Nat) (c' : Atom G), (op :: args)[j]? = some c' →
        full.node_at ((q ++ [i]) ++ [0 + j]) = some c' := by
      intro j c' hj
      rw [Atom.node_at_append, hnode]
      simp only [Option.some_bind, Atom.node_at, Nat.zero_add, hj]
    obtain ⟨hrun, hbefore⟩ := run_declined_children h kb hkb (op :: args) full (q ++ [i]) 0
      (base ++ [⟨q ++ [i], some q, i⟩]) rest hnodes hall
    obtain ⟨calls, hstep⟩ := interpret_step_put_back h rest full base q i op args kb hkb hnode hop
    have hparse : base ++ ExpressionSimplifier.parse (.expr (op :: args)) (q ++ [i]) (some q) i []
        = base ++ [⟨q ++ [i], some q, i⟩]
          ++ ExpressionSimplifier.parse_loop (op :: args) (q ++ [i]) 0 [] := by
      rw [ExpressionSimplifier.parse_expr, List.append_assoc]
    rw [hparse]
    simp only [Atom.expression_count]
    rw [Nat.add_comm]
    refine ⟨?_, ?_⟩
    · rw [interpret_steps_add h _ 1 _ _ kb hrun, interpret_steps_succ h 0 _ _ kb calls hstep]
      rfl
    · refine interpret_steps_before h
        (fun r => ∃ full' subs', r = .ok ⟨rest ++ [.expr [.simplifier full' subs']]⟩)
        _ 1 _ _ kb hrun hbefore ?_
      intro j hj
      have hj0 : j = 0 := by omega
      rw [hj0]
      exact ⟨_, _, rfl⟩
/-- The entries of the children `cs` of a node, none of which can be executed, are popped
in `expression_count_of cs` steps that leave `full` as it is. -/
theorem run_declined_children (h : Host G) (kb : SpaceAPI G)
    (hkb : kb.get_type = GroundingSpace.TYPE) (cs : List (Atom G)) (full : Atom G)
    (p : List Nat) (i : Nat) (base : List SubExpression) (rest : List (Atom G))
    (hnodes : ∀ (j : Nat) (c : Atom G), cs[j]? = some c →
      full.node_at (p ++ [i + j]) = some c)
    (hin : Atom.uninterpretable_all cs = true) :
    GroundingSpace.interpret_steps h (Atom.expression_count_of cs)
        ⟨rest ++ [.expr [.simplifier full
          (base ++ ExpressionSimplifier.parse_loop cs p i [])]]⟩ kb
      = .ok ⟨rest ++ [.expr [.simplifier full base]]⟩ ∧
    ∀ j, j < Atom.expression_count_of cs → ∃ full' subs',
      GroundingSpace.interpret_steps h j
          ⟨rest ++ [.expr [.simplifier full
            (base ++ ExpressionSimplifier.parse_loop cs p i [])]]⟩ kb
        = .ok ⟨rest ++ [.expr [.simplifier full' subs']]⟩ := by
  match cs with
  | [] =>
    refine ⟨?_, ?_⟩
    · simp [Atom.expression_count_of, ExpressionSimplifier.parse_loop,
        GroundingSpace.interpret_steps]
    · intro j hj
      simp [Atom.expression_count_of] at hj
  | c :: cs' =>
    simp only [Atom.uninterpretable_all, Bool.and_eq_true] at hin
    obtain ⟨hrun', hbefore'⟩ := run_declined_children h kb hkb cs' full p (i + 1)
      (base ++ ExpressionSimplifier.parse c (p ++ [i]) (some p) i []) rest
      (fun j c' hj => by
        have := hnodes (j + 1) c' (by simpa using hj)
        rw [show i + 1 + j = i + (j + 1) by omega]
        exact this)
      hin.2
    have hparse : base ++ ExpressionSimplifier.parse_loop (c :: cs') p i []
        = base ++ ExpressionSimplifier.parse c (p ++ [i]) (some p) i []
          ++ ExpressionSimplifier.parse_loop cs' p (i + 1) [] := by
      rw [ExpressionSimplifier.parse_loop_cons_parse, List.append_assoc]
    rw [hparse]
    simp only [Atom.expression_count_of]
    rw [Nat.add_comm]
    by_cases hc : c.get_type = AtomType.EXPR
    · obtain ⟨hrun, hbefore⟩ := run_declined_expression h kb hkb c full p i base rest hc
        (by simpa using hnodes 0 c (by simp)) hin.1
      refine ⟨?_, ?_⟩
      · rw [interpret_steps_add h _ _ _ _ kb hrun', hrun]
      · exact interpret_steps_before h
          (fun r => ∃ full' subs', r = .ok ⟨rest ++ [.expr [.simplifier full' subs']]⟩)
          _ _ _ _ kb hrun' hbefore' hbefore
    · rw [Atom.expression_count_of_not_expr c hc, Nat.add_zero]
      rw [ExpressionSimplifier.parse_of_not_expr _ _ _ _ _ hc, List.append_nil] at hrun' hbefore' ⊢
      exact ⟨hrun', hbefore'⟩
end

/-- C21: a compound expression `A` with `k` expression nodes, each of which has a child 0
that is not grounded, is never reduced: `k + 1` successive `interpret_step` calls take the
space `rest ++ [A]` back to `rest ++ [A]`, the top of the space being a simplifier, and the
space not `rest ++ [A]`, after every smaller positive number of calls; so after any number
of calls the top of the space is an expression, and the space never holds only atoms that
are no expressions. -/
theorem interpret_steps_uninterpretable_cycle (h : Host G) (rest children : List (Atom G))
    (kb : SpaceAPI G) (hkb : kb.get_type = GroundingSpace.TYPE)
    (hcompound : is_plain children = false)
    (hin : (Atom.expr children).uninterpretable = true) :
    GroundingSpace.interpret_steps h ((Atom.expr children).expression_count + 1)
        ⟨rest ++ [.expr children]⟩ kb
      = .ok ⟨rest ++ [.expr children]⟩ ∧
    (∀ j, 0 < j → j < (Atom.expr children).expression_count + 1 → ∃ full subs,
      GroundingSpace.interpret_steps h j ⟨rest ++ [.expr children]⟩ kb
        = .ok ⟨rest ++ [.expr [.simplifier full subs]]⟩) ∧
    (∀ j, 0 < j → j < (Atom.expr children).expression_count + 1 →
      GroundingSpace.interpret_steps h j ⟨rest ++ [.expr children]⟩ kb
        ≠ .ok ⟨rest ++ [.expr children]⟩) ∧
    (∀ n, ∃ e, GroundingSpace.interpret_steps h n ⟨rest ++ [.expr children]⟩ kb
      = .ok ⟨rest ++ [.expr e]⟩) := by
  match children with
  | [] => simp [Atom.uninterpretable] at hin
  | op :: args =>
    simp only [Atom.uninterpretable, Bool.and_eq_true, decide_eq_true_eq] at hin
    obtain ⟨hop, hall⟩ := hin
    have hfirst : GroundingSpace.interpret_step h ⟨rest ++ [.expr (op :: args)]⟩ kb
        = ⟨.ok (), ⟨rest ++ [.expr [.simplifier (.expr (op :: args))
            ([⟨[], none, 0⟩] ++ ExpressionSimplifier.parse_loop (op :: args) [] 0 [])]]⟩, []⟩ := by
      simp only [GroundingSpace.interpret_step, hkb, ne_eq, not_true_eq_false, if_false,
        List.getLast?_concat, List.dropLast_concat, hcompound, Bool.false_eq_true,
        ExpressionSimplifier.new, ExpressionSimplifier.parse_expr]
    obtain ⟨hrun, hbefore⟩ := run_declined_children h kb hkb (op :: args) (.expr (op :: args))
      [] 0 [⟨[], none, 0⟩] rest
      (fun j c hj => by simp only [List.nil_append, Atom.node_at, Nat.zero_add, hj]) hall
    obtain ⟨calls, hlast⟩ := interpret_step_put_back_full h rest (.expr (op :: args)) 0 op args
      kb hkb rfl hop
    have hcycle : GroundingSpace.interpret_steps h
        ((Atom.expr (op :: args)).expression_count + 1) ⟨rest ++ [.expr (op :: args)]⟩ kb
        = .ok ⟨rest ++ [.expr (op :: args)]⟩ := by
      simp only [Atom.expression_count]
      rw [show 1 + Atom.expression_count_of (op :: args) + 1
          = (Atom.expression_count_of (op :: args) + 1) + 1 by omega]
      rw [interpret_steps_succ h _ _ _ kb [] hfirst, interpret_steps_add h _ 1 _ _ kb hrun,
        interpret_steps_succ h 0 _ _ kb calls hlast]
      rfl
    have hmiddle : ∀ j, 0 < j → j < (Atom.expr (op :: args)).expression_count + 1 →
        ∃ full subs, GroundingSpace.interpret_steps h j ⟨rest ++ [.expr (op :: args)]⟩ kb
          = .ok ⟨rest ++ [.expr [.simplifier full subs]]⟩ := by
      intro j hj0 hj
      simp only [Atom.expression_count] at hj
      cases j with
      | zero => omega
      | succ j =>
        rw [interpret_steps_succ h _ _ _ kb [] hfirst]
        refine interpret_steps_before h
          (fun r => ∃ full' subs', r = .ok ⟨rest ++ [.expr [.simplifier full' subs']]⟩)
          _ 1 _ _ kb hrun hbefore ?_ j (by omega)
        intro j hj
        have hj0 : j = 0 := by omega
        rw [hj0]
        exact ⟨_, _, rfl⟩
    refine ⟨hcycle, hmiddle, ?_, ?_⟩
    · intro j hj0 hj hback
      obtain ⟨full, subs, hs⟩ := hmiddle j hj0 hj
      rw [hs] at hback
      injection hback with hback
      injection hback with hback
      have hlast := List.append_inj_right' hback rfl
      injection hlast with hlast
      injection hlast with hlast
      rw [← hlast] at hcompound
      simp [is_plain, Atom.get_type] at hcompound
    intro n
    induction n using Nat.strong_induction_on with
    | _ n ih =>
      by_cases hn : n < (Atom.expr (op :: args)).expression_count + 1
      · cases n with
        | zero => exact ⟨_, rfl⟩
        | succ n =>
          obtain ⟨full, subs, hs⟩ := hmiddle (n + 1) (by omega) hn
          exact ⟨_, hs⟩
      · have hsplit : n = ((Atom.expr (op :: args)).expression_count + 1)
            + (n - ((Atom.expr (op :: args)).expression_count + 1)) := by omega
        rw [hsplit, interpret_steps_add h _ _ _ _ kb hcycle]
        exact ih _ (by omega)

/-- Witness of C21: `<((foo 1) 2)>` is back after 3 steps. -/
theorem interpret_steps_uninterpretable_cycle_witness :
    is_plain [Atom.expr [.symbol "foo", .grounded (Example.Value.number 1)],
        .grounded (.number 2)] = false ∧
    (Atom.expr [.expr [.symbol "foo", .grounded (Example.Value.number 1)],
        .grounded (.number 2)]).uninterpretable = true ∧
    GroundingSpace.interpret_steps Example.arith 3
        ⟨[.expr [.expr [.symbol "foo", .grounded (.number 1)], .grounded (.number 2)]]⟩
        (.grounding ⟨[]⟩)
      = .ok ⟨[.expr [.expr [.symbol "foo", .grounded (.number 1)], .grounded (.number 2)]]⟩ :=
  ⟨by decide, by decide,
    (interpret_steps_uninterpretable_cycle Example.arith []
      [.expr [.symbol "foo", .grounded (.number 1)], .grounded (.number 2)]
      (.grounding ⟨[]⟩) rfl (by decide) (by decide)).1⟩

/-! ## The simplifiers on a space (C22) -/

mutual
/-- An entry that `parse` adds below a parent is the child `index` of its parent. -/
theorem ExpressionSimplifier.parse_links (c : Atom G) (path parent : List Nat) (index : Nat)
    (hpath : path = parent ++ [index]) :
    ∀ s ∈ ExpressionSimplifier.parse c path (some parent) index [],
      ∃ par, s.parent = some par ∧ s.expr = par ++ [s.index] := by
  match c with
  | .symbol _ => intro s hs; simp [ExpressionSimplifier.parse] at hs
  | .grounded _ => intro s hs; simp [ExpressionSimplifier.parse] at hs
  | .variable _ => intro s hs; simp [ExpressionSimplifier.parse] at hs
  | .simplifier _ _ => intro s hs; simp [ExpressionSimplifier.parse] at hs
  | .expr cs =>
    intro s hs
    rw [ExpressionSimplifier.parse_expr] at hs
    rcases List.mem_append.1 hs with e | e
    · simp only [List.mem_singleton] at e
      rw [e]
      exact ⟨parent, rfl, hpath⟩
    · exact ExpressionSimplifier.parse_loop_links cs path 0 s e
/-- Every entry that the loop of `parse` adds is the child `index` of its parent. -/
theorem ExpressionSimplifier.parse_loop_links (cs : List (Atom G)) (path : List Nat)
    (i : Nat) :
    ∀ s ∈ ExpressionSimplifier.parse_loop cs path i [],
      ∃ par, s.parent = some par ∧ s.expr = par ++ [s.index] := by
  match cs with
  | [] => intro s hs; simp [ExpressionSimplifier.parse_loop] at hs
  | c :: rest =>
    intro s hs
    rw [ExpressionSimplifier.parse_loop_cons_parse] at hs
    rcases List.mem_append.1 hs with e | e
    · exact ExpressionSimplifier.parse_links c _ _ _ rfl s e
    · exact ExpressionSimplifier.parse_loop_links rest path (i + 1) s e
end

/-- The entries that the constructor makes for an expression fit it. -/
theorem ExpressionSimplifier.fits_parse (expr : List (Atom G)) :
    ExpressionSimplifier.Fits (.expr expr)
      (ExpressionSimplifier.parse (.expr expr) [] none 0 []) := by
  refine ⟨⟨0, ExpressionSimplifier.parse_loop expr [] 0 [],
    ExpressionSimplifier.parse_expr expr [] none 0,
    ExpressionSimplifier.parse_loop_links expr [] 0⟩, ?_,
    ExpressionSimplifier.parse_pairwise _ _ _ _⟩
  intro s hs
  have hmem : s.expr ∈ (ExpressionSimplifier.parse (Atom.expr expr) [] none 0 []).map
      (fun s => s.expr) := List.mem_map_of_mem _ hs
  obtain ⟨r, cs, hr, hn⟩ := (ExpressionSimplifier.mem_parse _ _ _ _ _).1 hmem
  rw [List.nil_append] at hr
  exact ⟨cs, by rw [hr, hn]⟩

/-- Replacing a node leaves an expression wherever there is one strictly above the node. -/
theorem Atom.node_at_replace_at_below (a : Atom G) (p q : List Nat) (n : Atom G)
    (cs : List (Atom G)) (hq : q ≠ []) (hp : a.node_at p = some (.expr cs)) :
    ∃ cs', (a.replace_at (p ++ q) n).node_at p = some (.expr cs') ∧ cs'.length = cs.length := by
  rw [Atom.replace_at_append a p q n _ hp, Atom.node_at_replace_at a p _ _ hp]
  cases q with
  | nil => exact absurd rfl hq
  | cons j q =>
    simp only [Atom.replace_at]
    cases cs[j]? with
    | none => exact ⟨_, rfl, rfl⟩
    | some c => exact ⟨_, rfl, by simp⟩

/-- When the top entry, which has a parent, is replaced by any atom and popped, the
remaining entries fit the new expression. -/
theorem ExpressionSimplifier.fits_dropLast (full : Atom G) (subs : List SubExpression)
    (sub : SubExpression) (parent : List Nat) (reduced : Atom G)
    (hfits : ExpressionSimplifier.Fits full subs) (hsub : subs.getLast? = some sub)
    (hparent : sub.parent = some parent) :
    sub.expr = parent ++ [sub.index] ∧
    ExpressionSimplifier.Fits (full.replace_at sub.expr reduced) subs.dropLast := by
  obtain ⟨⟨index, rest, hs, hlinks⟩, hnodes, hpw⟩ := hfits
  obtain ⟨ys, hys⟩ := List.getLast?_eq_some_iff.1 hsub
  cases ys with
  | nil =>
    rw [hs] at hys
    simp only [List.nil_append, List.cons.injEq] at hys
    rw [← hys.1] at hparent
    simp at hparent
  | cons y ys =>
    rw [hs] at hys
    simp only [List.cons_append, List.cons.injEq] at hys
    obtain ⟨hy, hrest⟩ := hys
    have hsubmem : sub ∈ rest := by rw [hrest]; simp
    obtain ⟨par, hpar, hexpr⟩ := hlinks sub hsubmem
    rw [hparent] at hpar
    simp only [Option.some.injEq] at hpar
    rw [← hpar] at hexpr
    refine ⟨hexpr, ?_⟩
    have hdrop : subs.dropLast = ⟨[], none, index⟩ :: ys := by
      rw [hs, hrest, ← List.cons_append, List.dropLast_concat]
    have hsplit : subs = (⟨[], none, index⟩ :: ys) ++ [sub] := by
      rw [hs, hrest, List.cons_append]
    rw [hdrop]
    refine ⟨⟨index, ys, rfl, fun s hsm => hlinks s (by rw [hrest]; simp [hsm])⟩, ?_, ?_⟩
    · intro s hsm
      have hsm' : s ∈ subs := by rw [hsplit]; exact List.mem_append_left _ hsm
      obtain ⟨cs, hcs⟩ := hnodes s hsm'
      rw [hsplit] at hpw
      have hnot : ¬ sub.expr <+: s.expr :=
        (List.pairwise_append.1 hpw).2.2 s hsm sub (by simp)
      by_cases hpre : s.expr <+: sub.expr
      · obtain ⟨q, hq⟩ := hpre
        have hq0 : q ≠ [] := by
          intro e
          rw [e, List.append_nil] at hq
          exact hnot (by rw [hq])
        obtain ⟨cs', hcs', _⟩ := Atom.node_at_replace_at_below full s.expr q reduced cs hq0 hcs
        rw [← hq]
        exact ⟨cs', hcs'⟩
      · rw [Atom.node_at_replace_at_of_incomparable full sub.expr s.expr reduced hnot hpre]
        exact ⟨cs, hcs⟩
    · rw [hsplit] at hpw
      exact (List.pairwise_append.1 hpw).1

/-- A call of `execute` on an entry with a parent that ends without error has assigned an
atom to the child `index` of the parent, and has added the popped simplifier to the
result. -/
theorem simplifier_execute_ok_parent (h : Host G) (full full' : Atom G)
    (subs : List SubExpression) (sub : SubExpression) (parent : List Nat)
    (args : List (Atom G)) (result : GroundingSpace G) (run : Run G Unit)
    (hsub : subs.getLast? = some sub) (hparent : sub.parent = some parent)
    (hrun : ExpressionSimplifier.execute h full subs args result = (run, full'))
    (hok : run.value = .ok ()) :
    ∃ reduced, full.set_child parent sub.index reduced = some full' ∧
      run.space = result.add_atom (.expr [ExpressionSimplifier.pop_sub full' subs]) := by
  rw [ExpressionSimplifier.execute_eq] at hrun
  simp only [hsub, hparent] at hrun
  split at hrun
  · split at hrun
    · simp only [Prod.mk.injEq] at hrun
      rw [← hrun.1] at hok
      simp at hok
    · simp only [Prod.mk.injEq] at hrun
      rw [← hrun.1] at hok
      simp at hok
    · split at hrun
      · split at hrun
        · rename_i reduced _ _ full'' hset
          simp only [Prod.mk.injEq] at hrun
          refine ⟨reduced, ?_, ?_⟩
          · rw [hset, hrun.2]
          · rw [← hrun.1, hrun.2]
        · simp only [Prod.mk.injEq] at hrun
          rw [← hrun.1] at hok
          simp at hok
      · simp only [Prod.mk.injEq] at hrun
        rw [← hrun.1] at hok
        simp at hok
  · simp only [Prod.mk.injEq] at hrun
    rw [← hrun.1] at hok
    simp at hok

/-- The entries of a placed simplifier fit its expression. -/
theorem ExpressionSimplifier.fits_of_placed (h : Host G) (full : Atom G)
    (subs : List SubExpression) (hplaced : ExpressionSimplifier.Placed h full subs) :
    ExpressionSimplifier.Fits full subs := by
  induction hplaced with
  | built expr full subs hcompound hnew =>
    simp only [ExpressionSimplifier.new, Atom.simplifier.injEq] at hnew
    rw [← hnew.1, ← hnew.2]
    exact ExpressionSimplifier.fits_parse expr
  | advanced full full' popped subs subs' sub parent args result run hplaced hsub hparent hrun
      hok hpop ih =>
    simp only [ExpressionSimplifier.pop_sub, Atom.simplifier.injEq] at hpop
    rw [← hpop.1, ← hpop.2]
    obtain ⟨reduced, hset, _⟩ := simplifier_execute_ok_parent h full full' subs sub parent args
      result run hsub hparent hrun hok
    obtain ⟨hexpr, hfits⟩ := ExpressionSimplifier.fits_dropLast full subs sub parent reduced ih
      hsub hparent
    have hmem : sub ∈ subs := by
      obtain ⟨ys, hys⟩ := List.getLast?_eq_some_iff.1 hsub
      rw [hys]
      simp
    obtain ⟨cs, hcs⟩ := ih.2.1 sub hmem
    rw [hexpr] at hcs
    rw [Atom.set_child_eq full parent sub.index reduced _ hcs] at hset
    simp only [Option.some.injEq] at hset
    rw [← hset, ← hexpr]
    exact hfits

/-- The step on a compound expression leaves a placed simplifier on the space. -/
theorem interpret_step_builds_placed (h : Host G) (rest expr : List (Atom G))
    (kb : SpaceAPI G) (hkb : kb.get_type = GroundingSpace.TYPE)
    (hcompound : is_plain expr = false) :
    ∃ full subs,
      GroundingSpace.interpret_step h ⟨rest ++ [.expr expr]⟩ kb
        = ⟨.ok (), ⟨rest ++ [.expr [.simplifier full subs]]⟩, []⟩ ∧
      ExpressionSimplifier.Placed h full subs := by
  refine ⟨.expr expr, ExpressionSimplifier.parse (.expr expr) [] none 0 [], ?_,
    .built expr _ _ hcompound rfl⟩
  simp only [GroundingSpace.interpret_step, hkb, ne_eq, not_true_eq_false, if_false,
    List.getLast?_concat, List.dropLast_concat, hcompound, Bool.false_eq_true,
    ExpressionSimplifier.new]

/-- A step that ends without error on a placed simplifier whose top entry has a parent
leaves a placed simplifier on the space. -/
theorem interpret_step_advances_placed (h : Host G) (rest : List (Atom G)) (full : Atom G)
    (subs : List SubExpression) (sub : SubExpression) (parent : List Nat) (kb : SpaceAPI G)
    (space : GroundingSpace G) (calls : List (Call G))
    (hkb : kb.get_type = GroundingSpace.TYPE)
    (hplaced : ExpressionSimplifier.Placed h full subs)
    (hsub : subs.getLast? = some sub) (hparent : sub.parent = some parent)
    (hstep : GroundingSpace.interpret_step h ⟨rest ++ [.expr [.simplifier full subs]]⟩ kb
      = ⟨.ok (), space, calls⟩) :
    ∃ full' subs', space = ⟨rest ++ [.expr [.simplifier full' subs']]⟩ ∧
      ExpressionSimplifier.Placed h full' subs' := by
  rw [interpret_step_simplifier h rest full subs kb hkb] at hstep
  generalize hrun : ExpressionSimplifier.execute h full subs [.simplifier full subs] ⟨rest⟩
    = r at hstep
  obtain ⟨run, full'⟩ := r
  simp only [Run.mk.injEq] at hstep
  obtain ⟨reduced, _, hspace⟩ := simplifier_execute_ok_parent h full full' subs sub parent _ _
    run hsub hparent hrun hstep.1
  refine ⟨full', subs.dropLast, ?_, .advanced full full' _ subs _ sub parent _ _ run hplaced
    hsub hparent hrun hstep.1 rfl⟩
  rw [← hstep.2.1, hspace]
  rfl

/-- C22: a simplifier that `interpret_step` can place on a space, built for a compound
expression and advanced by calls of `execute` that ended without error, has these
properties. Its `subs` is not empty; the first entry of `subs` is `full` (the empty path)
without parent, and every other entry has a parent; for every entry with a parent, the parent
is an expression of `full` and `index` is a position in its children. So `subs` has a top
entry; when the top entry has a parent, the assignment of any atom to the child `index` of
the parent succeeds; and when the top entry has no parent, it is the only entry. -/
theorem simplifier_placed_invariant (h : Host G) (full : Atom G) (subs : List SubExpression)
    (hplaced : ExpressionSimplifier.Placed h full subs) :
    subs ≠ [] ∧
    (∃ index rest, subs = ⟨[], none, index⟩ :: rest ∧ ∀ s ∈ rest, s.parent ≠ none) ∧
    (∀ s ∈ subs, ∀ parent, s.parent = some parent →
      ∃ children, full.node_at parent = some (.expr children) ∧ s.index < children.length) ∧
    (∃ top, subs.getLast? = some top) ∧
    (∀ top parent reduced, subs.getLast? = some top → top.parent = some parent →
      ∃ full', full.set_child parent top.index reduced = some full') ∧
    (∀ top, subs.getLast? = some top → top.parent = none → subs = [top]) := by
  obtain ⟨⟨index, rest, hs, hlinks⟩, hnodes, _⟩ :=
    ExpressionSimplifier.fits_of_placed h full subs hplaced
  have hchild : ∀ s ∈ subs, ∀ parent, s.parent = some parent →
      ∃ c, full.node_at (parent ++ [s.index]) = some c := by
    intro s hsm parent hparent
    rw [hs] at hsm
    rcases List.mem_cons.1 hsm with e | e
    · rw [e] at hparent
      simp at hparent
    · obtain ⟨par, hpar, hexpr⟩ := hlinks s e
      rw [hparent] at hpar
      simp only [Option.some.injEq] at hpar
      obtain ⟨cs, hcs⟩ := hnodes s (by rw [hs]; exact List.mem_cons_of_mem _ e)
      rw [hexpr, ← hpar] at hcs
      exact ⟨_, hcs⟩
  have hne : subs ≠ [] := by rw [hs]; simp
  refine ⟨hne, ⟨index, rest, hs, ?_⟩, ?_, ?_, ?_, ?_⟩
  · intro s hsm
    obtain ⟨par, hpar, _⟩ := hlinks s hsm
    rw [hpar]
    simp
  · intro s hsm parent hparent
    obtain ⟨c, hc⟩ := hchild s hsm parent hparent
    rw [Atom.node_at_append] at hc
    cases hb : full.node_at parent with
    | none => simp [hb] at hc
    | some b =>
      simp only [hb, Option.some_bind] at hc
      match b, hc with
      | .expr children, hc =>
        refine ⟨children, rfl, ?_⟩
        simp only [Atom.node_at] at hc
        cases hi : children[s.index]? with
        | none => simp [hi] at hc
        | some c' => exact (List.getElem?_eq_some.1 hi).1
      | .symbol _, hc => simp [Atom.node_at] at hc
      | .grounded _, hc => simp [Atom.node_at] at hc
      | .variable _, hc => simp [Atom.node_at] at hc
      | .simplifier _ _, hc => simp [Atom.node_at] at hc
  · exact ⟨subs.getLast hne, List.getLast?_eq_getLast _ hne⟩
  · intro top parent reduced htop hparent
    have hmem : top ∈ subs := by
      obtain ⟨ys, hys⟩ := List.getLast?_eq_some_iff.1 htop
      rw [hys]
      simp
    obtain ⟨c, hc⟩ := hchild top hmem parent hparent
    exact ⟨_, Atom.set_child_eq full parent top.index reduced c hc⟩
  · intro top htop hparent
    obtain ⟨ys, hys⟩ := List.getLast?_eq_some_iff.1 htop
    cases ys with
    | nil => exact hys
    | cons y ys =>
      rw [hs] at hys
      simp only [List.cons_append, List.cons.injEq] at hys
      obtain ⟨par, hpar, _⟩ := hlinks top (by rw [hys.2]; simp)
      rw [hparent] at hpar
      simp at hpar

/-- Witness of C22: the simplifier built for `(Add (Add 1 2) (Add 3 4))` and advanced by one
call of `execute`, which replaces `(Add 3 4)` by `7`. -/
theorem simplifier_placed_invariant_witness :
    ExpressionSimplifier.Placed Example.arith
      (.expr [.grounded .Add,
        .expr [.grounded .Add, .grounded (.number 1), .grounded (.number 2)],
        .grounded (.number 7)])
      [⟨[], none, 0⟩, ⟨[1], some [], 1⟩] ∧
    ([⟨[], none, 0⟩, ⟨[1], some [], 1⟩] : List SubExpression) ≠ [] ∧
    (∀ s ∈ ([⟨[], none, 0⟩, ⟨[1], some [], 1⟩] : List SubExpression),
      ∀ parent, s.parent = some parent →
      ∃ children,
        (Atom.expr [.grounded Example.Value.Add,
          .expr [.grounded .Add, .grounded (.number 1), .grounded (.number 2)],
          .grounded (.number 7)]).node_at parent = some (.expr children) ∧
        s.index < children.length) :=
  have hbuilt : ExpressionSimplifier.Placed Example.arith
      (.expr [.grounded .Add,
        .expr [.grounded .Add, .grounded (.number 1), .grounded (.number 2)],
        .expr [.grounded .Add, .grounded (.number 3), .grounded (.number 4)]])
      [⟨[], none, 0⟩, ⟨[1], some [], 1⟩, ⟨[2], some [], 2⟩] :=
    .built
      ([.grounded .Add,
        .expr [.grounded .Add, .grounded (.number 1), .grounded (.number 2)],
        .expr [.grounded .Add, .grounded (.number 3), .grounded (.number 4)]] :
        List (Atom Example.Value))
      _ _ (by decide) rfl
  have hplaced : ExpressionSimplifier.Placed Example.arith
      (.expr [.grounded .Add,
        .expr [.grounded .Add, .grounded (.number 1), .grounded (.number 2)],
        .grounded (.number 7)])
      [⟨[], none, 0⟩, ⟨[1], some [], 1⟩] :=
    .advanced
      (.expr [.grounded .Add,
        .expr [.grounded .Add, .grounded (.number 1), .grounded (.number 2)],
        .expr [.grounded .Add, .grounded (.number 3), .grounded (.number 4)]] :
        Atom Example.Value)
      (.expr [.grounded .Add,
        .expr [.grounded .Add, .grounded (.number 1), .grounded (.number 2)],
        .grounded (.number 7)] : Atom Example.Value)
      _ [⟨[], none, 0⟩, ⟨[1], some [], 1⟩, ⟨[2], some [], 2⟩] _ ⟨[2], some [], 2⟩ [] []
      ⟨[]⟩
      ⟨.ok (),
        ⟨[.expr [.simplifier
          (.expr [.grounded .Add,
            .expr [.grounded .Add, .grounded (.number 1), .grounded (.number 2)],
            .grounded (.number 7)])
          [⟨[], none, 0⟩, ⟨[1], some [], 1⟩]]]⟩,
        [⟨.grounded .Add, [.grounded .Add, .grounded (.number 3), .grounded (.number 4)]⟩]⟩
      hbuilt rfl rfl
      (by
        rw [ExpressionSimplifier.execute_eq]
        simp only [List.getLast?, List.getLast, Atom.node_at, List.getElem?_cons_succ,
          List.getElem?_cons_zero]
        rw [handle_plain_expression_executes Example.arith (.grounded .Add)
          [.grounded (.number 3), .grounded (.number 4)] ⟨[]⟩ rfl (by decide), Atom.execute]
        rfl)
      rfl rfl
  ⟨hplaced,
    (simplifier_placed_invariant Example.arith _ _ hplaced).1,
    (simplifier_placed_invariant Example.arith _ _ hplaced).2.2.1⟩

/-! ## The expression of the simplifier when its last entry is reached (C16) -/

theorem interpret_steps_error_add (h : Host G) (n m : Nat) (self : GroundingSpace G)
    (kb : SpaceAPI G) (e : Error)
    (hs : GroundingSpace.interpret_steps h n self kb = .error e) :
    GroundingSpace.interpret_steps h (n + m) self kb = .error e := by
  induction n generalizing self with
  | zero => simp [GroundingSpace.interpret_steps] at hs
  | succ n ih =>
    rw [show n + 1 + m = (n + m) + 1 by omega]
    simp only [GroundingSpace.interpret_steps] at hs ⊢
    rcases hr : self.interpret_step h kb with ⟨value, space, calls⟩
    rw [hr] at hs
    cases value with
    | error e' => simpa using hs
    | ok u => exact ih space hs

theorem Atom.reduced_of_not_expr (h : Host G) (a : Atom G)
    (ha : a.get_type ≠ AtomType.EXPR) : a.reduced h = some a := by
  cases a with
  | expr cs => exact absurd rfl ha
  | _ => rfl

/-- The step on a simplifier whose top entry has a parent, when the reduction of the entry
is the atom `reduced`. -/
theorem interpret_step_sub_reduced (h : Host G) (rest : List (Atom G)) (full : Atom G)
    (base : List SubExpression) (q : List Nat) (i : Nat) (children : List (Atom G))
    (reduced : Atom G) (kb : SpaceAPI G) (hkb : kb.get_type = GroundingSpace.TYPE)
    (hnode : full.node_at (q ++ [i]) = some (.expr children))
    (hreduced : ExpressionSimplifier.reduction h children = some reduced) :
    ∃ calls, GroundingSpace.interpret_step h
        ⟨rest ++ [.expr [.simplifier full (base ++ [⟨q ++ [i], some q, i⟩])]]⟩ kb
      = ⟨.ok (), ⟨rest ++ [.expr [.simplifier (full.replace_at (q ++ [i]) reduced) base]]⟩,
          calls⟩ := by
  rw [interpret_step_simplifier h rest full _ kb hkb, ExpressionSimplifier.execute_eq]
  simp only [List.getLast?_concat, hnode]
  simp only [ExpressionSimplifier.reduction] at hreduced
  generalize handle_plain_expression h children ⟨[]⟩ = r at hreduced ⊢
  rcases r with ⟨value, tmp, calls⟩
  rcases value with e | (_ | executed)
  · simp at hreduced
  · simp at hreduced
  · simp only at hreduced ⊢
    generalize (if executed = true then tmp else tmp.add_atom (Atom.expr children)).content
      = l at hreduced ⊢
    match l, hreduced with
    | [atom], hreduced =>
      simp only [Option.some.injEq] at hreduced
      subst hreduced
      simp only [Atom.set_child_eq full q i atom _ hnode, GroundingSpace.add_atom,
        ExpressionSimplifier.pop_sub, List.dropLast_concat]
      exact ⟨_, rfl⟩

/-- The step on a simplifier whose top entry has a parent, when the entry has no reduction:
the step fails. -/
theorem interpret_step_sub_fails (h : Host G) (rest : List (Atom G)) (full : Atom G)
    (base : List SubExpression) (q : List Nat) (i : Nat) (children : List (Atom G))
    (kb : SpaceAPI G) (hkb : kb.get_type = GroundingSpace.TYPE)
    (hnode : full.node_at (q ++ [i]) = some (.expr children))
    (hreduced : ExpressionSimplifier.reduction h children = none) :
    ∃ e space calls, GroundingSpace.interpret_step h
        ⟨rest ++ [.expr [.simplifier full (base ++ [⟨q ++ [i], some q, i⟩])]]⟩ kb
      = ⟨.error e, space, calls⟩ := by
  rw [interpret_step_simplifier h rest full _ kb hkb, ExpressionSimplifier.execute_eq]
  simp only [List.getLast?_concat, hnode]
  simp only [ExpressionSimplifier.reduction] at hreduced
  generalize handle_plain_expression h children ⟨[]⟩ = r at hreduced ⊢
  rcases r with ⟨value, tmp, calls⟩
  rcases value with e | (_ | executed)
  · exact ⟨_, _, _, rfl⟩
  · exact ⟨_, _, _, rfl⟩
  · simp only at hreduced ⊢
    generalize (if executed = true then tmp else tmp.add_atom (Atom.expr children)).content
      = l at hreduced ⊢
    match l, hreduced with
    | [], _ => exact ⟨_, _, _, rfl⟩
    | _ :: _ :: _, _ => exact ⟨_, _, _, rfl⟩

theorem interpret_steps_one_error (h : Host G) (self space : GroundingSpace G)
    (kb : SpaceAPI G) (e : Error) (calls : List (Call G))
    (hs : self.interpret_step h kb = ⟨.error e, space, calls⟩) :
    GroundingSpace.interpret_steps h 1 self kb = .error e := by
  simp only [GroundingSpace.interpret_steps, hs]

mutual
/-- The entries of an expression `c` of `full` are executed in `expression_count` steps,
which put the reduced `c` in its place; the steps fail when `c` has no reduced atom. -/
theorem run_reduced_expression (h : Host G) (kb : SpaceAPI G)
    (hkb : kb.get_type = GroundingSpace.TYPE) (c : Atom G) (full : Atom G) (q : List Nat)
    (i : Nat) (base : List SubExpression) (rest : List (Atom G))
    (hc : c.get_type = AtomType.EXPR) (hnode : full.node_at (q ++ [i]) = some c) :
    (∀ r, c.reduced h = some r →
      GroundingSpace.interpret_steps h c.expression_count
          ⟨rest ++ [.expr [.simplifier full
            (base ++ ExpressionSimplifier.parse c (q ++ [i]) (some q) i [])]]⟩ kb
        = .ok ⟨rest ++ [.expr [.simplifier (full.replace_at (q ++ [i]) r) base]]⟩) ∧
    (c.reduced h = none → ∃ e,
      GroundingSpace.interpret_steps h c.expression_count
          ⟨rest ++ [.expr [.simplifier full
            (base ++ ExpressionSimplifier.parse c (q ++ [i]) (some q) i [])]]⟩ kb
        = .error e) := by
  match c with
  | .symbol _ => simp [Atom.get_type] at hc
  | .grounded _ => simp [Atom.get_type] at hc
  | .variable _ => simp [Atom.get_type] at hc
  | .simplifier _ _ => simp [Atom.get_type] at hc
  | .expr cs =>
    obtain ⟨hok, hfail⟩ := run_reduced_children h kb hkb cs full (q ++ [i]) []
      (base ++ [⟨q ++ [i], some q, i⟩]) rest (by simpa using hnode)
    simp only [List.length_nil, List.nil_append] at hok hfail
    simp only [Atom.expression_count, Atom.reduced]
    rw [Nat.add_comm, ExpressionSimplifier.parse_expr, ← List.append_assoc]
    cases hvs : Atom.reduced_children h cs with
    | none =>
      refine ⟨by simp, fun _ => ?_⟩
      obtain ⟨e, he⟩ := hfail hvs
      exact ⟨e, interpret_steps_error_add h _ 1 _ kb e he⟩
    | some vs =>
      have hrun := hok vs hvs
      have hnode1 : (full.replace_at (q ++ [i]) (.expr vs)).node_at (q ++ [i])
          = some (.expr vs) := Atom.node_at_replace_at _ _ _ _ hnode
      rw [interpret_steps_add h _ 1 _ _ kb hrun]
      constructor
      · intro r hr
        obtain ⟨calls, hstep⟩ := interpret_step_sub_reduced h rest _ base q i vs r kb hkb
          hnode1 hr
        rw [interpret_steps_succ h 0 _ _ kb calls hstep]
        simp only [GroundingSpace.interpret_steps, Atom.replace_at_replace_at]
      · intro hr
        obtain ⟨e, space, calls, hstep⟩ := interpret_step_sub_fails h rest _ base q i vs kb
          hkb hnode1 hr
        exact ⟨e, interpret_steps_one_error h _ space kb e calls hstep⟩
/-- The entries of the children `cs` of a node of `full` are executed in
`expression_count_of cs` steps, which put the reduced children in their places; the steps
fail when a child has no reduced atom. -/
theorem run_reduced_children (h : Host G) (kb : SpaceAPI G)
    (hkb : kb.get_type = GroundingSpace.TYPE) (cs : List (Atom G)) (full : Atom G)
    (p : List Nat) (pre : List (Atom G)) (base : List SubExpression) (rest : List (Atom G))
    (hnode : full.node_at p = some (.expr (pre ++ cs))) :
    (∀ vs, Atom.reduced_children h cs = some vs →
      GroundingSpace.interpret_steps h (Atom.expression_count_of cs)
          ⟨rest ++ [.expr [.simplifier full
            (base ++ ExpressionSimplifier.parse_loop cs p pre.length [])]]⟩ kb
        = .ok ⟨rest ++ [.expr [.simplifier (full.replace_at p (.expr (pre ++ vs))) base]]⟩) ∧
    (Atom.reduced_children h cs = none → ∃ e,
      GroundingSpace.interpret_steps h (Atom.expression_count_of cs)
          ⟨rest ++ [.expr [.simplifier full
            (base ++ ExpressionSimplifier.parse_loop cs p pre.length [])]]⟩ kb
        = .error e) := by
  match cs with
  | [] =>
    refine ⟨?_, by simp [Atom.reduced_children]⟩
    intro vs hvs
    simp only [Atom.reduced_children, Option.some.injEq] at hvs
    subst hvs
    simp only [Atom.expression_count_of, ExpressionSimplifier.parse_loop, List.append_nil,
      GroundingSpace.interpret_steps]
    rw [Atom.replace_at_self full p _ (by simpa using hnode)]
  | c :: cs' =>
    obtain ⟨hok', hfail'⟩ := run_reduced_children h kb hkb cs' full p (pre ++ [c])
      (base ++ (if c.get_type = AtomType.EXPR then
          ExpressionSimplifier.parse c (p ++ [pre.length]) (some p) pre.length []
        else [])) rest (by simpa using hnode)
    simp only [Atom.expression_count_of, Atom.reduced_children]
    rw [Nat.add_comm, ExpressionSimplifier.parse_loop_cons, ← List.append_assoc]
    simp only [List.length_append, List.length_singleton] at hok' hfail'
    cases hvs' : Atom.reduced_children h cs' with
    | none =>
      refine ⟨fun vs hvs => ?_, fun _ => ?_⟩
      · cases hr : c.reduced h <;> simp [hr] at hvs
      · obtain ⟨e, he⟩ := hfail' hvs'
        exact ⟨e, interpret_steps_error_add h _ _ _ kb e he⟩
    | some vs' =>
      have hrun1 := hok' vs' hvs'
      rw [interpret_steps_add h _ _ _ _ kb hrun1]
      by_cases hc : c.get_type = AtomType.EXPR
      · have hnode1 : (full.replace_at p (.expr (pre ++ c :: vs'))).node_at (p ++ [pre.length])
            = some c := by
          have := Atom.node_at_replace_at_child full p pre.length (pre ++ c :: vs') _ hnode
          rw [this, list_getElem?_middle]
        obtain ⟨hok, hfail⟩ := run_reduced_expression h kb hkb c
          (full.replace_at p (.expr (pre ++ c :: vs'))) p pre.length base rest hc hnode1
        simp only [hc, if_true]
        have hcast : pre ++ [c] ++ vs' = pre ++ c :: vs' := by simp
        rw [hcast]
        constructor
        · intro vs hvs
          cases hr : c.reduced h with
          | none => simp [hr] at hvs
          | some r =>
            simp only [hr, Option.some.injEq] at hvs
            subst hvs
            rw [hok r hr, Atom.replace_at_child _ _ _ _ _ _ hnode (by simp), list_set_middle]
        · intro hnone
          cases hr : c.reduced h with
          | none => exact hfail hr
          | some r => simp [hr] at hnone
      · simp only [hc, if_false, List.append_nil, Atom.expression_count_of_not_expr c hc,
          Atom.reduced_of_not_expr h c hc, GroundingSpace.interpret_steps]
        have hcast : pre ++ [c] ++ vs' = pre ++ c :: vs' := by simp
        rw [hcast]
        constructor
        · intro vs hvs
          simp only [Option.some.injEq] at hvs
          subst hvs
          rfl
        · intro hnone
          simp at hnone
end

theorem Atom.reduced_children_plain (h : Host G) (cs vs : List (Atom G))
    (hvs : Atom.reduced_children h cs = some vs) :
    is_plain vs = true ↔
      ∀ child ∈ cs, ∀ r, child.reduced h = some r → r.get_type ≠ AtomType.EXPR := by
  induction cs generalizing vs with
  | nil =>
    simp only [Atom.reduced_children, Option.some.injEq] at hvs
    subst hvs
    simp [is_plain]
  | cons c cs ih =>
    simp only [Atom.reduced_children] at hvs
    cases hr : c.reduced h with
    | none => simp [hr] at hvs
    | some r =>
      cases hrs : Atom.reduced_children h cs with
      | none => simp [hr, hrs] at hvs
      | some rs =>
        simp only [hr, hrs, Option.some.injEq] at hvs
        subst hvs
        have ih' := ih rs hrs
        simp only [is_plain, List.all_cons, Bool.and_eq_true, decide_eq_true_eq] at ih' ⊢
        rw [ih']
        constructor
        · rintro ⟨h1, h2⟩ child hchild r' hr'
          rcases List.mem_cons.1 hchild with e | e
          · rw [e, hr] at hr'
            cases hr'
            exact h1
          · exact h2 child e r' hr'
        · intro hall
          exact ⟨hall c (List.mem_cons_self _ _) r hr,
            fun child hchild => hall child (List.mem_cons_of_mem _ hchild)⟩

theorem ExpressionSimplifier.reduction_declined (h : Host G) (op : Atom G)
    (args : List (Atom G)) (hop : op.get_type ≠ AtomType.GROUNDED) :
    ExpressionSimplifier.reduction h (op :: args) = some (.expr (op :: args)) := by
  simp only [ExpressionSimplifier.reduction]
  rw [handle_plain_expression]
  simp [hop, GroundingSpace.add_atom]

/-- C16 as stated fails: two steps take `<(foo (bar 1))>`, `foo` and `bar` symbols, to the
simplifier whose only entry is the one of `full`, and `full` is still `(foo (bar 1))`, with
an expression child: the sub-expression `(bar 1)` is not interpretable and was put back as
it was. -/
theorem simplifier_full_not_plain :
    GroundingSpace.interpret_steps Example.arith 2
        ⟨[.expr [.symbol "foo", .expr [.symbol "bar", .grounded (.number 1)]]]⟩
        (.grounding ⟨[]⟩)
      = .ok ⟨[.expr [.simplifier
          (.expr [.symbol "foo", .expr [.symbol "bar", .grounded (.number 1)]])
          [⟨[], none, 0⟩]]]⟩ ∧
    is_plain [Atom.symbol "foo", .expr [.symbol "bar", .grounded (Example.Value.number 1)]]
      = false := by
  refine ⟨?_, by decide⟩
  simp [GroundingSpace.interpret_steps, GroundingSpace.interpret_step, SpaceAPI.get_type,
    is_plain, Atom.get_type, ExpressionSimplifier.new, ExpressionSimplifier.parse,
    ExpressionSimplifier.parse_loop, handle_plain_expression, Atom.execute,
    ExpressionSimplifier.execute_eq, Atom.node_at, Atom.set_child,
    GroundingSpace.add_atom, ExpressionSimplifier.pop_sub]

/-- C16, amended: let the compound expression `A` with `k` expression nodes be driven through
`interpret_step` from the space `rest ++ [A]`.  Whenever within the first `k` steps the top
of the space is a simplifier whose top entry has no parent, every child of `A` has a reduced
atom and `full` is `A` with every child replaced by its reduced atom (a child that is no
expression is its own reduced atom); so `full` is plain exactly when the reduced atom of no
child is an expression.  When every child of `A` has a reduced atom, this state is reached,
after `k` steps.  The reduced atom of an expression whose child 0, once the children are
reduced, is not grounded is the expression with its reduced children: with such a child
`full` is not plain. -/
theorem simplifier_full_plain_iff (h : Host G) (rest children : List (Atom G))
    (kb : SpaceAPI G) (hkb : kb.get_type = GroundingSpace.TYPE)
    (hcompound : is_plain children = false) :
    (∀ (j : Nat) (full : Atom G) (subs : List SubExpression) (sub : SubExpression),
      j ≤ (Atom.expr children).expression_count →
      GroundingSpace.interpret_steps h j ⟨rest ++ [.expr children]⟩ kb
        = .ok ⟨rest ++ [.expr [.simplifier full subs]]⟩ →
      subs.getLast? = some sub → sub.parent = none →
      ∃ vs, Atom.reduced_children h children = some vs ∧ full = .expr vs ∧
        (is_plain vs = true ↔
          ∀ child ∈ children, ∀ r, child.reduced h = some r → r.get_type ≠ AtomType.EXPR)) ∧
    (∀ vs, Atom.reduced_children h children = some vs →
      GroundingSpace.interpret_steps h (Atom.expr children).expression_count
          ⟨rest ++ [.expr children]⟩ kb
        = .ok ⟨rest ++ [.expr [.simplifier (.expr vs) [⟨[], none, 0⟩]]]⟩) ∧
    (∀ (cs : List (Atom G)) (op : Atom G) (args : List (Atom G)),
      Atom.reduced_children h cs = some (op :: args) → op.get_type ≠ AtomType.GROUNDED →
      (Atom.expr cs).reduced h = some (.expr (op :: args))) := by
  have hfirst : GroundingSpace.interpret_step h ⟨rest ++ [.expr children]⟩ kb
      = ⟨.ok (), ⟨rest ++ [.expr [.simplifier (.expr children)
          ([⟨[], none, 0⟩] ++ ExpressionSimplifier.parse_loop children [] 0 [])]]⟩, []⟩ := by
    simp only [GroundingSpace.interpret_step, hkb, ne_eq, not_true_eq_false, if_false,
      List.getLast?_concat, List.dropLast_concat, hcompound, Bool.false_eq_true,
      ExpressionSimplifier.new, ExpressionSimplifier.parse_expr]
  obtain ⟨hok, hfail⟩ := run_reduced_children h kb hkb children (.expr children) [] []
    [⟨[], none, 0⟩] rest rfl
  simp only [List.length_nil, List.nil_append, Atom.replace_at] at hok hfail
  refine ⟨?_, ?_, ?_⟩
  · intro j full subs sub hj hstate hlast hnone
    simp only [Atom.expression_count] at hj
    cases j with
    | zero =>
      simp only [GroundingSpace.interpret_steps, Except.ok.injEq, GroundingSpace.mk.injEq,
        List.append_cancel_left_eq, List.cons.injEq, and_true, Atom.expr.injEq] at hstate
      rw [hstate] at hcompound
      simp [is_plain, Atom.get_type] at hcompound
    | succ j =>
      rw [interpret_steps_succ h _ _ _ kb [] hfirst] at hstate
      have hlen := ExpressionSimplifier.parse_loop_length children [] 0
      obtain ⟨full', hshape⟩ := interpret_steps_pop h rest kb hkb [⟨[], none, 0⟩] j
        (ExpressionSimplifier.parse_loop children [] 0 []) _ _
        (ExpressionSimplifier.parse_loop_parents children [] 0) (by omega) hstate
      simp only [GroundingSpace.mk.injEq, List.append_cancel_left_eq, List.cons.injEq,
        and_true, Atom.expr.injEq, Atom.simplifier.injEq] at hshape
      obtain ⟨hfull, hsubs⟩ := hshape
      have hjn : j = Atom.expression_count_of children := by
        by_contra hjn
        have hne : (ExpressionSimplifier.parse_loop children [] 0 []).take
            ((ExpressionSimplifier.parse_loop children [] 0 []).length - j) ≠ [] := by
          rw [Ne, List.take_eq_nil_iff]
          rintro (e | e)
          · omega
          · rw [e] at hlen
            simp at hlen
            omega
        rw [hsubs, List.getLast?_append_of_ne_nil _ hne] at hlast
        exact ExpressionSimplifier.parse_loop_parents children [] 0 sub
          (List.mem_of_mem_take (List.mem_of_getLast?_eq_some hlast)) hnone
      rw [hjn] at hstate
      cases hvs : Atom.reduced_children h children with
      | none =>
        obtain ⟨e, he⟩ := hfail hvs
        rw [he] at hstate
        simp at hstate
      | some vs =>
        rw [hok vs hvs] at hstate
        simp only [Except.ok.injEq, GroundingSpace.mk.injEq, List.append_cancel_left_eq,
          List.cons.injEq, and_true, Atom.expr.injEq, Atom.simplifier.injEq] at hstate
        exact ⟨vs, rfl, hstate.1.symm, Atom.reduced_children_plain h children vs hvs⟩
  · intro vs hvs
    simp only [Atom.expression_count]
    rw [Nat.add_comm, interpret_steps_succ h _ _ _ kb [] hfirst]
    exact hok vs hvs
  · intro cs op args hcs hop
    simp only [Atom.reduced, hcs]
    exact ExpressionSimplifier.reduction_declined h op args hop

/-- Witness of C16: two steps take `<(foo (Add 1 2))>`, `foo` a symbol, to a simplifier whose
only entry is the one of `full` and whose `full` is `(foo 3)`, which is plain. -/
theorem simplifier_full_plain_iff_witness :
    is_plain [Atom.symbol "foo",
        .expr [.grounded Example.Value.Add, .grounded (.number 1), .grounded (.number 2)]]
      = false ∧
    GroundingSpace.interpret_steps Example.arith 2
        ⟨[.expr [.symbol "foo",
          .expr [.grounded .Add, .grounded (.number 1), .grounded (.number 2)]]]⟩
        (.grounding ⟨[]⟩)
      = .ok ⟨[.expr [.simplifier (.expr [.symbol "foo", .grounded (.number 3)])
          [⟨[], none, 0⟩]]]⟩ ∧
    is_plain [Atom.symbol "foo", .grounded (Example.Value.number 3)] = true := by
  have hred : Atom.reduced_children Example.arith
      [Atom.symbol "foo",
        .expr [.grounded .Add, .grounded (.number 1), .grounded (.number 2)]]
      = some [.symbol "foo", .grounded (.number 3)] := by
    simp only [Atom.reduced_children, Atom.reduced, ExpressionSimplifier.reduction]
    rw [handle_plain_expression_executes Example.arith (.grounded .Add)
      [.grounded (.number 1), .grounded (.number 2)] ⟨[]⟩ rfl (by decide), Atom.execute]
    rfl
  exact ⟨by decide,
    (simplifier_full_plain_iff Example.arith []
      [.symbol "foo", .expr [.grounded .Add, .grounded (.number 1), .grounded (.number 2)]]
      (.grounding ⟨[]⟩) rfl (by decide)).2.1 _ hred,
    by decide⟩

/-! ## Objects: auxiliary facts -/

theorem Objects.holds_get_type (σ : Objects.Store G) (p : Objects.AtomPtr G) (c : Atom G)
    (hp : Objects.Store.holds σ p c) : p.get_type = c.get_type := by
  cases p <;> cases c <;> simp [Objects.Store.holds] at hp <;> rfl

theorem Objects.holds_all_is_plain (σ : Objects.Store G) (ps : List (Objects.AtomPtr G)) (cs : List (Atom G))
    (hp : Objects.Store.holds_all σ ps cs) : Objects.is_plain ps = Hyperon.is_plain cs := by
  induction ps generalizing cs with
  | nil =>
    cases cs with
    | nil => rfl
    | cons c cs => simp [Objects.Store.holds_all] at hp
  | cons p ps ih =>
    cases cs with
    | nil => simp [Objects.Store.holds_all] at hp
    | cons c cs =>
      simp only [Objects.Store.holds_all] at hp
      have h1 := Objects.holds_get_type σ p c hp.1
      have h2 := ih cs hp.2
      simp only [Objects.is_plain, Hyperon.is_plain, List.all_cons] at h2 ⊢
      rw [h1, h2]

theorem Objects.holds_all_length (σ : Objects.Store G) (ps : List (Objects.AtomPtr G)) (cs : List (Atom G))
    (hp : Objects.Store.holds_all σ ps cs) : ps.length = cs.length := by
  induction ps generalizing cs with
  | nil =>
    cases cs with
    | nil => rfl
    | cons c cs => simp [Objects.Store.holds_all] at hp
  | cons p ps ih =>
    cases cs with
    | nil => simp [Objects.Store.holds_all] at hp
    | cons c cs =>
      simp only [Objects.Store.holds_all] at hp
      simp [ih cs hp.2]

mutual
theorem Objects.holds_unique (σ : Objects.Store G) (p : Objects.AtomPtr G) (c c' : Atom G)
    (hc : Objects.Store.holds σ p c) (hc' : Objects.Store.holds σ p c') : c = c' := by
  match c, p, c' with
  | .symbol _, .symbol _, .symbol _ =>
    simp only [Objects.Store.holds] at hc hc'
    rw [← hc, ← hc']
  | .grounded _, .grounded _, .grounded _ =>
    simp only [Objects.Store.holds] at hc hc'
    rw [← hc, ← hc']
  | .variable _, .variable _, .variable _ =>
    simp only [Objects.Store.holds] at hc hc'
    rw [← hc, ← hc']
  | .expr cs, .expr a, .expr cs' =>
    simp only [Objects.Store.holds] at hc hc'
    cases hs : σ[a]? with
    | none => simp [hs] at hc
    | some ps =>
      simp only [hs] at hc hc'
      rw [Objects.holds_all_unique σ ps cs cs' hc hc']
  | .symbol _, .symbol _, .grounded _ => simp [Objects.Store.holds] at hc'
  | .symbol _, .symbol _, .variable _ => simp [Objects.Store.holds] at hc'
  | .symbol _, .symbol _, .expr _ => simp [Objects.Store.holds] at hc'
  | .symbol _, .symbol _, .simplifier _ _ => simp [Objects.Store.holds] at hc'
  | .symbol _, .grounded _, _ => simp [Objects.Store.holds] at hc
  | .symbol _, .variable _, _ => simp [Objects.Store.holds] at hc
  | .symbol _, .expr _, _ => simp [Objects.Store.holds] at hc
  | .symbol _, .simplifier _ _, _ => simp [Objects.Store.holds] at hc
  | .grounded _, .grounded _, .symbol _ => simp [Objects.Store.holds] at hc'
  | .grounded _, .grounded _, .variable _ => simp [Objects.Store.holds] at hc'
  | .grounded _, .grounded _, .expr _ => simp [Objects.Store.holds] at hc'
  | .grounded _, .grounded _, .simplifier _ _ => simp [Objects.Store.holds] at hc'
  | .grounded _, .symbol _, _ => simp [Objects.Store.holds] at hc
  | .grounded _, .variable _, _ => simp [Objects.Store.holds] at hc
  | .grounded _, .expr _, _ => simp [Objects.Store.holds] at hc
  | .grounded _, .simplifier _ _, _ => simp [Objects.Store.holds] at hc
  | .variable _, .variable _, .symbol _ => simp [Objects.Store.holds] at hc'
  | .variable _, .variable _, .grounded _ => simp [Objects.Store.holds] at hc'
  | .variable _, .variable _, .expr _ => simp [Objects.Store.holds] at hc'
  | .variable _, .variable _, .simplifier _ _ => simp [Objects.Store.holds] at hc'
  | .variable _, .symbol _, _ => simp [Objects.Store.holds] at hc
  | .variable _, .grounded _, _ => simp [Objects.Store.holds] at hc
  | .variable _, .expr _, _ => simp [Objects.Store.holds] at hc
  | .variable _, .simplifier _ _, _ => simp [Objects.Store.holds] at hc
  | .expr _, .expr _, .symbol _ => simp [Objects.Store.holds] at hc'
  | .expr _, .expr _, .grounded _ => simp [Objects.Store.holds] at hc'
  | .expr _, .expr _, .variable _ => simp [Objects.Store.holds] at hc'
  | .expr _, .expr _, .simplifier _ _ => simp [Objects.Store.holds] at hc'
  | .expr _, .symbol _, _ => simp [Objects.Store.holds] at hc
  | .expr _, .grounded _, _ => simp [Objects.Store.holds] at hc
  | .expr _, .variable _, _ => simp [Objects.Store.holds] at hc
  | .expr _, .simplifier _ _, _ => simp [Objects.Store.holds] at hc
  | .simplifier _ _, p, _ => cases p <;> simp [Objects.Store.holds] at hc
theorem Objects.holds_all_unique (σ : Objects.Store G) (ps : List (Objects.AtomPtr G))
    (cs cs' : List (Atom G)) (hc : Objects.Store.holds_all σ ps cs)
    (hc' : Objects.Store.holds_all σ ps cs') : cs = cs' := by
  match cs, ps, cs' with
  | [], [], [] => rfl
  | [], [], _ :: _ => simp [Objects.Store.holds_all] at hc'
  | [], _ :: _, _ => simp [Objects.Store.holds_all] at hc
  | _ :: _, [], _ => simp [Objects.Store.holds_all] at hc
  | _ :: _, _ :: _, [] => simp [Objects.Store.holds_all] at hc'
  | c :: cs, p :: ps, c' :: cs' =>
    simp only [Objects.Store.holds_all] at hc hc'
    rw [Objects.holds_unique σ p c c' hc.1 hc'.1, Objects.holds_all_unique σ ps cs cs' hc.2 hc'.2]
end

theorem Objects.holds_of_value (σ : Objects.Store G) (q : Objects.AtomPtr G) (v : Atom G)
    (hv : v.is_value = true) (hq : Objects.Store.holds σ q v) :
    q.get_type ≠ AtomType.EXPR ∧ q.get_type ≠ AtomType.VARIABLE ∧
    (∀ σ' : Objects.Store G, Objects.Store.holds σ' q v) ∧
    ∀ (σ' : Objects.Store G) (fuel : Nat), Objects.Store.read σ' fuel q = some v := by
  cases v <;> cases q <;> simp [Atom.is_value, Objects.Store.holds] at hv hq
  · subst hq
    refine ⟨by simp [Objects.AtomPtr.get_type], by simp [Objects.AtomPtr.get_type],
      fun σ' => by simp [Objects.Store.holds], fun σ' fuel => ?_⟩
    cases fuel <;> rfl
  · subst hq
    refine ⟨by simp [Objects.AtomPtr.get_type], by simp [Objects.AtomPtr.get_type],
      fun σ' => by simp [Objects.Store.holds], fun σ' fuel => ?_⟩
    cases fuel <;> rfl

theorem Objects.alloc_value (v : Atom G) (hv : v.is_value = true) :
    ∃ q : Objects.AtomPtr G, (∀ σ : Objects.Store G, Objects.Store.alloc σ v = (σ, q)) ∧
      ∀ σ : Objects.Store G, Objects.Store.holds σ q v := by
  match v, hv with
  | .symbol s, _ => exact ⟨.symbol s, fun σ => rfl, fun σ => by simp [Objects.Store.holds]⟩
  | .grounded g, _ => exact ⟨.grounded g, fun σ => rfl, fun σ => by simp [Objects.Store.holds]⟩

theorem Objects.read_children_values (σ : Objects.Store G) (fuel : Nat)
    (ps : List (Objects.AtomPtr G)) (vs : List (Atom G))
    (hp : Objects.Store.holds_all σ ps vs) (hv : ∀ v ∈ vs, v.is_value = true) :
    Objects.read_children (Objects.Store.read σ fuel) ps = some vs := by
  induction ps generalizing vs with
  | nil =>
    cases vs with
    | nil => rfl
    | cons c cs => simp [Objects.Store.holds_all] at hp
  | cons p ps ih =>
    cases vs with
    | nil => simp [Objects.Store.holds_all] at hp
    | cons v vs =>
      simp only [Objects.Store.holds_all] at hp
      have h1 := (Objects.holds_of_value σ p v (hv v (List.mem_cons_self _ _)) hp.1).2.2.2 σ fuel
      have h2 := ih vs hp.2 (fun x hx => hv x (List.mem_cons_of_mem _ hx))
      simp only [Objects.read_children, h1, h2]

mutual
theorem Objects.parse_entries (σ : Objects.Store G) (c : Atom G) (e : Nat)
    (hc : Objects.Store.holds σ (.expr e) c) :
    ∀ (fuel : Nat), c.expression_count ≤ fuel →
      ∀ (parent : Option Nat) (index : Nat) (subs : List Objects.SubExpression),
        Objects.ExpressionSimplifier.parse σ fuel e parent index subs
          = some (subs ++ Objects.entries σ (.expr e) c parent index) := by
  match c with
  | .symbol _ => simp [Objects.Store.holds] at hc
  | .grounded _ => simp [Objects.Store.holds] at hc
  | .variable _ => simp [Objects.Store.holds] at hc
  | .simplifier _ _ => simp [Objects.Store.holds] at hc
  | .expr cs =>
    intro fuel hfuel parent index subs
    simp only [Objects.Store.holds] at hc
    cases hs : σ[e]? with
    | none => simp [hs] at hc
    | some ps =>
      simp only [hs] at hc
      simp only [Atom.expression_count] at hfuel
      cases fuel with
      | zero => omega
      | succ fuel =>
        simp only [Objects.ExpressionSimplifier.parse, hs, Objects.entries]
        rw [Objects.parse_loop_entries σ cs ps e hc fuel (by omega) 0]
        simp
theorem Objects.parse_loop_entries (σ : Objects.Store G) (cs : List (Atom G))
    (ps : List (Objects.AtomPtr G)) (e : Nat) (hc : Objects.Store.holds_all σ ps cs) :
    ∀ (fuel : Nat), Atom.expression_count_of cs ≤ fuel →
      ∀ (i : Nat) (subs : List Objects.SubExpression),
        Objects.ExpressionSimplifier.parse_loop (Objects.ExpressionSimplifier.parse σ fuel) e
            ps i subs
          = some (subs ++ Objects.entries_all σ e ps cs i) := by
  match cs, ps with
  | [], [] =>
    intro fuel _ i subs
    simp [Objects.ExpressionSimplifier.parse_loop, Objects.entries_all]
  | [], _ :: _ => simp [Objects.Store.holds_all] at hc
  | _ :: _, [] => simp [Objects.Store.holds_all] at hc
  | c :: cs, p :: ps =>
    intro fuel hfuel i subs
    simp only [Objects.Store.holds_all] at hc
    simp only [Atom.expression_count_of] at hfuel
    have hrest := Objects.parse_loop_entries σ cs ps e hc.2 fuel (by omega)
    match p, c, hc.1 with
    | .expr a, .expr ccs, h1 =>
      have hone := Objects.parse_entries σ (.expr ccs) a h1 fuel (by omega) (some e) i subs
      simp only [Objects.ExpressionSimplifier.parse_loop, hone, hrest, Objects.entries_all,
        List.append_assoc]
    | .symbol _, .symbol _, _ =>
      simp only [Objects.ExpressionSimplifier.parse_loop, hrest, Objects.entries_all,
        Objects.entries, List.nil_append]
    | .grounded _, .grounded _, _ =>
      simp only [Objects.ExpressionSimplifier.parse_loop, hrest, Objects.entries_all,
        Objects.entries, List.nil_append]
    | .variable _, .variable _, _ =>
      simp only [Objects.ExpressionSimplifier.parse_loop, hrest, Objects.entries_all,
        Objects.entries, List.nil_append]
    | .symbol _, .grounded _, h1 => simp [Objects.Store.holds] at h1
    | .symbol _, .variable _, h1 => simp [Objects.Store.holds] at h1
    | .symbol _, .expr _, h1 => simp [Objects.Store.holds] at h1
    | .symbol _, .simplifier _ _, h1 => simp [Objects.Store.holds] at h1
    | .grounded _, .symbol _, h1 => simp [Objects.Store.holds] at h1
    | .grounded _, .variable _, h1 => simp [Objects.Store.holds] at h1
    | .grounded _, .expr _, h1 => simp [Objects.Store.holds] at h1
    | .grounded _, .simplifier _ _, h1 => simp [Objects.Store.holds] at h1
    | .variable _, .symbol _, h1 => simp [Objects.Store.holds] at h1
    | .variable _, .grounded _, h1 => simp [Objects.Store.holds] at h1
    | .variable _, .expr _, h1 => simp [Objects.Store.holds] at h1
    | .variable _, .simplifier _ _, h1 => simp [Objects.Store.holds] at h1
    | .expr _, .symbol _, h1 => simp [Objects.Store.holds] at h1
    | .expr _, .grounded _, h1 => simp [Objects.Store.holds] at h1
    | .expr _, .variable _, h1 => simp [Objects.Store.holds] at h1
    | .expr _, .simplifier _ _, h1 => simp [Objects.Store.holds] at h1
    | .simplifier _ _, c', h1 => cases c' <;> simp [Objects.Store.holds] at h1
end

theorem Objects.steps_succ (h : Host G) (fuel n : Nat) (σ σ' : Objects.Store G)
    (self space : List (Objects.AtomPtr G)) (kb : SpaceAPI G) (calls : List (Objects.Call G))
    (hs : Objects.GroundingSpace.interpret_step h fuel σ self kb
      = some ⟨.ok (), σ', space, calls⟩) :
    Objects.GroundingSpace.interpret_steps h fuel (n + 1) σ self kb
      = Objects.GroundingSpace.interpret_steps h fuel n σ' space kb := by
  simp only [Objects.GroundingSpace.interpret_steps, hs]

theorem Objects.steps_add (h : Host G) (fuel n m : Nat) (σ σ' : Objects.Store G)
    (self mid : List (Objects.AtomPtr G)) (kb : SpaceAPI G)
    (hs : Objects.GroundingSpace.interpret_steps h fuel n σ self kb = some (.ok (σ', mid))) :
    Objects.GroundingSpace.interpret_steps h fuel (n + m) σ self kb
      = Objects.GroundingSpace.interpret_steps h fuel m σ' mid kb := by
  induction n generalizing σ self with
  | zero =>
    simp only [Objects.GroundingSpace.interpret_steps, Option.some.injEq, Except.ok.injEq,
      Prod.mk.injEq] at hs
    simp [hs.1, hs.2]
  | succ n ih =>
    rw [show n + 1 + m = (n + m) + 1 by omega]
    simp only [Objects.GroundingSpace.interpret_steps] at hs ⊢
    cases hr : Objects.GroundingSpace.interpret_step h fuel σ self kb with
    | none => simp [hr] at hs
    | some run =>
      rcases run with ⟨value, σ1, space, calls⟩
      rw [hr] at hs
      cases value with
      | error e => simp at hs
      | ok u => exact ih σ1 space hs

theorem Objects.steps_before (h : Host G) (fuel : Nat)
    (P : Option (Except Error (Objects.Store G × List (Objects.AtomPtr G))) → Prop)
    (n m : Nat) (σ σ' : Objects.Store G) (self mid : List (Objects.AtomPtr G))
    (kb : SpaceAPI G)
    (hs : Objects.GroundingSpace.interpret_steps h fuel n σ self kb = some (.ok (σ', mid)))
    (h1 : ∀ j, j < n → P (Objects.GroundingSpace.interpret_steps h fuel j σ self kb))
    (h2 : ∀ j, j < m → P (Objects.GroundingSpace.interpret_steps h fuel j σ' mid kb)) :
    ∀ j, j < n + m → P (Objects.GroundingSpace.interpret_steps h fuel j σ self kb) := by
  intro j hj
  by_cases hjn : j < n
  · exact h1 j hjn
  · have hj' : j = n + (j - n) := by omega
    rw [hj', Objects.steps_add h fuel n (j - n) σ σ' self mid kb hs]
    exact h2 (j - n) (by omega)

theorem Objects.interpret_step_builds (h : Host G) (fuel : Nat) (σ : Objects.Store G)
    (rest : List (Objects.AtomPtr G)) (a : Nat) (pointers : List (Objects.AtomPtr G))
    (subs : List Objects.SubExpression) (kb : SpaceAPI G)
    (hkb : kb.get_type = GroundingSpace.TYPE) (ha : σ[a]? = some pointers)
    (hplain : Objects.is_plain pointers = false)
    (hparse : Objects.ExpressionSimplifier.parse σ fuel a none 0 [] = some subs) :
    Objects.GroundingSpace.interpret_step h fuel σ (rest ++ [.expr a]) kb
      = some ⟨.ok (), σ ++ [[.simplifier a subs]], rest ++ [.expr σ.length], []⟩ := by
  simp only [Objects.GroundingSpace.interpret_step, hkb, ne_eq, not_true_eq_false, if_false,
    List.getLast?_concat, List.dropLast_concat, ha, hplain, Bool.false_eq_true, hparse]

/-- The call of a host operator that returns one value, made by
`handle_plain_expression` on the object `e`. -/
theorem Objects.handle_plain_expression_host (h : Host G) (fuel : Nat) (σ : Objects.Store G)
    (e : Nat) (payload : G) (args : List (Objects.AtomPtr G)) (atoms : List (Atom G))
    (value : Atom G) (q : Objects.AtomPtr G) (result : List (Objects.AtomPtr G))
    (he : σ[e]? = some (.grounded payload :: args))
    (hvar : ∀ child ∈ args, child.get_type ≠ AtomType.VARIABLE)
    (hread : Objects.read_children (Objects.Store.read σ fuel) (.grounded payload :: args)
      = some atoms)
    (hexec : h.execute payload atoms = ⟨[value], none⟩)
    (halloc : Objects.Store.alloc σ value = (σ, q)) :
    Objects.handle_plain_expression (Objects.Atom.execute h (fuel + 1)) σ e result
      = some ⟨.ok (some true), σ, result ++ [q],
          [⟨.grounded payload, .grounded payload :: args⟩]⟩ := by
  have hany : ((Objects.AtomPtr.grounded payload :: args).any
      fun child => decide (child.get_type = AtomType.VARIABLE)) = false := by
    rw [List.any_eq_false]
    intro child hc
    rcases List.mem_cons.1 hc with e | e
    · rw [e]
      simp [Objects.AtomPtr.get_type]
    · simpa using hvar child e
  simp only [Objects.handle_plain_expression, he,
    show (Objects.AtomPtr.grounded payload).get_type = AtomType.GROUNDED from rfl, if_true,
    hany, Bool.false_eq_true, if_false, Objects.Atom.execute, hread, hexec,
    Objects.Store.alloc_all, halloc]

theorem Objects.step_reduce_sub (h : Host G) (fuel : Nat) (σ : Objects.Store G)
    (rest : List (Objects.AtomPtr G)) (w a : Nat) (base : List Objects.SubExpression)
    (e p i : Nat) (payload : G) (args : List (Objects.AtomPtr G)) (atoms : List (Atom G))
    (value : Atom G) (q : Objects.AtomPtr G) (pointers : List (Objects.AtomPtr G))
    (kb : SpaceAPI G) (hkb : kb.get_type = GroundingSpace.TYPE)
    (hw : σ[w]? = some [.simplifier a (base ++ [⟨e, some p, i⟩])])
    (he : σ[e]? = some (.grounded payload :: args))
    (hvar : ∀ child ∈ args, child.get_type ≠ AtomType.VARIABLE)
    (hread : Objects.read_children (Objects.Store.read σ fuel) (.grounded payload :: args)
      = some atoms)
    (hexec : h.execute payload atoms = ⟨[value], none⟩)
    (halloc : Objects.Store.alloc σ value = (σ, q))
    (hp : σ[p]? = some pointers) (hi : i < pointers.length) :
    ∃ calls, Objects.GroundingSpace.interpret_step h (fuel + 2) σ (rest ++ [.expr w]) kb
      = some ⟨.ok (), σ.set p (pointers.set i q) ++ [[.simplifier a base]],
          rest ++ [.expr σ.length], calls⟩ := by
  have hplain := Objects.handle_plain_expression_host h fuel σ e payload args atoms value q []
    he hvar hread hexec halloc
  refine ⟨⟨.simplifier a (base ++ [⟨e, some p, i⟩]),
    [.simplifier a (base ++ [⟨e, some p, i⟩])]⟩ ::
    [⟨.grounded payload, .grounded payload :: args⟩], ?_⟩
  simp only [Objects.GroundingSpace.interpret_step, hkb, ne_eq, not_true_eq_false, if_false,
    List.getLast?_concat, List.dropLast_concat, hw, Objects.is_plain, List.all_cons,
    List.all_nil, Objects.AtomPtr.get_type, Objects.handle_plain_expression,
    List.any_cons, List.any_nil]
  simp only [reduceCtorEq, not_false_eq_true, decide_True, decide_False, Bool.and_self,
    Bool.or_self, if_true, Bool.false_eq_true, if_false]
  rw [Objects.Atom.execute]
  simp only [Objects.ExpressionSimplifier.execute, List.getLast?_concat, hplain,
    List.nil_append, if_true, hp, hi, List.dropLast_concat]

theorem Objects.step_reduce_full (h : Host G) (fuel : Nat) (σ : Objects.Store G)
    (rest : List (Objects.AtomPtr G)) (w a e i : Nat) (payload : G)
    (args : List (Objects.AtomPtr G)) (atoms : List (Atom G)) (value : Atom G)
    (q : Objects.AtomPtr G) (kb : SpaceAPI G) (hkb : kb.get_type = GroundingSpace.TYPE)
    (hw : σ[w]? = some [.simplifier a [⟨e, none, i⟩]])
    (he : σ[e]? = some (.grounded payload :: args))
    (hvar : ∀ child ∈ args, child.get_type ≠ AtomType.VARIABLE)
    (hread : Objects.read_children (Objects.Store.read σ fuel) (.grounded payload :: args)
      = some atoms)
    (hexec : h.execute payload atoms = ⟨[value], none⟩)
    (halloc : Objects.Store.alloc σ value = (σ, q)) :
    ∃ calls, Objects.GroundingSpace.interpret_step h (fuel + 2) σ (rest ++ [.expr w]) kb
      = some ⟨.ok (), σ, rest ++ [q], calls⟩ := by
  have hplain := Objects.handle_plain_expression_host h fuel σ e payload args atoms value q rest
    he hvar hread hexec halloc
  refine ⟨⟨.simplifier a [⟨e, none, i⟩], [.simplifier a [⟨e, none, i⟩]]⟩ ::
    [⟨.grounded payload, .grounded payload :: args⟩], ?_⟩
  simp only [Objects.GroundingSpace.interpret_step, hkb, ne_eq, not_true_eq_false, if_false,
    List.getLast?_concat, List.dropLast_concat, hw, Objects.is_plain, List.all_cons,
    List.all_nil, Objects.AtomPtr.get_type, Objects.handle_plain_expression,
    List.any_cons, List.any_nil]
  simp only [reduceCtorEq, not_false_eq_true, decide_True, decide_False, Bool.and_self,
    Bool.or_self, if_true, Bool.false_eq_true, if_false]
  rw [Objects.Atom.execute]
  simp only [Objects.ExpressionSimplifier.execute, List.getLast?, List.getLast, hplain]

theorem Objects.get_write (σ : Objects.Store G) (p x : Nat) (l : List (Objects.AtomPtr G))
    (new : Objects.Store G) (hx : x < σ.length) :
    (σ.set p l ++ new)[x]? = if p = x then some l else σ[x]? := by
  rw [List.getElem?_append_left (by simpa using hx), List.getElem?_set]
  by_cases hpx : p = x
  · subst hpx
    simp [hx]
  · simp [hpx]

theorem Objects.holds_leaf_value (σ : Objects.Store G) (p : Objects.AtomPtr G) (c : Atom G)
    (hp : Objects.Store.holds σ p c) (h1 : c.get_type ≠ AtomType.EXPR)
    (h2 : c.get_type ≠ AtomType.VARIABLE) : c.is_value = true := by
  cases c <;> cases p <;>
    simp [Objects.Store.holds, Atom.get_type, Atom.is_value] at hp h1 h2 ⊢

theorem Objects.holds_value_pointer (σ σ' : Objects.Store G) (q q' : Objects.AtomPtr G)
    (v : Atom G) (hv : v.is_value = true) (hq : Objects.Store.holds σ q v)
    (hq' : Objects.Store.holds σ' q' v) : q = q' := by
  cases v <;> cases q <;> cases q' <;>
    simp [Objects.Store.holds, Atom.is_value] at hq hq' hv ⊢
  · rw [hq, hq']
  · rw [hq, hq']

theorem Objects.evaluating_refl (h : Host G) (σ0 : Objects.Store G) (touched : List Nat) :
    Objects.Evaluating h σ0 touched σ0 := by
  intro address pointers0 h0
  exact ⟨pointers0, h0, rfl, fun _ => rfl, fun j q0 hj => Or.inl hj⟩

theorem Objects.evaluating_append (h : Host G) (σ0 σ new : Objects.Store G)
    (touched : List Nat) (hev : Objects.Evaluating h σ0 touched σ) :
    Objects.Evaluating h σ0 touched (σ ++ new) := by
  intro address pointers0 h0
  obtain ⟨pointers, h1, h2, h3, h4⟩ := hev address pointers0 h0
  have hlt : address < σ.length := (List.getElem?_eq_some.1 h1).1
  refine ⟨pointers, by rw [List.getElem?_append_left hlt]; exact h1, h2, h3, ?_⟩
  intro j q0 hj
  rcases h4 j q0 hj with e | ⟨t, v, q, ht, hte, hb, hv, hq, hh⟩
  · exact Or.inl e
  · exact Or.inr ⟨t, v, q, ht, hte, hb, hv, hq,
      (Objects.holds_of_value σ q v hv hh).2.2.1 _⟩

theorem Objects.evaluating_write (h : Host G) (σ0 σ new : Objects.Store G)
    (touched : List Nat) (p i e : Nat) (q : Objects.AtomPtr G) (c v : Atom G)
    (pointers0 pointers : List (Objects.AtomPtr G))
    (hev : Objects.Evaluating h σ0 touched σ) (hp : p ∈ touched)
    (h0 : σ0[p]? = some pointers0) (hi : pointers0[i]? = some (.expr e))
    (hc : Objects.Store.holds σ0 (.expr e) c) (hb : c.bottom_up h = some v)
    (hv : v.is_value = true) (hq : Objects.Store.holds σ q v)
    (hpointers : σ[p]? = some pointers) :
    Objects.Evaluating h σ0 touched (σ.set p (pointers.set i q) ++ new) := by
  intro address ps0 ha0
  obtain ⟨ps, h1, h2, h3, h4⟩ := hev address ps0 ha0
  have hlt : address < σ.length := (List.getElem?_eq_some.1 h1).1
  rw [Objects.get_write σ p address _ new hlt]
  by_cases hpa : p = address
  · subst hpa
    rw [h0] at ha0
    simp only [Option.some.injEq] at ha0
    subst ha0
    rw [hpointers] at h1
    simp only [Option.some.injEq] at h1
    subst h1
    simp only [if_true]
    refine ⟨_, rfl, by simpa using h2, fun hn => absurd hp hn, ?_⟩
    intro j q0 hj
    by_cases hij : i = j
    · subst hij
      rw [hi] at hj
      simp only [Option.some.injEq] at hj
      subst hj
      have hlen : i < pointers.length := by
        rw [h2]
        exact (List.getElem?_eq_some.1 hi).1
      exact Or.inr ⟨c, v, q, hc, by cases c <;> simp_all [Objects.Store.holds, Atom.get_type],
        hb, hv, List.getElem?_set_self hlen,
        (Objects.holds_of_value σ q v hv hq).2.2.1 _⟩
    · rw [List.getElem?_set_ne hij]
      rcases h4 j q0 hj with e' | ⟨t, v', q', ht, hte, hb', hv', hq', hh⟩
      · exact Or.inl e'
      · exact Or.inr ⟨t, v', q', ht, hte, hb', hv', hq',
          (Objects.holds_of_value σ q' v' hv' hh).2.2.1 _⟩
  · simp only [hpa, if_false]
    refine ⟨ps, h1, h2, h3, ?_⟩
    intro j q0 hj
    rcases h4 j q0 hj with e' | ⟨t, v', q', ht, hte, hb', hv', hq', hh⟩
    · exact Or.inl e'
    · exact Or.inr ⟨t, v', q', ht, hte, hb', hv', hq',
        (Objects.holds_of_value σ q' v' hv' hh).2.2.1 _⟩

theorem Objects.settled_refl (σ : Objects.Store G) : Objects.Settled σ σ :=
  fun _ pointers hp => ⟨pointers, hp, rfl, fun _ _ hj _ => hj⟩

theorem Objects.settled_trans (σ σ' σ'' : Objects.Store G) (h1 : Objects.Settled σ σ')
    (h2 : Objects.Settled σ' σ'') : Objects.Settled σ σ'' := by
  intro address pointers hp
  obtain ⟨ps', hp', hl', hs'⟩ := h1 address pointers hp
  obtain ⟨ps'', hp'', hl'', hs''⟩ := h2 address ps' hp'
  exact ⟨ps'', hp'', hl''.trans hl', fun j q hj hq => hs'' j q (hs' j q hj hq) hq⟩

theorem Objects.settled_write (σ new : Objects.Store G) (p i : Nat) (q : Objects.AtomPtr G)
    (pointers : List (Objects.AtomPtr G)) (hpointers : σ[p]? = some pointers)
    (hslot : ∀ q', pointers[i]? = some q' → q'.get_type ≠ AtomType.EXPR → q' = q) :
    Objects.Settled σ (σ.set p (pointers.set i q) ++ new) := by
  intro address ps ha
  have hlt : address < σ.length := (List.getElem?_eq_some.1 ha).1
  rw [Objects.get_write σ p address _ new hlt]
  by_cases hpa : p = address
  · subst hpa
    rw [hpointers] at ha
    simp only [Option.some.injEq] at ha
    subst ha
    simp only [if_true]
    refine ⟨_, rfl, by simp, ?_⟩
    intro j q' hj hq'
    by_cases hij : i = j
    · subst hij
      rw [List.getElem?_set_self (List.getElem?_eq_some.1 hj).1, hslot q' hj hq']
    · rw [List.getElem?_set_ne hij]
      exact hj
  · simp only [hpa, if_false]
    exact ⟨ps, ha, rfl, fun _ _ hj _ => hj⟩

theorem Objects.entries_of_not_expr (σ : Objects.Store G) (p : Objects.AtomPtr G)
    (c : Atom G) (parent : Option Nat) (i : Nat) (hc : c.get_type ≠ AtomType.EXPR) :
    Objects.entries σ p c parent i = [] := by
  cases c with
  | expr cs => exact absurd rfl hc
  | _ => cases p <;> rfl

theorem Atom.execute_host (h : Host G) (payload : G) (args : List (Atom G))
    (result : GroundingSpace G) (value : Atom G)
    (hexec : h.execute payload args = ⟨[value], none⟩) :
    Atom.execute h (.grounded payload) args result
      = ⟨.ok (), ⟨result.content ++ [value]⟩, []⟩ := by
  rw [Atom.execute]
  simp only [hexec]

theorem Objects.slots_values (h : Host G) (σ : Objects.Store G) (cs : List (Atom G)) :
    ∀ (pointers : List (Objects.AtomPtr G)), pointers.length = cs.length →
      (∀ (k : Nat) (c : Atom G), cs[k]? = some c → ∃ (q : Objects.AtomPtr G) (v : Atom G),
        pointers[k]? = some q ∧ c.bottom_up h = some v ∧ v.is_value = true ∧
          Objects.Store.holds σ q v) →
      ∃ vs, Atom.bottom_up_children h cs = some vs ∧ (∀ v ∈ vs, v.is_value = true) ∧
        Objects.Store.holds_all σ pointers vs := by
  induction cs with
  | nil =>
    intro pointers hlen _
    cases pointers with
    | nil => exact ⟨[], rfl, by simp, by simp [Objects.Store.holds_all]⟩
    | cons p ps => simp at hlen
  | cons c cs ih =>
    intro pointers hlen hs
    cases pointers with
    | nil => simp at hlen
    | cons p ps =>
      obtain ⟨q, v, hq, hb, hv, hh⟩ := hs 0 c (by simp)
      simp only [List.getElem?_cons_zero, Option.some.injEq] at hq
      subst hq
      obtain ⟨vs, hvs, hval, hall⟩ := ih ps (by simpa using hlen)
        (fun k c' hk => by simpa using hs (k + 1) c' (by simpa using hk))
      refine ⟨v :: vs, by simp [Atom.bottom_up_children, hb, hvs], ?_, ?_⟩
      · intro x hx
        rcases List.mem_cons.1 hx with e | e
        · rw [e]; exact hv
        · exact hval x e
      · simp only [Objects.Store.holds_all]
        exact ⟨hh, hall⟩

theorem Objects.holds_all_values_not_variable (σ : Objects.Store G)
    (ps : List (Objects.AtomPtr G)) (vs : List (Atom G))
    (hp : Objects.Store.holds_all σ ps vs) (hv : ∀ v ∈ vs, v.is_value = true) :
    ∀ child ∈ ps, child.get_type ≠ AtomType.VARIABLE := by
  induction ps generalizing vs with
  | nil => simp
  | cons p ps ih =>
    cases vs with
    | nil => simp [Objects.Store.holds_all] at hp
    | cons v vs =>
      simp only [Objects.Store.holds_all] at hp
      intro child hc
      rcases List.mem_cons.1 hc with e | e
      · rw [e]
        exact (Objects.holds_of_value σ p v (hv v (List.mem_cons_self _ _)) hp.1).2.1
      · exact ih vs hp.2 (fun x hx => hv x (List.mem_cons_of_mem _ hx)) child e

mutual
/-- The entries of an expression `c` whose operators return one value, held by the object
`e` that was child `i` of the object `p`, are executed in `expression_count` steps, which
leave a pointer to the value of `c` as child `i` of `p`. -/
theorem Objects.evaluate_expression (h : Host G) (kb : SpaceAPI G)
    (hkb : kb.get_type = GroundingSpace.TYPE) (fuel : Nat) (σ0 : Objects.Store G)
    (touched : List Nat) (a : Nat) (rest : List (Objects.AtomPtr G)) (c : Atom G)
    (e p i : Nat) (pointers0 : List (Objects.AtomPtr G))
    (hc : Objects.Store.holds σ0 (.expr e) c) (hint : c.interpretable = true)
    (hops : ∀ op ∈ c.operators, Atom.host_returns_one_value h op)
    (h0 : σ0[p]? = some pointers0) (hi : pointers0[i]? = some (.expr e))
    (hp : p ∈ touched) (hF : ∀ x ∈ Objects.Store.expressions σ0 (.expr e) c, x ∈ touched) :
    ∀ (σ : Objects.Store G) (w : Nat) (base : List Objects.SubExpression),
      Objects.Evaluating h σ0 touched σ →
      σ[w]? = some [.simplifier a (base ++ Objects.entries σ0 (.expr e) c (some p) i)] →
      ∃ (σ' : Objects.Store G) (w' : Nat) (v : Atom G),
        Objects.GroundingSpace.interpret_steps h (fuel + 2) c.expression_count σ
            (rest ++ [.expr w]) kb
          = some (.ok (σ', rest ++ [.expr w'])) ∧
        σ'[w']? = some [.simplifier a base] ∧
        Objects.Evaluating h σ0 touched σ' ∧ Objects.Settled σ σ' ∧
        c.bottom_up h = some v ∧ v.is_value = true ∧
        (∃ (pointers' : List (Objects.AtomPtr G)) (q : Objects.AtomPtr G),
          σ'[p]? = some pointers' ∧ pointers'[i]? = some q ∧ Objects.Store.holds σ' q v) ∧
        ∀ j, j < c.expression_count → ∃ (σj : Objects.Store G) (wj : Nat),
          Objects.GroundingSpace.interpret_steps h (fuel + 2) j σ (rest ++ [.expr w]) kb
            = some (.ok (σj, rest ++ [.expr wj])) := by
  match c with
  | .symbol _ => simp [Objects.Store.holds] at hc
  | .grounded _ => simp [Objects.Store.holds] at hc
  | .variable _ => simp [Objects.Store.holds] at hc
  | .simplifier _ _ => simp [Objects.Store.holds] at hc
  | .expr [] => simp [Atom.interpretable] at hint
  | .expr (op :: args) =>
    intro σ w base hev hw
    simp only [Atom.interpretable, Bool.and_eq_true, decide_eq_true_eq, List.all_eq_true] at hint
    obtain ⟨⟨hop, hnv⟩, hall⟩ := hint
    have hnv' : ∀ child ∈ op :: args, child.get_type ≠ AtomType.VARIABLE := fun child hm => by
      simpa using hnv child hm
    have hopne : op.get_type ≠ AtomType.EXPR := by rw [hop]; decide
    simp only [Objects.Store.holds] at hc
    cases hs : σ0[e]? with
    | none => simp [hs] at hc
    | some ptrs =>
      simp only [hs] at hc
      simp only [Objects.Store.expressions, hs, List.mem_cons] at hF
      simp only [Objects.entries, hs] at hw
      obtain ⟨σ1, w1, hrun1, hw1, hev1, hset1, ⟨pointers1, hp1, hslots⟩, hbefore1⟩ :=
        Objects.evaluate_children h kb hkb fuel σ0 touched a rest (op :: args) ptrs e [] hc
          (by simpa using hs) hall hnv'
          (fun o ho => hops o (by simp only [Atom.operators]; exact List.mem_append_right _ ho))
          (hF e (Or.inl rfl)) (fun x hx => hF x (Or.inr hx)) σ w
          (base ++ [⟨e, some p, i⟩]) hev (by simpa using hw)
      simp only [List.length_nil, Nat.zero_add] at hslots
      -- the children of the object are pointers to the values of the children
      obtain ⟨ps1, hps1, hlen1, _, _⟩ := hev1 e ptrs hs
      rw [hp1] at hps1
      simp only [Option.some.injEq] at hps1
      subst hps1
      have hlen : pointers1.length = (op :: args).length := by
        rw [hlen1, Objects.holds_all_length σ0 ptrs (op :: args) hc]
      obtain ⟨vs, hvs, hval, hholds⟩ := Objects.slots_values h σ1 (op :: args) pointers1 hlen
        hslots
      have hhead : ∃ vargs, vs = op :: vargs := by
        simp only [Atom.bottom_up_children, Atom.bottom_up_of_not_expr h op hopne] at hvs
        cases hb : Atom.bottom_up_children h args with
        | none => simp [hb] at hvs
        | some vargs => simp only [hb, Option.some.injEq] at hvs; exact ⟨vargs, hvs.symm⟩
      obtain ⟨vargs, rfl⟩ := hhead
      obtain ⟨payload, hpayload, hone⟩ := hops op (by simp [Atom.operators])
      subst hpayload
      obtain ⟨value, hvalue, hexec⟩ := hone (.grounded payload :: vargs)
      obtain ⟨q, hq, hqh⟩ := Objects.alloc_value value hvalue
      match pointers1, hholds with
      | qop :: qargs, hholds =>
        simp only [Objects.Store.holds_all] at hholds
        have hqop : qop = .grounded payload := by
          cases qop <;> simp [Objects.Store.holds] at hholds
          rw [hholds.1]
        subst hqop
        have hvar := Objects.holds_all_values_not_variable σ1 qargs vargs hholds.2
          (fun v hv => hval v (List.mem_cons_of_mem _ hv))
        have hread := Objects.read_children_values σ1 fuel (.grounded payload :: qargs)
          (.grounded payload :: vargs)
          (by simp only [Objects.Store.holds_all]; exact hholds) hval
        obtain ⟨pointersP, hpP, hlenP, _, hslotP⟩ := hev1 p pointers0 h0
        have hiP : i < pointersP.length := by
          rw [hlenP]
          exact (List.getElem?_eq_some.1 hi).1
        obtain ⟨calls, hstep⟩ := Objects.step_reduce_sub h fuel σ1 rest w1 a base e p
          i payload qargs _ value q pointersP kb hkb hw1 hp1 hvar hread hexec (hq σ1) hpP hiP
        have hb : (Atom.expr (.grounded payload :: args)).bottom_up h = some value := by
          simp only [Atom.bottom_up, hvs,
            Atom.execute_host h payload _ ⟨[]⟩ value hexec, List.nil_append]
        have hce : Objects.Store.holds σ0 (.expr e) (.expr (.grounded payload :: args)) := by
          simp only [Objects.Store.holds, hs]
          exact hc
        refine ⟨σ1.set p (pointersP.set i q) ++ [[.simplifier a base]], σ1.length, value,
          ?_, ?_, ?_, ?_, hb, hvalue, ?_, ?_⟩
        · simp only [Atom.expression_count]
          rw [Nat.add_comm 1, Objects.steps_add h _ _ 1 _ _ _ _ kb hrun1,
            Objects.steps_succ h _ 0 _ _ _ _ kb calls hstep]
          rfl
        · rw [List.getElem?_append_right (by simp)]
          simp
        · exact Objects.evaluating_write h σ0 σ1 _ touched p i e q _ value pointers0 pointersP
            hev1 hp h0 hi hce hb hvalue (hqh σ1) hpP
        · refine Objects.settled_trans _ _ _ hset1
            (Objects.settled_write σ1 _ p i q pointersP hpP ?_)
          intro q' hq' hne
          rcases hslotP i _ hi with e1 | ⟨t, v', q'', ht, _, hb', hv', hq'', hh⟩
          · rw [hq'] at e1
            simp only [Option.some.injEq] at e1
            rw [e1] at hne
            exact absurd rfl hne
          · have htc := Objects.holds_unique σ0 _ _ _ ht hce
            subst htc
            rw [hb] at hb'
            simp only [Option.some.injEq] at hb'
            subst hb'
            rw [hq'] at hq''
            simp only [Option.some.injEq] at hq''
            subst hq''
            exact Objects.holds_value_pointer σ1 σ1 _ _ _ hvalue hh (hqh σ1)
        · refine ⟨pointersP.set i q, q, ?_, List.getElem?_set_self hiP, hqh _⟩
          rw [Objects.get_write σ1 p p _ _ (List.getElem?_eq_some.1 hpP).1]
          simp
        · simp only [Atom.expression_count]
          rw [Nat.add_comm 1]
          refine Objects.steps_before h _
            (fun r => ∃ (σj : Objects.Store G) (wj : Nat),
              r = some (.ok (σj, rest ++ [.expr wj]))) _ 1 _ _ _ _ kb hrun1 hbefore1 ?_
          intro j hj
          have hj0 : j = 0 := by omega
          rw [hj0]
          exact ⟨_, _, rfl⟩
/-- The entries of the children `cs` of the object `e`, from child `pre.length` on, are
executed in `expression_count_of cs` steps, which leave pointers to the values of these
children in the object. -/
theorem Objects.evaluate_children (h : Host G) (kb : SpaceAPI G)
    (hkb : kb.get_type = GroundingSpace.TYPE) (fuel : Nat) (σ0 : Objects.Store G)
    (touched : List Nat) (a : Nat) (rest : List (Objects.AtomPtr G)) (cs : List (Atom G))
    (ptrs : List (Objects.AtomPtr G)) (e : Nat) (pre : List (Objects.AtomPtr G))
    (hc : Objects.Store.holds_all σ0 ptrs cs) (he0 : σ0[e]? = some (pre ++ ptrs))
    (hint : Atom.interpretable_all cs = true)
    (hnv : ∀ child ∈ cs, child.get_type ≠ AtomType.VARIABLE)
    (hops : ∀ op ∈ Atom.operators_of cs, Atom.host_returns_one_value h op)
    (he : e ∈ touched) (hF : ∀ x ∈ Objects.Store.expressions_all σ0 ptrs cs, x ∈ touched) :
    ∀ (σ : Objects.Store G) (w : Nat) (base : List Objects.SubExpression),
      Objects.Evaluating h σ0 touched σ →
      σ[w]? = some [.simplifier a (base ++ Objects.entries_all σ0 e ptrs cs pre.length)] →
      ∃ (σ' : Objects.Store G) (w' : Nat),
        Objects.GroundingSpace.interpret_steps h (fuel + 2) (Atom.expression_count_of cs) σ
            (rest ++ [.expr w]) kb
          = some (.ok (σ', rest ++ [.expr w'])) ∧
        σ'[w']? = some [.simplifier a base] ∧
        Objects.Evaluating h σ0 touched σ' ∧ Objects.Settled σ σ' ∧
        (∃ pointers' : List (Objects.AtomPtr G), σ'[e]? = some pointers' ∧
          ∀ (k : Nat) (c : Atom G), cs[k]? = some c →
            ∃ (q : Objects.AtomPtr G) (v : Atom G), pointers'[pre.length + k]? = some q ∧
              c.bottom_up h = some v ∧ v.is_value = true ∧ Objects.Store.holds σ' q v) ∧
        ∀ j, j < Atom.expression_count_of cs → ∃ (σj : Objects.Store G) (wj : Nat),
          Objects.GroundingSpace.interpret_steps h (fuel + 2) j σ (rest ++ [.expr w]) kb
            = some (.ok (σj, rest ++ [.expr wj])) := by
  match cs, ptrs with
  | [], [] =>
    intro σ w base hev hw
    obtain ⟨ps, hps, _, _, _⟩ := hev e _ he0
    refine ⟨σ, w, rfl, by simpa [Objects.entries_all] using hw, hev, Objects.settled_refl σ,
      ⟨ps, hps, by simp⟩, ?_⟩
    intro j hj
    simp [Atom.expression_count_of] at hj
  | [], _ :: _ => simp [Objects.Store.holds_all] at hc
  | _ :: _, [] => simp [Objects.Store.holds_all] at hc
  | c :: cs', ptr :: ptrs' =>
    intro σ w base hev hw
    simp only [Objects.Store.holds_all] at hc
    simp only [Atom.interpretable_all, Bool.and_eq_true] at hint
    simp only [Objects.Store.expressions_all, List.mem_append] at hF
    simp only [Objects.entries_all] at hw
    have he0' : σ0[e]? = some ((pre ++ [ptr]) ++ ptrs') := by simpa using he0
    obtain ⟨σ1, w1, hrun1, hw1, hev1, hset1, ⟨pointers1, hp1, hslots1⟩, hbefore1⟩ :=
      Objects.evaluate_children h kb hkb fuel σ0 touched a rest cs' ptrs' e (pre ++ [ptr]) hc.2 he0'
        hint.2 (fun child hm => hnv child (List.mem_cons_of_mem _ hm))
        (fun o ho => hops o (by simp only [Atom.operators_of]; exact List.mem_append_right _ ho))
        he (fun x hx => hF x (Or.inr hx)) σ w
        (base ++ Objects.entries σ0 ptr c (some e) pre.length) hev
        (by simpa [List.append_assoc] using hw)
    simp only [List.length_append, List.length_singleton] at hslots1
    by_cases hce : c.get_type = AtomType.EXPR
    · match ptr, c, hc.1, hce with
      | .expr e', .expr ccs, hc1, _ =>
        obtain ⟨σ2, w2, v, hrun2, hw2, hev2, hset2, hb, hv, ⟨pointers2, q, hp2, hq2, hh2⟩,
            hbefore2⟩ :=
          Objects.evaluate_expression h kb hkb fuel σ0 touched a rest (.expr ccs) e' e pre.length
            (pre ++ .expr e' :: ptrs') hc1 hint.1
            (fun o ho => hops o (by
              simp only [Atom.operators_of]; exact List.mem_append_left _ ho))
            he0 (list_getElem?_middle pre ptrs' _) he (fun x hx => hF x (Or.inl hx)) σ1 w1 base
            hev1 hw1
        refine ⟨σ2, w2, ?_, hw2, hev2, Objects.settled_trans _ _ _ hset1 hset2,
          ⟨pointers2, hp2, ?_⟩, ?_⟩
        · simp only [Atom.expression_count_of]
          rw [Nat.add_comm (Atom.expr ccs).expression_count,
            Objects.steps_add h _ _ _ _ _ _ _ kb hrun1]
          exact hrun2
        · intro k c' hk
          cases k with
          | zero =>
            simp only [List.getElem?_cons_zero, Option.some.injEq] at hk
            subst hk
            exact ⟨q, v, by simpa using hq2, hb, hv, hh2⟩
          | succ k =>
            simp only [List.getElem?_cons_succ] at hk
            obtain ⟨q', v', hq', hb', hv', hh'⟩ := hslots1 k c' hk
            obtain ⟨ps2, hps2, _, hkeep⟩ := hset2 e pointers1 hp1
            rw [hp2] at hps2
            simp only [Option.some.injEq] at hps2
            subst hps2
            refine ⟨q', v', ?_, hb', hv', (Objects.holds_of_value σ1 q' v' hv' hh').2.2.1 _⟩
            rw [show pre.length + (k + 1) = pre.length + 1 + k by omega]
            exact hkeep _ q' hq' (Objects.holds_of_value σ1 q' v' hv' hh').1
        · simp only [Atom.expression_count_of]
          rw [Nat.add_comm (Atom.expr ccs).expression_count]
          exact Objects.steps_before h _
            (fun r => ∃ (σj : Objects.Store G) (wj : Nat),
              r = some (.ok (σj, rest ++ [.expr wj]))) _ _ _ _ _ _ kb hrun1 hbefore1 hbefore2
      | .symbol _, .expr _, hc1, _ => simp [Objects.Store.holds] at hc1
      | .grounded _, .expr _, hc1, _ => simp [Objects.Store.holds] at hc1
      | .variable _, .expr _, hc1, _ => simp [Objects.Store.holds] at hc1
      | .simplifier _ _, .expr _, hc1, _ => simp [Objects.Store.holds] at hc1
    · have hvalue : c.is_value = true :=
        Objects.holds_leaf_value σ0 ptr c hc.1 hce (hnv c (List.mem_cons_self _ _))
      rw [Objects.entries_of_not_expr σ0 ptr c _ _ hce, List.append_nil] at hw1
      refine ⟨σ1, w1, ?_, hw1, hev1, hset1, ⟨pointers1, hp1, ?_⟩, ?_⟩
      · simpa [Atom.expression_count_of, Atom.expression_count_of_not_expr c hce] using hrun1
      · intro k c' hk
        cases k with
        | zero =>
          simp only [List.getElem?_cons_zero, Option.some.injEq] at hk
          subst hk
          obtain ⟨ps1, hps1, _, _, hslot⟩ := hev1 e _ he0
          rw [hp1] at hps1
          simp only [Option.some.injEq] at hps1
          subst hps1
          rcases hslot pre.length ptr (list_getElem?_middle pre ptrs' ptr) with
            e1 | ⟨t, _, _, ht, hte, _⟩
          · exact ⟨ptr, c, by simpa using e1, Atom.bottom_up_of_not_expr h c hce, hvalue,
              (Objects.holds_of_value σ0 ptr c hvalue hc.1).2.2.1 _⟩
          · rw [Objects.holds_unique σ0 _ _ _ ht hc.1] at hte
            exact absurd hte hce
        | succ k =>
          simp only [List.getElem?_cons_succ] at hk
          obtain ⟨q', v', hq', hb', hv', hh'⟩ := hslots1 k c' hk
          exact ⟨q', v', by
            rw [show pre.length + (k + 1) = pre.length + 1 + k by omega]; exact hq',
            hb', hv', hh'⟩
      · simpa [Atom.expression_count_of, Atom.expression_count_of_not_expr c hce] using hbefore1
end

/-! ## Reduction of a compound expression (C2) -/

mutual
theorem Objects.holds_frame (σ σ' : Objects.Store G) (r : Objects.AtomPtr G) (t : Atom G)
    (hr : Objects.Store.holds σ r t)
    (hsame : ∀ x ∈ Objects.Store.expressions σ r t, σ'[x]? = σ[x]?) :
    Objects.Store.holds σ' r t := by
  match t, r with
  | .expr cs, .expr a =>
    simp only [Objects.Store.holds] at hr ⊢
    simp only [Objects.Store.expressions, List.mem_cons] at hsame
    rw [hsame a (Or.inl rfl)]
    cases hs : σ[a]? with
    | none => simp [hs] at hr
    | some ps =>
      simp only [hs] at hr hsame ⊢
      exact Objects.holds_all_frame σ σ' ps cs hr (fun x hx => hsame x (Or.inr hx))
  | .symbol _, r => cases r <;> simp_all [Objects.Store.holds]
  | .grounded _, r => cases r <;> simp_all [Objects.Store.holds]
  | .variable _, r => cases r <;> simp_all [Objects.Store.holds]
  | .simplifier _ _, r => cases r <;> simp_all [Objects.Store.holds]
  | .expr _, .symbol _ => simp [Objects.Store.holds] at hr
  | .expr _, .grounded _ => simp [Objects.Store.holds] at hr
  | .expr _, .variable _ => simp [Objects.Store.holds] at hr
  | .expr _, .simplifier _ _ => simp [Objects.Store.holds] at hr
theorem Objects.holds_all_frame (σ σ' : Objects.Store G) (rs : List (Objects.AtomPtr G))
    (ts : List (Atom G)) (hr : Objects.Store.holds_all σ rs ts)
    (hsame : ∀ x ∈ Objects.Store.expressions_all σ rs ts, σ'[x]? = σ[x]?) :
    Objects.Store.holds_all σ' rs ts := by
  match ts, rs with
  | [], [] => simp [Objects.Store.holds_all]
  | [], _ :: _ => simp [Objects.Store.holds_all] at hr
  | _ :: _, [] => simp [Objects.Store.holds_all] at hr
  | t :: ts, r :: rs =>
    simp only [Objects.Store.holds_all] at hr ⊢
    simp only [Objects.Store.expressions_all, List.mem_append] at hsame
    exact ⟨Objects.holds_frame σ σ' r t hr.1 (fun x hx => hsame x (Or.inl hx)),
      Objects.holds_all_frame σ σ' rs ts hr.2 (fun x hx => hsame x (Or.inr hx))⟩
end

mutual
theorem Objects.expressions_lt (σ : Objects.Store G) (r : Objects.AtomPtr G) (t : Atom G)
    (hr : Objects.Store.holds σ r t) :
    ∀ x ∈ Objects.Store.expressions σ r t, x < σ.length := by
  match t, r with
  | .expr cs, .expr a =>
    simp only [Objects.Store.holds] at hr
    simp only [Objects.Store.expressions, List.mem_cons]
    cases hs : σ[a]? with
    | none => simp [hs] at hr
    | some ps =>
      simp only [hs] at hr ⊢
      rintro x (e | e)
      · rw [e]
        exact (List.getElem?_eq_some.1 hs).1
      · exact Objects.expressions_all_lt σ ps cs hr x e
  | .symbol _, r => cases r <;> simp [Objects.Store.expressions]
  | .grounded _, r => cases r <;> simp [Objects.Store.expressions]
  | .variable _, r => cases r <;> simp [Objects.Store.expressions]
  | .simplifier _ _, r => cases r <;> simp [Objects.Store.expressions]
  | .expr _, .symbol _ => simp [Objects.Store.expressions]
  | .expr _, .grounded _ => simp [Objects.Store.expressions]
  | .expr _, .variable _ => simp [Objects.Store.expressions]
  | .expr _, .simplifier _ _ => simp [Objects.Store.expressions]
theorem Objects.expressions_all_lt (σ : Objects.Store G) (rs : List (Objects.AtomPtr G))
    (ts : List (Atom G)) (hr : Objects.Store.holds_all σ rs ts) :
    ∀ x ∈ Objects.Store.expressions_all σ rs ts, x < σ.length := by
  match ts, rs with
  | [], [] => simp [Objects.Store.expressions_all]
  | [], _ :: _ => simp [Objects.Store.holds_all] at hr
  | _ :: _, [] => simp [Objects.Store.holds_all] at hr
  | t :: ts, r :: rs =>
    simp only [Objects.Store.holds_all] at hr
    simp only [Objects.Store.expressions_all, List.mem_append]
    rintro x (e | e)
    · exact Objects.expressions_lt σ r t hr.1 x e
    · exact Objects.expressions_all_lt σ rs ts hr.2 x e
end

/-- C2, amended.  Let the pointer `a` designate the compound expression `A`, with `k`
expression nodes, in which every expression node has a host grounded operator as child 0 and
no variable child, the operators being pure functions that return exactly one atom, a symbol
or a host grounded atom.  Then `A` has a value `v` under the bottom-up evaluator, and with
enough fuel `k + 1` successive `interpret_step` calls take the space `rest ++ [a]` to `rest`
followed by a pointer to `v`, while after any smaller number of calls the top of the space is
still an expression.  The expression objects of `A` are modified on the way; every other
object is as it was, and so is every atom that shares no expression object with `A`, the
atoms of `rest` that share none included. -/
theorem interpret_steps_bottom_up (h : Host G) (σ : Objects.Store G)
    (rest : List (Objects.AtomPtr G)) (a : Nat) (children : List (Atom G)) (kb : SpaceAPI G)
    (hkb : kb.get_type = GroundingSpace.TYPE)
    (ha : Objects.Store.holds σ (.expr a) (.expr children))
    (hcompound : is_plain children = false)
    (hint : (Atom.expr children).interpretable = true)
    (hops : ∀ op ∈ (Atom.expr children).operators, Atom.host_returns_one_value h op) :
    ∃ v, (Atom.expr children).bottom_up h = some v ∧ v.get_type ≠ AtomType.EXPR ∧
      ∃ n, ∀ fuel, n ≤ fuel →
        (∃ (σ' : Objects.Store G) (q : Objects.AtomPtr G),
          Objects.GroundingSpace.interpret_steps h fuel
              ((Atom.expr children).expression_count + 1) σ (rest ++ [.expr a]) kb
            = some (.ok (σ', rest ++ [q])) ∧
          Objects.Store.holds σ' q v ∧
          (∀ (x : Nat) (pointers : List (Objects.AtomPtr G)), σ[x]? = some pointers →
            x ∉ Objects.Store.expressions σ (.expr a) (.expr children) →
            σ'[x]? = some pointers) ∧
          (∀ (r : Objects.AtomPtr G) (t : Atom G), Objects.Store.holds σ r t →
            (∀ x ∈ Objects.Store.expressions σ r t,
              x ∉ Objects.Store.expressions σ (.expr a) (.expr children)) →
            Objects.Store.holds σ' r t)) ∧
        ∀ j, j < (Atom.expr children).expression_count + 1 →
          ∃ (σj : Objects.Store G) (e : Nat),
            Objects.GroundingSpace.interpret_steps h fuel j σ (rest ++ [.expr a]) kb
              = some (.ok (σj, rest ++ [.expr e])) := by
  match children with
  | [] => simp [Atom.interpretable] at hint
  | op :: args =>
    have hint0 := hint
    simp only [Atom.interpretable, Bool.and_eq_true, decide_eq_true_eq, List.all_eq_true] at hint
    obtain ⟨⟨hop, hnv⟩, hall⟩ := hint
    have hnv' : ∀ child ∈ op :: args, child.get_type ≠ AtomType.VARIABLE := fun child hm => by
      simpa using hnv child hm
    have hopne : op.get_type ≠ AtomType.EXPR := by rw [hop]; decide
    have ha0 := ha
    simp only [Objects.Store.holds] at ha
    cases hs : σ[a]? with
    | none => simp [hs] at ha
    | some ptrs =>
      simp only [hs] at ha
      have htouch : Objects.Store.expressions σ (.expr a) (.expr (op :: args))
          = a :: Objects.Store.expressions_all σ ptrs (op :: args) := by
        simp only [Objects.Store.expressions, hs]
      -- the value
      obtain ⟨payload, hpayload, hone⟩ := hops op (by simp [Atom.operators])
      subst hpayload
      -- what any amount of fuel gives
      have key : ∀ f : Nat, (Atom.expr (.grounded payload :: args)).expression_count ≤ f + 2 →
          ∃ (σ2 : Objects.Store G) (q : Objects.AtomPtr G) (v : Atom G),
            Objects.GroundingSpace.interpret_steps h (f + 2)
                ((Atom.expr (.grounded payload :: args)).expression_count + 1) σ
                (rest ++ [.expr a]) kb
              = some (.ok (σ2, rest ++ [q])) ∧
            (Atom.expr (.grounded payload :: args)).bottom_up h = some v ∧
            v.is_value = true ∧ (∀ σ' : Objects.Store G, Objects.Store.holds σ' q v) ∧
            Objects.Evaluating h σ
              (Objects.Store.expressions σ (.expr a) (.expr (.grounded payload :: args))) σ2 ∧
            ∀ j, j < (Atom.expr (.grounded payload :: args)).expression_count + 1 →
              ∃ (σj : Objects.Store G) (e : Nat),
                Objects.GroundingSpace.interpret_steps h (f + 2) j σ (rest ++ [.expr a]) kb
                  = some (.ok (σj, rest ++ [.expr e])) := by
        intro f hf
        have hparse := Objects.parse_entries σ _ a ha0 (f + 2) hf none 0 []
        simp only [Objects.entries, hs, List.nil_append] at hparse
        have hfirst := Objects.interpret_step_builds h (f + 2) σ rest a ptrs _ kb hkb hs
          (by rw [Objects.holds_all_is_plain σ ptrs _ ha]; exact hcompound) hparse
        obtain ⟨σ1, w1, hrun1, hw1, hev1, _, ⟨pointers1, hp1, hslots⟩, hbefore1⟩ :=
          Objects.evaluate_children h kb hkb f σ
            (Objects.Store.expressions σ (.expr a) (.expr (.grounded payload :: args))) a rest
            (.grounded payload :: args) ptrs a [] ha (by simpa using hs) hall hnv'
            (fun o ho => hops o (by
              simp only [Atom.operators]; exact List.mem_append_right _ ho))
            (by rw [htouch]; exact List.mem_cons_self _ _)
            (fun x hx => by rw [htouch]; exact List.mem_cons_of_mem _ hx)
            (σ ++ [[.simplifier a
              (⟨a, none, 0⟩ :: Objects.entries_all σ a ptrs (.grounded payload :: args) 0)]])
            σ.length [⟨a, none, 0⟩]
            (Objects.evaluating_append h σ σ _ _ (Objects.evaluating_refl h σ _))
            (by simp)
        simp only [List.length_nil, Nat.zero_add] at hslots
        obtain ⟨ps1, hps1, hlen1, _, _⟩ := hev1 a ptrs hs
        rw [hp1] at hps1
        simp only [Option.some.injEq] at hps1
        subst hps1
        have hlen : pointers1.length = (Atom.grounded payload :: args).length := by
          rw [hlen1, Objects.holds_all_length σ ptrs _ ha]
        obtain ⟨vs, hvs, hval, hholds⟩ := Objects.slots_values h σ1 _ pointers1 hlen hslots
        have hhead : ∃ vargs, vs = .grounded payload :: vargs := by
          simp only [Atom.bottom_up_children, Atom.bottom_up_of_not_expr h _ hopne] at hvs
          cases hb : Atom.bottom_up_children h args with
          | none => simp [hb] at hvs
          | some vargs => simp only [hb, Option.some.injEq] at hvs; exact ⟨vargs, hvs.symm⟩
        obtain ⟨vargs, rfl⟩ := hhead
        obtain ⟨value, hvalue, hexec⟩ := hone (.grounded payload :: vargs)
        obtain ⟨q, hq, hqh⟩ := Objects.alloc_value value hvalue
        match pointers1, hholds with
        | qop :: qargs, hholds =>
          simp only [Objects.Store.holds_all] at hholds
          have hqop : qop = .grounded payload := by
            cases qop <;> simp [Objects.Store.holds] at hholds
            rw [hholds.1]
          subst hqop
          have hvar := Objects.holds_all_values_not_variable σ1 qargs vargs hholds.2
            (fun v hv => hval v (List.mem_cons_of_mem _ hv))
          have hread := Objects.read_children_values σ1 f (.grounded payload :: qargs)
            (.grounded payload :: vargs)
            (by simp only [Objects.Store.holds_all]; exact hholds) hval
          obtain ⟨calls, hstep⟩ := Objects.step_reduce_full h f σ1 rest w1 a a 0
            payload qargs _ value q kb hkb hw1 hp1 hvar hread hexec (hq σ1)
          have hb : (Atom.expr (.grounded payload :: args)).bottom_up h = some value := by
            simp only [Atom.bottom_up, hvs,
              Atom.execute_host h payload _ ⟨[]⟩ value hexec, List.nil_append]
          have hrun0 : Objects.GroundingSpace.interpret_steps h (f + 2)
              (Atom.expression_count_of (.grounded payload :: args) + 1) σ
              (rest ++ [.expr a]) kb
              = some (.ok (σ1, rest ++ [.expr w1])) := by
            rw [Objects.steps_succ h _ _ _ _ _ _ kb [] hfirst]
            exact hrun1
          refine ⟨σ1, q, value, ?_, hb, hvalue, hqh, hev1, ?_⟩
          · simp only [Atom.expression_count]
            rw [Nat.add_comm 1, Objects.steps_add h _ _ 1 _ _ _ _ kb hrun0,
              Objects.steps_succ h _ 0 _ _ _ _ kb calls hstep]
            rfl
          · simp only [Atom.expression_count]
            rw [Nat.add_comm 1]
            intro j hj
            cases j with
            | zero => exact ⟨σ, a, rfl⟩
            | succ j =>
              rw [Objects.steps_succ h _ _ _ _ _ _ kb [] hfirst]
              by_cases hjn : j < Atom.expression_count_of (.grounded payload :: args)
              · exact hbefore1 j hjn
              · have hje : j = Atom.expression_count_of (.grounded payload :: args) := by omega
                rw [hje]
                exact ⟨σ1, w1, hrun1⟩
      obtain ⟨_, _, v, _, hv, hvalue, _, _, _⟩ := key
        (Atom.expr (.grounded payload :: args)).expression_count (by omega)
      refine ⟨v, hv, by cases v <;> simp_all [Atom.is_value, Atom.get_type],
        (Atom.expr (.grounded payload :: args)).expression_count + 2, ?_⟩
      intro fuel hfuel
      obtain ⟨f, rfl⟩ : ∃ f, fuel = f + 2 := ⟨fuel - 2, by omega⟩
      obtain ⟨σ2, q, v', hrun, hv', _, hqh, hev, hbefore⟩ := key f (by omega)
      rw [hv] at hv'
      simp only [Option.some.injEq] at hv'
      subst hv'
      have hframe : ∀ (x : Nat) (pointers : List (Objects.AtomPtr G)), σ[x]? = some pointers →
          x ∉ Objects.Store.expressions σ (.expr a) (.expr (.grounded payload :: args)) →
          σ2[x]? = some pointers := by
        intro x pointers hx hnot
        obtain ⟨ps, hps, _, hsame, _⟩ := hev x pointers hx
        rw [hps, hsame hnot]
      refine ⟨⟨σ2, q, hrun, hqh σ2, hframe, ?_⟩, hbefore⟩
      intro r t hr hdisjoint
      refine Objects.holds_frame σ σ2 r t hr (fun x hx => ?_)
      have hlt := Objects.expressions_lt σ r t hr x hx
      rw [List.getElem?_eq_getElem hlt]
      exact hframe x _ (List.getElem?_eq_getElem hlt) (hdisjoint x hx)

/-- Witness of C2: with the host `Example.arith`, `<(f 1), (Add (Add 1 2) 3)>` becomes
`<(f 1), 6>` after 3 steps. -/
theorem interpret_steps_bottom_up_witness :
    Objects.Store.holds
        ([[.grounded .Add, .expr 1, .grounded (.number 3)],
          [.grounded .Add, .grounded (.number 1), .grounded (.number 2)],
          [.symbol "f", .grounded (.number 1)]] : Objects.Store Example.Value)
        (.expr 0)
        (.expr [.grounded .Add,
          .expr [.grounded .Add, .grounded (.number 1), .grounded (.number 2)],
          .grounded (.number 3)]) ∧
    (∃ v, (Atom.expr [Atom.grounded Example.Value.Add,
          .expr [.grounded .Add, .grounded (.number 1), .grounded (.number 2)],
          .grounded (.number 3)]).bottom_up Example.arith = some v ∧
      ∃ n, ∀ fuel, n ≤ fuel → ∃ σ' q,
        Objects.GroundingSpace.interpret_steps Example.arith fuel 3
            [[.grounded .Add, .expr 1, .grounded (.number 3)],
              [.grounded .Add, .grounded (.number 1), .grounded (.number 2)],
              [.symbol "f", .grounded (.number 1)]]
            [.expr 2, .expr 0] (.grounding ⟨[]⟩)
          = some (.ok (σ', [.expr 2, q])) ∧
        Objects.Store.holds σ' q v ∧
        Objects.Store.holds σ' (.expr 2) (.expr [.symbol "f", .grounded (.number 1)])) ∧
    Objects.GroundingSpace.interpret_steps Example.arith 3 3
        [[.grounded .Add, .expr 1, .grounded (.number 3)],
          [.grounded .Add, .grounded (.number 1), .grounded (.number 2)],
          [.symbol "f", .grounded (.number 1)]]
        [.expr 2, .expr 0] (.grounding ⟨[]⟩)
      = some (.ok
          ([[.grounded .Add, .grounded (.number 3), .grounded (.number 3)],
            [.grounded .Add, .grounded (.number 1), .grounded (.number 2)],
            [.symbol "f", .grounded (.number 1)],
            [.simplifier 0 [⟨0, none, 0⟩, ⟨1, some 0, 1⟩]],
            [.simplifier 0 [⟨0, none, 0⟩]]],
          [.expr 2, .grounded (.number 6)])) := by
  have hholds : Objects.Store.holds
      ([[.grounded .Add, .expr 1, .grounded (.number 3)],
        [.grounded .Add, .grounded (.number 1), .grounded (.number 2)],
        [.symbol "f", .grounded (.number 1)]] : Objects.Store Example.Value)
      (.expr 0)
      (.expr [.grounded .Add,
        .expr [.grounded .Add, .grounded (.number 1), .grounded (.number 2)],
        .grounded (.number 3)]) := by
    simp [Objects.Store.holds, Objects.Store.holds_all]
  have hrest : Objects.Store.holds
      ([[.grounded .Add, .expr 1, .grounded (.number 3)],
        [.grounded .Add, .grounded (.number 1), .grounded (.number 2)],
        [.symbol "f", .grounded (.number 1)]] : Objects.Store Example.Value)
      (.expr 2) (.expr [.symbol "f", .grounded (.number 1)]) := by
    simp [Objects.Store.holds, Objects.Store.holds_all]
  obtain ⟨v, hv, _, n, hn⟩ := interpret_steps_bottom_up Example.arith
    [[.grounded .Add, .expr 1, .grounded (.number 3)],
      [.grounded .Add, .grounded (.number 1), .grounded (.number 2)],
      [.symbol "f", .grounded (.number 1)]]
    [.expr 2] 0
    [.grounded .Add, .expr [.grounded .Add, .grounded (.number 1), .grounded (.number 2)],
      .grounded (.number 3)]
    (.grounding ⟨[]⟩) rfl hholds (by decide) (by decide)
    (by
      intro op hop
      have : op = .grounded .Add := by
        simpa [Atom.operators, Atom.operators_of] using hop
      rw [this]
      exact ⟨.Add, rfl, fun args => ⟨.grounded (.number (Example.sum args)), rfl, rfl⟩⟩)
  refine ⟨hholds, ⟨v, hv, n, ?_⟩, rfl⟩
  intro fuel hfuel
  obtain ⟨⟨σ', q, hrun, hq, _, hframe⟩, _⟩ := hn fuel hfuel
  refine ⟨σ', q, ?_, hq, ?_⟩
  · simpa [Atom.expression_count, Atom.expression_count_of] using hrun
  · refine hframe _ _ hrest ?_
    simp [Objects.Store.expressions, Objects.Store.expressions_all]

/-- C2 as stated fails, in two ways.  With an operator whose `execute` returns the variable
`$x` (one atom that is no expression), the compound expression `(g (g))` has the value `$x`
under the bottom-up evaluator, yet the third `interpret_step` does not produce it: after
two steps the object holds `(g $x)`, on which `handle_plain_expression` executes nothing
because a child is a variable, and returns no value for `ExpressionSimplifier::execute` to
test.  And with `Add`, when the space `<a, a>` holds the one object `a` =
`(Add (Add 1 2) 3)` twice, three steps leave `<(Add 3 3), 6>`: the value is produced, but
the atom below the top is not the one it was. -/
theorem interpret_steps_not_bottom_up :
    (is_plain [Atom.grounded (), Atom.expr [Atom.grounded ()]] = false ∧
      (Atom.expr [Atom.grounded (), Atom.expr [Atom.grounded ()]]).interpretable = true ∧
      (∀ args, Example.echo.execute () args = ⟨[.variable "x"], none⟩) ∧
      (Atom.expr [Atom.grounded (), Atom.expr [Atom.grounded ()]]).bottom_up Example.echo
        = some (.variable "x") ∧
      Objects.Store.read ([[.grounded (), .expr 1], [.grounded ()]] : Objects.Store Unit) 2
          (.expr 0)
        = some (.expr [.grounded (), .expr [.grounded ()]]) ∧
      Objects.GroundingSpace.interpret_steps Example.echo 2 2
          [[.grounded (), .expr 1], [.grounded ()]] [.expr 0] (.grounding ⟨[]⟩)
        = some (.ok
            ([[.grounded (), .variable "x"], [.grounded ()],
              [.simplifier 0 [⟨0, none, 0⟩, ⟨1, some 0, 1⟩]],
              [.simplifier 0 [⟨0, none, 0⟩]]],
            [.expr 3])) ∧
      Objects.GroundingSpace.interpret_steps Example.echo 2 3
          [[.grounded (), .expr 1], [.grounded ()]] [.expr 0] (.grounding ⟨[]⟩)
        = some (.error (.undefined "value of a call that returned none"))) ∧
    (is_plain [Atom.grounded Example.Value.Add,
        .expr [.grounded .Add, .grounded (.number 1), .grounded (.number 2)],
        .grounded (.number 3)] = false ∧
      (Atom.expr [Atom.grounded Example.Value.Add,
        .expr [.grounded .Add, .grounded (.number 1), .grounded (.number 2)],
        .grounded (.number 3)]).interpretable = true ∧
      (∀ args, Example.arith.execute .Add args
        = ⟨[.grounded (.number (Example.sum args))], none⟩) ∧
      (Atom.expr [Atom.grounded Example.Value.Add,
        .expr [.grounded .Add, .grounded (.number 1), .grounded (.number 2)],
        .grounded (.number 3)]).bottom_up Example.arith = some (.grounded (.number 6)) ∧
      Objects.Store.read
          ([[.grounded .Add, .expr 1, .grounded (.number 3)],
            [.grounded .Add, .grounded (.number 1), .grounded (.number 2)]] :
            Objects.Store Example.Value) 2 (.expr 0)
        = some (.expr [.grounded .Add,
            .expr [.grounded .Add, .grounded (.number 1), .grounded (.number 2)],
            .grounded (.number 3)]) ∧
      Objects.GroundingSpace.interpret_steps Example.arith 2 3
          [[.grounded .Add, .expr 1, .grounded (.number 3)],
            [.grounded .Add, .grounded (.number 1), .grounded (.number 2)]]
          [.expr 0, .expr 0] (.grounding ⟨[]⟩)
        = some (.ok
            ([[.grounded .Add, .grounded (.number 3), .grounded (.number 3)],
              [.grounded .Add, .grounded (.number 1), .grounded (.number 2)],
              [.simplifier 0 [⟨0, none, 0⟩, ⟨1, some 0, 1⟩]],
              [.simplifier 0 [⟨0, none, 0⟩]]],
            [.expr 0, .grounded (.number 6)])) ∧
      Objects.Store.read
          ([[.grounded .Add, .grounded (.number 3), .grounded (.number 3)],
            [.grounded .Add, .grounded (.number 1), .grounded (.number 2)],
            [.simplifier 0 [⟨0, none, 0⟩, ⟨1, some 0, 1⟩]],
            [.simplifier 0 [⟨0, none, 0⟩]]] : Objects.Store Example.Value) 2 (.expr 0)
        = some (.expr [.grounded .Add, .grounded (.number 3), .grounded (.number 3)])) := by
  have hecho : ∀ args result, Atom.execute Example.echo (.grounded ()) args result
      = ⟨.ok (), ⟨result.content ++ [.variable "x"]⟩, []⟩ := by
    intro args result
    rw [Atom.execute]
    rfl
  have hadd : ∀ args result, Atom.execute Example.arith (.grounded .Add) args result
      = ⟨.ok (), ⟨result.content ++ [.grounded (.number (Example.sum args))]⟩, []⟩ := by
    intro args result
    rw [Atom.execute]
    rfl
  refine ⟨⟨by decide, by decide, fun _ => rfl, ?_, rfl, rfl, rfl⟩,
    ⟨by decide, by decide, fun _ => rfl, ?_, rfl, rfl, rfl⟩⟩
  · simp [Atom.bottom_up, Atom.bottom_up_children, hecho]
  · simp [Atom.bottom_up, Atom.bottom_up_children, hadd, Example.sum]

/-! ## Objects: what a call of `execute` assigns to -/

theorem Objects.assigns_append (σ new : Objects.Store G) (x : Nat) :
    Objects.Store.assigns (σ ++ new) x
      ↔ Objects.Store.assigns σ x ∨ Objects.Store.assigns new x := by
  simp only [Objects.Store.assigns, List.mem_append]
  constructor
  · rintro ⟨pointers, hp | hp, rest⟩
    · exact Or.inl ⟨pointers, hp, rest⟩
    · exact Or.inr ⟨pointers, hp, rest⟩
  · rintro (⟨pointers, hp, rest⟩ | ⟨pointers, hp, rest⟩)
    · exact ⟨pointers, Or.inl hp, rest⟩
    · exact ⟨pointers, Or.inr hp, rest⟩

mutual
/-- The objects after `Store.alloc`: those before, and new ones, none of which holds a
simplifier with entries; the pointer made is no such simplifier either. -/
theorem Objects.alloc_fresh (σ : Objects.Store G) (atom : Atom G) :
    ∃ new, (Objects.Store.alloc σ atom).1 = σ ++ new ∧
      (∀ x, ¬ Objects.Store.assigns new x) ∧
      ∀ x, ¬ Objects.AtomPtr.assigns (Objects.Store.alloc σ atom).2 x := by
  match atom with
  | .symbol _ =>
    exact ⟨[], by simp [Objects.Store.alloc], by simp [Objects.Store.assigns],
      by simp [Objects.Store.alloc, Objects.AtomPtr.assigns]⟩
  | .grounded _ =>
    exact ⟨[], by simp [Objects.Store.alloc], by simp [Objects.Store.assigns],
      by simp [Objects.Store.alloc, Objects.AtomPtr.assigns]⟩
  | .variable _ =>
    exact ⟨[], by simp [Objects.Store.alloc], by simp [Objects.Store.assigns],
      by simp [Objects.Store.alloc, Objects.AtomPtr.assigns]⟩
  | .expr children =>
    obtain ⟨new, hnew, hfresh, hpointers⟩ := Objects.alloc_all_fresh σ children
    refine ⟨new ++ [(Objects.Store.alloc_all σ children).2], ?_, ?_, ?_⟩
    · simp only [Objects.Store.alloc]
      rw [← List.append_assoc, ← hnew]
    · intro x hx
      rcases (Objects.assigns_append _ _ x).1 hx with hx | ⟨pointers, hp, pointer, hq, ha⟩
      · exact hfresh x hx
      · simp only [List.mem_singleton] at hp
        subst hp
        exact hpointers pointer hq x ha
    · intro x
      simp [Objects.Store.alloc, Objects.AtomPtr.assigns]
  | .simplifier full _ =>
    obtain ⟨new, hnew, hfresh, _⟩ := Objects.alloc_fresh σ full
    refine ⟨new, ?_, hfresh, ?_⟩
    · simp only [Objects.Store.alloc]
      rw [← hnew]
      split <;> simp_all
    · intro x
      simp only [Objects.Store.alloc]
      split <;> simp [Objects.AtomPtr.assigns]
theorem Objects.alloc_all_fresh (σ : Objects.Store G) (atoms : List (Atom G)) :
    ∃ new, (Objects.Store.alloc_all σ atoms).1 = σ ++ new ∧
      (∀ x, ¬ Objects.Store.assigns new x) ∧
      ∀ pointer ∈ (Objects.Store.alloc_all σ atoms).2, ∀ x,
        ¬ Objects.AtomPtr.assigns pointer x := by
  match atoms with
  | [] =>
    exact ⟨[], by simp [Objects.Store.alloc_all], by simp [Objects.Store.assigns],
      by simp [Objects.Store.alloc_all]⟩
  | atom :: rest =>
    obtain ⟨new, hnew, hfresh, hpointer⟩ := Objects.alloc_fresh σ atom
    obtain ⟨new', hnew', hfresh', hpointers⟩ :=
      Objects.alloc_all_fresh (Objects.Store.alloc σ atom).1 rest
    refine ⟨new ++ new', ?_, ?_, ?_⟩
    · simp only [Objects.Store.alloc_all]
      rw [← List.append_assoc, ← hnew, ← hnew']
    · intro x hx
      rcases (Objects.assigns_append _ _ x).1 hx with hx | hx
      · exact hfresh x hx
      · exact hfresh' x hx
    · intro pointer hp x
      simp only [Objects.Store.alloc_all, List.mem_cons] at hp
      rcases hp with hp | hp
      · rw [hp]
        exact hpointer x
      · exact hpointers pointer hp x
end

theorem Objects.mem_of_get (σ : Objects.Store G) (x : Nat) (pointers : List (Objects.AtomPtr G))
    (hx : σ[x]? = some pointers) : pointers ∈ σ := by
  obtain ⟨hlt, heq⟩ := List.getElem?_eq_some.1 hx
  rw [← heq]
  exact List.getElem_mem hlt

theorem Objects.framed_refl (mine : Nat → Prop) (σ : Objects.Store G)
    (result : List (Objects.AtomPtr G)) : Objects.Framed mine σ result σ result :=
  ⟨⟨[], by simp, by simp⟩, le_refl _, fun _ hx => Or.inr hx, fun _ _ hx _ _ => hx⟩

theorem Objects.framed_weaken (mine mine' : Nat → Prop) (σ σ' : Objects.Store G)
    (result space : List (Objects.AtomPtr G))
    (hm : ∀ x, mine x → mine' x ∨ Objects.Store.assigns σ x)
    (hf : Objects.Framed mine σ result σ' space) : Objects.Framed mine' σ result σ' space := by
  obtain ⟨h1, h2, h3, h4⟩ := hf
  refine ⟨h1, h2, ?_, ?_⟩
  · intro x hx
    rcases h3 x hx with hx | hx
    · exact hm x hx
    · exact Or.inr hx
  · intro x pointers hx hn hs
    refine h4 x pointers hx ?_ hs
    intro hmx
    rcases hm x hmx with hmx | hmx
    · exact hn hmx
    · exact hs hmx

/-- A call of `handle_plain_expression` with a virtual `execute` that assigns to parents of
entries only assigns to parents of entries of simplifiers in the objects only. -/
theorem Objects.handle_plain_expression_framed
    (execute : Objects.AtomPtr G → List (Objects.AtomPtr G) → Objects.Store G →
      List (Objects.AtomPtr G) → Option (Objects.Run G Unit))
    (hexecute : ∀ op args σ result run, execute op args σ result = some run →
      Objects.Framed (Objects.AtomPtr.assigns op) σ result run.store run.space)
    (σ : Objects.Store G) (expr : Nat) (result : List (Objects.AtomPtr G))
    (run : Objects.Run G (Option Bool))
    (hrun : Objects.handle_plain_expression execute σ expr result = some run) :
    Objects.Framed (fun _ => False) σ result run.store run.space := by
  simp only [Objects.handle_plain_expression] at hrun
  cases hexpr : σ[expr]? with
  | none => simp [hexpr] at hrun
  | some children =>
    cases children with
    | nil =>
      simp only [hexpr, Option.some.injEq] at hrun
      rw [← hrun]
      exact Objects.framed_refl _ σ result
    | cons op rest =>
      simp only [hexpr] at hrun
      split_ifs at hrun with h1 h2
      · simp only [Option.some.injEq] at hrun
        rw [← hrun]
        exact Objects.framed_refl _ σ result
      · have hmem : (op :: rest) ∈ σ := Objects.mem_of_get σ expr _ hexpr
        have hmine : ∀ x, Objects.AtomPtr.assigns op x → False ∨ Objects.Store.assigns σ x :=
          fun x hx => Or.inr ⟨op :: rest, hmem, op, List.mem_cons_self _ _, hx⟩
        cases hcall : execute op (op :: rest) σ result with
        | none => simp [hcall] at hrun
        | some called =>
          have hframed := hexecute op (op :: rest) σ result called hcall
          rcases called with ⟨value, σ', space, calls⟩
          cases value with
          | ok _ =>
            simp only [hcall, Option.some.injEq] at hrun
            rw [← hrun]
            exact Objects.framed_weaken _ _ σ σ' result space hmine hframed
          | error e =>
            simp only [hcall, Option.some.injEq] at hrun
            rw [← hrun]
            exact Objects.framed_weaken _ _ σ σ' result space hmine hframed
      · simp only [Option.some.injEq] at hrun
        rw [← hrun]
        exact Objects.framed_refl _ σ result

/-- A call of `ExpressionSimplifier::execute` assigns to the parent of its top entry, and
what the reduction of the expression of that entry assigns to. -/
theorem Objects.simplifier_execute_framed
    (execute : Objects.AtomPtr G → List (Objects.AtomPtr G) → Objects.Store G →
      List (Objects.AtomPtr G) → Option (Objects.Run G Unit))
    (hexecute : ∀ op args σ result run, execute op args σ result = some run →
      Objects.Framed (Objects.AtomPtr.assigns op) σ result run.store run.space)
    (σ : Objects.Store G) (full : Nat) (subs : List Objects.SubExpression)
    (args result : List (Objects.AtomPtr G)) (run : Objects.Run G Unit)
    (hrun : Objects.ExpressionSimplifier.execute execute σ full subs args result = some run) :
    Objects.Framed (Objects.AtomPtr.assigns (Objects.AtomPtr.simplifier full subs : Objects.AtomPtr G))
      σ result run.store run.space := by
  simp only [Objects.ExpressionSimplifier.execute] at hrun
  cases hsub : subs.getLast? with
  | none =>
    simp only [hsub, Option.some.injEq] at hrun
    rw [← hrun]
    exact Objects.framed_refl _ σ result
  | some sub =>
    have hsubmem : sub ∈ subs := by
      obtain ⟨front, hfront⟩ := List.getLast?_eq_some_iff.1 hsub
      rw [hfront]
      simp
    simp only [hsub] at hrun
    cases hparent : sub.parent with
    | none =>
      simp only [hparent] at hrun
      cases hreduce : Objects.handle_plain_expression execute σ sub.expr result with
      | none => simp [hreduce] at hrun
      | some reduced =>
        have hframed := Objects.handle_plain_expression_framed execute hexecute σ sub.expr
          result reduced hreduce
        rcases reduced with ⟨value, σ', space, calls⟩
        have hweak := Objects.framed_weaken (fun _ => False)
          (Objects.AtomPtr.assigns (Objects.AtomPtr.simplifier full subs : Objects.AtomPtr G))
          σ σ' result space (fun x hx => hx.elim) hframed
        match value with
        | .error e =>
          simp only [hreduce, Option.some.injEq] at hrun
          rw [← hrun]
          exact hweak
        | .ok none =>
          simp only [hreduce, Option.some.injEq] at hrun
          rw [← hrun]
          exact hweak
        | .ok (some true) =>
          simp only [hreduce, Option.some.injEq] at hrun
          rw [← hrun]
          exact hweak
        | .ok (some false) =>
          simp only [hreduce, Option.some.injEq] at hrun
          rw [← hrun]
          obtain ⟨⟨added, hadded, hnone⟩, h2, h3, h4⟩ := hweak
          refine ⟨⟨added ++ [.expr sub.expr], ?_, ?_⟩, h2, h3, h4⟩
          · show space ++ [Objects.AtomPtr.expr sub.expr] = _
            rw [hadded, List.append_assoc]
          · intro pointer hp x
            rcases List.mem_append.1 hp with hp | hp
            · exact hnone pointer hp x
            · simp only [List.mem_singleton] at hp
              rw [hp]
              simp [Objects.AtomPtr.assigns]
    | some parent =>
      simp only [hparent] at hrun
      cases hreduce : Objects.handle_plain_expression execute σ sub.expr [] with
      | none => simp [hreduce] at hrun
      | some reduced =>
        have hframed := Objects.handle_plain_expression_framed execute hexecute σ sub.expr
          [] reduced hreduce
        rcases reduced with ⟨value, σ', tmp, calls⟩
        obtain ⟨⟨added, hadded, hnone⟩, h2, h3, h4⟩ := hframed
        simp only [List.nil_append] at hadded
        have h2 : σ.length ≤ σ'.length := h2
        have hkept : Objects.Framed
            (Objects.AtomPtr.assigns (Objects.AtomPtr.simplifier full subs : Objects.AtomPtr G))
            σ result σ' result := by
          refine ⟨⟨[], by simp, by simp⟩, h2, ?_, ?_⟩
          · intro x hx
            rcases h3 x hx with hx | hx
            · exact hx.elim
            · exact Or.inr hx
          · intro x pointers hx _ hs
            exact h4 x pointers hx (fun hf => hf) hs
        match value with
        | .error e =>
          simp only [hreduce, Option.some.injEq] at hrun
          rw [← hrun]
          exact hkept
        | .ok none =>
          simp only [hreduce, Option.some.injEq] at hrun
          rw [← hrun]
          exact hkept
        | .ok (some executed) =>
          simp only [hreduce] at hrun
          split at hrun
          · rename_i reduced hone
            cases hchildren : σ'[parent]? with
            | none => simp [hchildren] at hrun
            | some children =>
              simp only [hchildren] at hrun
              split_ifs at hrun with hindex
              · simp only [Option.some.injEq] at hrun
                rw [← hrun]
                have hlt : parent < σ'.length := (List.getElem?_eq_some.1 hchildren).1
                have hreduced : ∀ x, ¬ Objects.AtomPtr.assigns reduced x := by
                  intro x
                  have hmem : reduced ∈
                      (if executed then tmp else tmp ++ [Objects.AtomPtr.expr sub.expr]) := by
                    rw [hone]
                    simp
                  cases executed with
                  | true =>
                    simp only [if_true] at hmem
                    rw [hadded] at hmem
                    exact hnone reduced hmem x
                  | false =>
                    simp only [Bool.false_eq_true, if_false] at hmem
                    rcases List.mem_append.1 hmem with hmem | hmem
                    · rw [hadded] at hmem
                      exact hnone reduced hmem x
                    · simp only [List.mem_singleton] at hmem
                      rw [hmem]
                      simp [Objects.AtomPtr.assigns]
                refine ⟨⟨[.expr σ'.length], rfl, ?_⟩, ?_, ?_, ?_⟩
                · intro pointer hp x
                  simp only [List.mem_singleton] at hp
                  rw [hp]
                  simp [Objects.AtomPtr.assigns]
                · show σ.length ≤ (σ'.set parent (children.set sub.index reduced)
                    ++ [[Objects.AtomPtr.simplifier full subs.dropLast]]).length
                  simp only [List.length_append, List.length_set, List.length_singleton]
                  omega
                · intro x hx
                  rcases (Objects.assigns_append _ _ x).1 hx with
                    ⟨pointers, hp, pointer, hq, ha⟩ | ⟨pointers, hp, pointer, hq, ha⟩
                  · rcases List.mem_or_eq_of_mem_set hp with hp | hp
                    · rcases h3 x ⟨pointers, hp, pointer, hq, ha⟩ with hx | hx
                      · exact hx.elim
                      · exact Or.inr hx
                    · rw [hp] at hq
                      rcases List.mem_or_eq_of_mem_set hq with hq | hq
                      · rcases h3 x ⟨children, Objects.mem_of_get σ' parent _ hchildren, pointer, hq, ha⟩
                          with hx | hx
                        · exact hx.elim
                        · exact Or.inr hx
                      · rw [hq] at ha
                        exact (hreduced x ha).elim
                  · simp only [List.mem_singleton] at hp
                    rw [hp] at hq
                    simp only [List.mem_singleton] at hq
                    rw [hq] at ha
                    obtain ⟨entry, hentry, hpar⟩ := ha
                    exact Or.inl ⟨entry, List.mem_of_mem_dropLast hentry, hpar⟩
                · intro x pointers hx hmine hs
                  have hx' := h4 x pointers hx (fun hf => hf) hs
                  have hxlt : x < σ'.length := (List.getElem?_eq_some.1 hx').1
                  have hne : parent ≠ x := by
                    intro e
                    apply hmine
                    rw [← e]
                    exact ⟨sub, hsubmem, hparent⟩
                  show (σ'.set parent (children.set sub.index reduced)
                    ++ [[Objects.AtomPtr.simplifier full subs.dropLast]])[x]? = some pointers
                  rw [Objects.get_write σ' parent x _ _ hxlt]
                  simp only [hne, if_false]
                  exact hx'
              · simp only [Option.some.injEq] at hrun
                rw [← hrun]
                exact hkept
          · simp only [Option.some.injEq] at hrun
            rw [← hrun]
            exact hkept

/-- The virtual `execute` of a grounded atom `func` assigns to no other object than a parent
of an entry of `func` or of a simplifier in the objects, and adds atoms at the end of the
result space. -/
theorem Objects.execute_framed (h : Host G) (fuel : Nat) :
    ∀ (func : Objects.AtomPtr G) (args : List (Objects.AtomPtr G)) (σ : Objects.Store G)
      (result : List (Objects.AtomPtr G)) (run : Objects.Run G Unit),
      Objects.Atom.execute h fuel func args σ result = some run →
      Objects.Framed (Objects.AtomPtr.assigns func) σ result run.store run.space := by
  induction fuel with
  | zero =>
    intro func args σ result run hrun
    simp [Objects.Atom.execute] at hrun
  | succ fuel ih =>
    intro func args σ result run hrun
    have hhost : ∀ (added : List (Atom G)),
        Objects.Framed (Objects.AtomPtr.assigns func) σ result
          (Objects.Store.alloc_all σ added).1
          (result ++ (Objects.Store.alloc_all σ added).2) := by
      intro added
      obtain ⟨new, hnew, hfresh, hpointers⟩ := Objects.alloc_all_fresh σ added
      refine ⟨⟨_, rfl, hpointers⟩, ?_, ?_, ?_⟩
      · rw [hnew]
        simp
      · intro x hx
        rw [hnew] at hx
        rcases (Objects.assigns_append _ _ x).1 hx with hx | hx
        · exact Or.inr hx
        · exact (hfresh x hx).elim
      · intro x pointers hx _ _
        rw [hnew, List.getElem?_append_left (List.getElem?_eq_some.1 hx).1]
        exact hx
    match func with
    | .grounded payload =>
      simp only [Objects.Atom.execute] at hrun
      cases hr : Objects.read_children (Objects.Store.read σ fuel) args with
      | none => simp [hr] at hrun
      | some atoms =>
        simp only [hr] at hrun
        rcases he : h.execute payload atoms with ⟨added, thrown⟩
        simp only [he] at hrun
        cases thrown with
        | none =>
          simp only [Option.some.injEq] at hrun
          rw [← hrun]
          exact hhost added
        | some e =>
          simp only [Option.some.injEq] at hrun
          rw [← hrun]
          exact hhost added
    | .simplifier full subs =>
      simp only [Objects.Atom.execute] at hrun
      exact Objects.simplifier_execute_framed (Objects.Atom.execute h fuel) ih σ full subs args
        result run hrun
    | .symbol _ =>
      simp only [Objects.Atom.execute, Option.some.injEq] at hrun
      rw [← hrun]
      exact Objects.framed_refl _ σ result
    | .variable _ =>
      simp only [Objects.Atom.execute, Option.some.injEq] at hrun
      rw [← hrun]
      exact Objects.framed_refl _ σ result
    | .expr _ =>
      simp only [Objects.Atom.execute, Option.some.injEq] at hrun
      rw [← hrun]
      exact Objects.framed_refl _ σ result

/-! ## The simplifier: the assignment to a child (C15) -/

theorem Objects.holds_all_plain_values (σ : Objects.Store G) (ps : List (Objects.AtomPtr G))
    (vs : List (Atom G)) (hp : Objects.Store.holds_all σ ps vs)
    (hplain : Objects.is_plain ps = true)
    (hvar : ∀ child ∈ ps, child.get_type ≠ AtomType.VARIABLE) :
    ∀ v ∈ vs, v.is_value = true := by
  induction ps generalizing vs with
  | nil =>
    cases vs with
    | nil => simp
    | cons c cs => simp [Objects.Store.holds_all] at hp
  | cons p ps ih =>
    cases vs with
    | nil => simp [Objects.Store.holds_all] at hp
    | cons c cs =>
      simp only [Objects.Store.holds_all] at hp
      simp only [Objects.is_plain, List.all_cons, Bool.and_eq_true, decide_eq_true_eq] at hplain
      have ht := Objects.holds_get_type σ p c hp.1
      intro v hv
      rcases List.mem_cons.1 hv with e | e
      · rw [e]
        refine Objects.holds_leaf_value σ p c hp.1 ?_ ?_
        · rw [← ht]
          exact hplain.1
        · rw [← ht]
          exact hvar p (List.mem_cons_self _ _)
      · exact ih cs hp.2 hplain.2 (fun child hc => hvar child (List.mem_cons_of_mem _ hc)) v e

/-- The step on a plain expression whose operator is grounded and that has no variable child:
the call of the operator's `execute`, recorded first among the invocations. -/
theorem Objects.step_executes (h : Host G) (fuel : Nat) (σ : Objects.Store G)
    (rest : List (Objects.AtomPtr G)) (a : Nat) (op : Objects.AtomPtr G)
    (args : List (Objects.AtomPtr G)) (kb : SpaceAPI G)
    (hkb : kb.get_type = GroundingSpace.TYPE) (ha : σ[a]? = some (op :: args))
    (hplain : Objects.is_plain (op :: args) = true) (hop : op.get_type = AtomType.GROUNDED)
    (hvar : ∀ child ∈ op :: args, child.get_type ≠ AtomType.VARIABLE) :
    Objects.GroundingSpace.interpret_step h fuel σ (rest ++ [.expr a]) kb
      = (Objects.Atom.execute h fuel op (op :: args) σ rest).map fun run =>
          ⟨run.value, run.store, run.space, ⟨op, op :: args⟩ :: run.calls⟩ := by
  have hany : ((op :: args).any fun child => decide (child.get_type = AtomType.VARIABLE))
      = false := by
    rw [List.any_eq_false]
    intro child hc
    simpa using hvar child hc
  simp only [Objects.GroundingSpace.interpret_step, hkb, ne_eq, not_true_eq_false, if_false,
    List.getLast?_concat, List.dropLast_concat, ha, hplain, if_true,
    Objects.handle_plain_expression, hop, hany, Bool.false_eq_true]
  cases hcall : Objects.Atom.execute h fuel op (op :: args) σ rest with
  | none => rfl
  | some run =>
    rcases run with ⟨value, σ', space, calls⟩
    cases value <;> rfl

/-- C4, on the objects of the code: when the top atom is a plain expression whose child 0 is
grounded and none of whose children is a variable, `interpret_step` removes it and makes one
call of the operator's `execute`, with the whole child list as arguments and the space as
result space: the step ends as that call ends, and its invocations are this one followed by
those made inside the call.  The content afterwards is the pointers below the top followed
by what the call added, and an expression object is as before unless it is the parent of an
entry of a simplifier, the operator or one in the objects.  For a host operator whose
arguments hold no simplifier the step returns whenever there is fuel, the call is the only
invocation, and no object is changed: the objects afterwards are those before and those of
the atoms that `execute` added.  For a host operator with any arguments, a step that
returns has made this one invocation and changed no object. -/
theorem interpret_step_plain_grounded (h : Host G) (fuel : Nat) (σ : Objects.Store G)
    (rest : List (Objects.AtomPtr G)) (a : Nat) (op : Objects.AtomPtr G)
    (args : List (Objects.AtomPtr G)) (kb : SpaceAPI G)
    (hkb : kb.get_type = GroundingSpace.TYPE) (ha : σ[a]? = some (op :: args))
    (hplain : Objects.is_plain (op :: args) = true) (hop : op.get_type = AtomType.GROUNDED)
    (hvar : ∀ child ∈ op :: args, child.get_type ≠ AtomType.VARIABLE) :
    Objects.GroundingSpace.interpret_step h fuel σ (rest ++ [.expr a]) kb
      = (Objects.Atom.execute h fuel op (op :: args) σ rest).map (fun run =>
          ⟨run.value, run.store, run.space, ⟨op, op :: args⟩ :: run.calls⟩) ∧
    (∀ run, Objects.GroundingSpace.interpret_step h fuel σ (rest ++ [.expr a]) kb = some run →
      (∃ added, run.space = rest ++ added) ∧
      ∀ x pointers, σ[x]? = some pointers → ¬ Objects.AtomPtr.assigns op x →
        ¬ Objects.Store.assigns σ x → run.store[x]? = some pointers) ∧
    (∀ payload atoms, op = .grounded payload → Objects.Store.holds_all σ (op :: args) atoms →
      0 < fuel →
      Objects.GroundingSpace.interpret_step h fuel σ (rest ++ [.expr a]) kb
        = some ⟨(match (h.execute payload atoms).thrown with
              | none => Except.ok ()
              | some e => Except.error e),
            (Objects.Store.alloc_all σ (h.execute payload atoms).added).1,
            rest ++ (Objects.Store.alloc_all σ (h.execute payload atoms).added).2,
            [⟨op, op :: args⟩]⟩ ∧
      ∃ new, (Objects.Store.alloc_all σ (h.execute payload atoms).added).1 = σ ++ new) ∧
    (∀ payload run, op = .grounded payload →
      Objects.GroundingSpace.interpret_step h fuel σ (rest ++ [.expr a]) kb = some run →
      (∃ new, run.store = σ ++ new) ∧ run.calls = [⟨op, op :: args⟩]) := by
  have hstep := Objects.step_executes h fuel σ rest a op args kb hkb ha hplain hop hvar
  refine ⟨hstep, ?_, ?_, ?_⟩
  · intro run hrun
    rw [hstep] at hrun
    cases hcall : Objects.Atom.execute h fuel op (op :: args) σ rest with
    | none => simp [hcall] at hrun
    | some called =>
      simp only [hcall, Option.map_some', Option.some.injEq] at hrun
      obtain ⟨⟨added, hadded, _⟩, _, _, h4⟩ :=
        Objects.execute_framed h fuel op (op :: args) σ rest called hcall
      rw [← hrun]
      exact ⟨⟨added, hadded⟩, h4⟩
  · intro payload atoms hp hatoms hfuel
    subst hp
    obtain ⟨fuel, rfl⟩ : ∃ k, fuel = k + 1 := ⟨fuel - 1, by omega⟩
    have hvalues := Objects.holds_all_plain_values σ _ atoms hatoms hplain hvar
    have hread := Objects.read_children_values σ fuel _ atoms hatoms hvalues
    refine ⟨?_, ?_⟩
    · rw [hstep]
      simp only [Objects.Atom.execute, hread]
      rcases h.execute payload atoms with ⟨added, thrown⟩
      cases thrown <;> rfl
    · obtain ⟨new, hnew, _, _⟩ := Objects.alloc_all_fresh σ (h.execute payload atoms).added
      exact ⟨new, hnew⟩
  · intro payload run hp hrun
    subst hp
    rw [hstep] at hrun
    cases fuel with
    | zero => simp [Objects.Atom.execute] at hrun
    | succ fuel =>
      simp only [Objects.Atom.execute] at hrun
      cases hr : Objects.read_children (Objects.Store.read σ fuel)
          (Objects.AtomPtr.grounded payload :: args) with
      | none => simp [hr] at hrun
      | some atoms =>
        simp only [hr] at hrun
        rcases he : h.execute payload atoms with ⟨added, thrown⟩
        simp only [he] at hrun
        obtain ⟨new, hnew, _, _⟩ := Objects.alloc_all_fresh σ added
        cases thrown with
        | none =>
          simp only [Option.map_some', Option.some.injEq] at hrun
          rw [← hrun]
          exact ⟨⟨new, hnew⟩, rfl⟩
        | some e =>
          simp only [Option.map_some', Option.some.injEq] at hrun
          rw [← hrun]
          exact ⟨⟨new, hnew⟩, rfl⟩

/-- Witness of C4: with the host `Example.arith`, `<(Add 2 3)>` becomes `<5>` by the single
call of `Add` on `Add 2 3`, and the object `(Add 2 3)` is as before. -/
theorem interpret_step_plain_grounded_witness :
    Objects.is_plain
        [Objects.AtomPtr.grounded Example.Value.Add, .grounded (.number 2), .grounded (.number 3)]
      = true ∧
    Objects.GroundingSpace.interpret_step Example.arith 1
        [[.grounded .Add, .grounded (.number 2), .grounded (.number 3)]] [.expr 0]
        (.grounding ⟨[]⟩)
      = some ⟨.ok (), [[.grounded .Add, .grounded (.number 2), .grounded (.number 3)]],
          [.grounded (.number 5)],
          [⟨.grounded .Add, [.grounded .Add, .grounded (.number 2), .grounded (.number 3)]⟩]⟩ :=
  ⟨by decide,
    ((interpret_step_plain_grounded Example.arith 1
      [[.grounded .Add, .grounded (.number 2), .grounded (.number 3)]] [] 0 (.grounded .Add)
      [.grounded (.number 2), .grounded (.number 3)] (.grounding ⟨[]⟩) rfl rfl (by decide)
      rfl (by decide)).2.2.1 .Add
      [.grounded .Add, .grounded (.number 2), .grounded (.number 3)] rfl
      (by simp [Objects.Store.holds_all, Objects.Store.holds]) (by decide)).1⟩

/-- Counterexample to C4: the space `<a, a>` holds the one object `a` = `(Add (Add 1 2) 3)`
twice; after one step its top atom is `(S)`, a plain expression whose only child is the
simplifier of `a`, grounded and no variable.  The step on `(S)` calls `execute` of `S`
once, and the atom below the top, still the same pointer, is then `(Add 3 3)`: it is not
unchanged. -/
theorem interpret_step_changes_below_top :
    Objects.GroundingSpace.interpret_step Example.arith 2
        [[.grounded .Add, .expr 1, .grounded (.number 3)],
          [.grounded .Add, .grounded (.number 1), .grounded (.number 2)]]
        [.expr 0, .expr 0] (.grounding ⟨[]⟩)
      = some ⟨.ok (),
          [[.grounded .Add, .expr 1, .grounded (.number 3)],
            [.grounded .Add, .grounded (.number 1), .grounded (.number 2)],
            [.simplifier 0 [⟨0, none, 0⟩, ⟨1, some 0, 1⟩]]],
          [.expr 0, .expr 2], []⟩ ∧
    Objects.is_plain ([.simplifier 0 [⟨0, none, 0⟩, ⟨1, some 0, 1⟩]] :
        List (Objects.AtomPtr Example.Value)) = true ∧
    (Objects.AtomPtr.simplifier 0 [⟨0, none, 0⟩, ⟨1, some 0, 1⟩] :
        Objects.AtomPtr Example.Value).get_type = AtomType.GROUNDED ∧
    Objects.GroundingSpace.interpret_step Example.arith 2
        [[.grounded .Add, .expr 1, .grounded (.number 3)],
          [.grounded .Add, .grounded (.number 1), .grounded (.number 2)],
          [.simplifier 0 [⟨0, none, 0⟩, ⟨1, some 0, 1⟩]]]
        [.expr 0, .expr 2] (.grounding ⟨[]⟩)
      = some ⟨.ok (),
          [[.grounded .Add, .grounded (.number 3), .grounded (.number 3)],
            [.grounded .Add, .grounded (.number 1), .grounded (.number 2)],
            [.simplifier 0 [⟨0, none, 0⟩, ⟨1, some 0, 1⟩]],
            [.simplifier 0 [⟨0, none, 0⟩]]],
          [.expr 0, .expr 3],
          [⟨.simplifier 0 [⟨0, none, 0⟩, ⟨1, some 0, 1⟩],
              [.simplifier 0 [⟨0, none, 0⟩, ⟨1, some 0, 1⟩]]⟩,
            ⟨.grounded .Add, [.grounded .Add, .grounded (.number 1), .grounded (.number 2)]⟩]⟩ ∧
    Objects.Store.read
        ([[.grounded .Add, .expr 1, .grounded (.number 3)],
          [.grounded .Add, .grounded (.number 1), .grounded (.number 2)],
          [.simplifier 0 [⟨0, none, 0⟩, ⟨1, some 0, 1⟩]]] : Objects.Store Example.Value)
        2 (.expr 0)
      = some (.expr [.grounded .Add,
          .expr [.grounded .Add, .grounded (.number 1), .grounded (.number 2)],
          .grounded (.number 3)]) ∧
    Objects.Store.read
        ([[.grounded .Add, .grounded (.number 3), .grounded (.number 3)],
          [.grounded .Add, .grounded (.number 1), .grounded (.number 2)],
          [.simplifier 0 [⟨0, none, 0⟩, ⟨1, some 0, 1⟩]],
          [.simplifier 0 [⟨0, none, 0⟩]]] : Objects.Store Example.Value)
        2 (.expr 0)
      = some (.expr [.grounded .Add, .grounded (.number 3), .grounded (.number 3)]) :=
  ⟨rfl, by decide, rfl, rfl, rfl, rfl⟩

end Hyperon
